import Mathlib

/-!
# NTC thermistor library: conversions and coefficient fitting

Shallow embedding of `src/src/ntc.c` (Steinhart-Hart conversions) and of
`src/utils/coeff/ntc-coeff.c` (least-squares fit of the coefficients).

## Model of `double`

A C `double` is modelled by `Dbl α`: a finite value of an ordered field `α`, one of the two
infinities, or NaN.  The special values follow the IEEE-754 / C99 Annex F rules.  The exact
result of an operation on finite operands is stored through `Rounding.rnd`, and the carrier
fixes the rounding:

* `Bin64` (the rationals) carries IEEE-754 binary64, round to nearest, ties to even, with
  overflow to an infinity and gradual underflow (`round64`).  This is the arithmetic of the
  program.  What the program is shown to do, and every input on which a statement of the
  specification fails, is stated over `Dbl Bin64`.
* `ℝ` carries the identity: no rounding, no overflow.  This is the exact real arithmetic that
  the specification means by "exactly in real arithmetic"; statements over `Dbl ℝ` are about
  the algorithm in that arithmetic.

Zero is unsigned; dividing by it behaves as dividing by `+0`.  The functions of `<math.h>` act
on finite arguments through a `Libm α` record.  Over `ℝ` the theorems take a record that holds
the exact real functions (`Libm.Exact`).  Over `Bin64` the record is arbitrary, except that
`sqrt`, which IEEE-754 requires to be correctly rounded, is `sqrt64` where a value of it is
needed; the values that C99 Annex F fixes (`log(1) = +0`, `pow` at zero, the domain errors) are
part of `Dbl.log`, `Dbl.pow` and `Dbl.sqrt`.
-/

/-- A C `double`: finite value, `+Inf`, `-Inf` or `NaN`. -/
inductive Dbl (α : Type) where
  | fin (a : α)
  | pinf
  | ninf
  | nan
  deriving DecidableEq

/-- How the exact value of a finite result is stored in a `double`. -/
class Rounding (α : Type) where
  rnd : α → Dbl α

/-- The functions of `<math.h>` used by the sources, on finite arguments inside their domain:
`sqrt` on `a ≥ 0`, `exp` everywhere, `log` on `a > 0`, `pow` on a base `a > 0`. -/
structure Libm (α : Type) where
  sqrt : α → α
  exp : α → α
  log : α → α
  pow : α → α → α

/-- The math library computes the exact real functions. -/
def Libm.Exact (m : Libm ℝ) : Prop :=
  m.sqrt = Real.sqrt ∧ m.exp = Real.exp ∧ m.log = Real.log ∧ m.pow = fun a b => a ^ b

namespace Dbl

variable {α : Type} [LinearOrderedField α]

/-- Unary minus. -/
def neg : Dbl α → Dbl α
  | fin a => fin (-a)
  | pinf => ninf
  | ninf => pinf
  | nan => nan

/-- The infinity carrying the sign of `a`; NaN when `a = 0`. -/
def infOfSign (a : α) : Dbl α :=
  if 0 < a then pinf else if a < 0 then ninf else nan

/-- The comparison `x < y` of two doubles; false as soon as one of them is NaN. -/
def lt : Dbl α → Dbl α → Bool
  | fin a, fin b => decide (a < b)
  | fin _, pinf => true
  | ninf, fin _ => true
  | ninf, pinf => true
  | _, _ => false

instance : Neg (Dbl α) := ⟨neg⟩

section integers

variable [FloorRing α]

/-- The finite value `b` is an integer. -/
def isInt (b : α) : Prop := ((⌊b⌋ : ℤ) : α) = b

instance (b : α) : Decidable (isInt b) := by unfold isInt; infer_instance

/-- The finite value `b` is an odd integer. -/
def isOddInt (b : α) : Prop := isInt b ∧ ⌊b⌋ % 2 = 1

instance (b : α) : Decidable (isOddInt b) := by unfold isOddInt; infer_instance

end integers

variable [Rounding α]

/-- Addition: the rounded sum of finite operands; `Inf + (-Inf)` and anything with NaN is
NaN. -/
def add : Dbl α → Dbl α → Dbl α
  | fin a, fin b => Rounding.rnd (a + b)
  | fin _, pinf => pinf
  | fin _, ninf => ninf
  | pinf, fin _ => pinf
  | pinf, pinf => pinf
  | ninf, fin _ => ninf
  | ninf, ninf => ninf
  | _, _ => nan

/-- Multiplication: the rounded product of finite operands; `0 * Inf` and anything with NaN
is NaN. -/
def mul : Dbl α → Dbl α → Dbl α
  | fin a, fin b => Rounding.rnd (a * b)
  | fin a, pinf => infOfSign a
  | fin a, ninf => infOfSign (-a)
  | pinf, fin b => infOfSign b
  | ninf, fin b => infOfSign (-b)
  | pinf, pinf => pinf
  | pinf, ninf => ninf
  | ninf, pinf => ninf
  | ninf, ninf => pinf
  | _, _ => nan

/-- Division: the rounded quotient of finite operands; `x / 0` is an infinity for finite
`x ≠ 0`, `0 / 0` and `Inf / Inf` are NaN, a finite value over an infinity is `0`. -/
def div : Dbl α → Dbl α → Dbl α
  | fin a, fin b => if b = 0 then infOfSign a else Rounding.rnd (a / b)
  | fin _, pinf => fin 0
  | fin _, ninf => fin 0
  | pinf, fin b => if 0 ≤ b then pinf else ninf
  | ninf, fin b => if 0 ≤ b then ninf else pinf
  | _, _ => nan

instance : Add (Dbl α) := ⟨add⟩
instance : Sub (Dbl α) := ⟨fun x y => add x (neg y)⟩
instance : Mul (Dbl α) := ⟨mul⟩
instance : Div (Dbl α) := ⟨div⟩
instance : OfScientific (Dbl α) :=
  ⟨fun k s e => Rounding.rnd (OfScientific.ofScientific k s e)⟩

/-- C `sqrt`: NaN on a negative argument. -/
def sqrt (m : Libm α) : Dbl α → Dbl α
  | fin a => if a < 0 then nan else Rounding.rnd (m.sqrt a)
  | pinf => pinf
  | ninf => nan
  | nan => nan

/-- C `exp`: the result overflows to `+Inf` or underflows as the rounding says. -/
def exp (m : Libm α) : Dbl α → Dbl α
  | fin a => Rounding.rnd (m.exp a)
  | pinf => pinf
  | ninf => fin 0
  | nan => nan

/-- C `log`: NaN on a negative argument, `-Inf` at zero, `+0` at one (C99 F.10.3.7). -/
def log (m : Libm α) : Dbl α → Dbl α
  | fin a =>
      if a < 0 then nan else if a = 0 then ninf else if a = 1 then fin 0
      else Rounding.rnd (m.log a)
  | pinf => pinf
  | ninf => nan
  | nan => nan

variable [FloorRing α]

/-- C `pow` (C99 F.10.4.4): in particular a finite negative base with a finite non-integer
exponent is a domain error and gives NaN. -/
def pow (m : Libm α) (x y : Dbl α) : Dbl α :=
  if y = fin 0 then fin 1
  else if x = fin 1 then fin 1
  else match x, y with
    | nan, _ => nan
    | _, nan => nan
    | fin a, fin b =>
        if 0 < a then Rounding.rnd (m.pow a b)
        else if a = 0 then (if 0 < b then fin 0 else pinf)
        else if isInt b then
          (if isOddInt b then Rounding.rnd (-(m.pow (-a) b)) else Rounding.rnd (m.pow (-a) b))
        else nan
    | fin a, pinf => if |a| < 1 then fin 0 else if |a| = 1 then fin 1 else pinf
    | fin a, ninf => if |a| < 1 then pinf else if |a| = 1 then fin 1 else fin 0
    | pinf, fin b => if 0 < b then pinf else fin 0
    | pinf, pinf => pinf
    | pinf, ninf => fin 0
    | ninf, fin b => if 0 < b then (if isOddInt b then ninf else pinf) else fin 0
    | ninf, pinf => pinf
    | ninf, ninf => fin 0

end Dbl

open Dbl

/-! ## The two arithmetics -/

/-- Exact real arithmetic: a finite result is stored as it is. -/
instance : Rounding ℝ := ⟨fin⟩

/-- The carrier of IEEE-754 binary64 arithmetic: a finite `double` is the rational it
denotes. -/
abbrev Bin64 : Type := ℚ

/-- The number of binary digits of `n`; the first argument bounds the recursion and `n` itself
is enough. -/
def bitLen : ℕ → ℕ → ℕ
  | 0, _ => 0
  | fuel + 1, n => if n = 0 then 0 else bitLen fuel (n / 2) + 1

/-- The exponent `⌊log2 a⌋` of a positive rational. -/
def ilog2 (a : ℚ) : ℤ :=
  let d : ℤ := (bitLen a.num.toNat a.num.toNat : ℤ) - (bitLen a.den a.den : ℤ)
  if (2 : ℚ) ^ d ≤ a then d else d - 1

/-- The integer nearest to a non-negative rational, a tie going to the even one. -/
def roundHalfEven (k : ℚ) : ℕ :=
  let f := k.num.toNat / k.den
  let r := k.num.toNat % k.den
  if 2 * r < k.den then f
  else if k.den < 2 * r then f + 1
  else if f % 2 = 0 then f else f + 1

/-- IEEE-754 binary64 rounding to nearest, ties to even: 53 significant bits, least exponent
`-1022` (below it the spacing stays `2^-1074`, so that tiny values lose bits and round to zero
from `2^-1075` down), and an infinity when the rounded value reaches `2^1024`. -/
def round64 (q : Bin64) : Dbl Bin64 :=
  if q = 0 then fin 0 else
  let a := |q|
  let e := max (ilog2 a) (-1022)
  let u : ℚ := 2 ^ (e - 52)
  let v : ℚ := (roundHalfEven (a / u) : ℚ) * u
  if (2 : ℚ) ^ (1024 : ℤ) ≤ v then (if 0 < q then pinf else ninf)
  else fin (if 0 < q then v else -v)

/-- Binary64 arithmetic: a finite result is rounded by `round64`. -/
instance : Rounding Bin64 := ⟨round64⟩

/-- The integer square root by bisection: the greatest `s` in `[lo, hi)` with `s * s ≤ n`, when
`lo * lo ≤ n < hi * hi`; the first argument bounds the recursion. -/
def isqrtAux : ℕ → ℕ → ℕ → ℕ → ℕ
  | 0, _, lo, _ => lo
  | fuel + 1, n, lo, hi =>
    if hi ≤ lo + 1 then lo else
    let mid := (lo + hi) / 2
    if mid * mid ≤ n then isqrtAux fuel n mid hi else isqrtAux fuel n lo mid

/-- The integer square root `⌊√n⌋`. -/
def isqrt (n : ℕ) : ℕ := isqrtAux (n + 1) n 0 (n + 1)

/-- The correctly rounded square root of binary64, which IEEE-754 requires of `sqrt`: the
53-bit value nearest to `√a`. -/
def sqrt64 (a : ℚ) : ℚ :=
  if a ≤ 0 then 0 else
  let e : ℤ := ⌊((ilog2 a : ℤ) : ℚ) / 2⌋
  let u : ℚ := 2 ^ (e - 52)
  let s : ℚ := a / (u * u)
  let f : ℕ := isqrt ⌊s⌋₊
  let h : ℚ := (f : ℚ) * f + f + 1 / 4
  let k : ℕ := if s < h then f else if h < s then f + 1 else if f % 2 = 0 then f else f + 1
  (k : ℚ) * u

section ntc

variable {α : Type} [LinearOrderedField α] [Rounding α]

/-- Absolute zero, `#define TABS (-273.15)`. -/
def TABS : Dbl α := -273.15

/-- Horner evaluation `poly(x, degree, p)` of `ntc.c`: `retval = retval * x + p[i]` for
`i = degree` down to `0`, starting from `0.0`. -/
def poly (x : Dbl α) (degree : ℕ) (p : Fin (degree + 1) → Dbl α) : Dbl α :=
  (List.finRange (degree + 1)).reverse.foldl (fun retval i => retval * x + p i) 0.0

/-- Conversion from resistance to temperature, `dNtcResToTemp` of `ntc.c`. -/
def dNtcResToTemp (m : Libm α) (dR : Dbl α) (dCoeff : Fin 4 → Dbl α) : Dbl α :=
  let ti := poly (log m dR) 3 dCoeff
  let ti := 1.0 / ti + TABS
  ti

variable [FloorRing α]

/-- Conversion from temperature to resistance, `dNtcTempToRes` of `ntc.c`. -/
def dNtcTempToRes (m : Libm α) (dT : Dbl α) (dCoeff : Fin 4 → Dbl α) : Dbl α :=
  let dT := dT - TABS
  let d := (dCoeff 0 - 1.0 / dT) / dCoeff 3
  let c := dCoeff 1 / dCoeff 3
  let b := dCoeff 2 / dCoeff 3
  let q := 2.0 / 27.0 * b * b * b - 1.0 / 3.0 * b * c + d
  let p := c - 1.0 / 3.0 * b * b
  let v := - pow m (q / 2.0 + sqrt m (q * q / 4.0 + p * p * p / 27.0)) (1.0 / 3.0)
  let u := pow m (-q / 2.0 + sqrt m (q * q / 4.0 + p * p * p / 27.0)) (1.0 / 3.0)
  let r := exp m (u + v - b / 3.0)
  r

end ntc

section coeff

variable {α : Type} [LinearOrderedField α] [Rounding α]

/-- A polynom of `ntc-coeff.c`: `typedef double polynom[M]` with `M = 4`. -/
abbrev polynom (α : Type) := Fin 4 → Dbl α

/-- The canonical base `{1, x, x^2, x^3}`, the initial value of the global `basis`. -/
def basis : Fin 4 → polynom α :=
  fun i j => if i = j then 1.0 else 0.0

/-- Horner evaluation `value(p, x)` of `ntc-coeff.c`: `i` runs from `M - 1` down to `0`. -/
def value (p : polynom α) (x : Dbl α) : Dbl α :=
  (List.finRange 4).reverse.foldl (fun retval i => retval * x + p i) 0.0

/-- Scalar product `skalarpoly(p, q)` over the global sample abscissas `x[0..n-1]`. -/
def skalarpoly (n : ℕ) (x : Fin n → Dbl α) (p q : polynom α) : Dbl α :=
  (List.finRange n).foldl (fun retval i => retval + value p (x i) * value q (x i)) 0.0

/-- In-place `mult(p, fact)`: `p[i] *= fact` for `i < M`. -/
def mult (p : polynom α) (fact : Dbl α) : polynom α :=
  (List.finRange 4).foldl (fun p i => Function.update p i (p i * fact)) p

/-- In-place `linear(p, q, fact)`: `p[i] += q[i] * fact` for `i < M`. -/
def linear (p q : polynom α) (fact : Dbl α) : polynom α :=
  (List.finRange 4).foldl (fun p i => Function.update p i (p i + q i * fact)) p

/-- One pass `fact = skalarpoly(p[i], p[j]); linear(p[i], p[j], -fact);` of the inner loop. -/
def orthoInner (n : ℕ) (x : Fin n → Dbl α) (i : Fin 4) (p : Fin 4 → polynom α) (j : Fin 4) :
    Fin 4 → polynom α :=
  let fact := skalarpoly n x (p i) (p j)
  Function.update p i (linear (p i) (p j) (-fact))

/-- One pass of the outer loop of `orthonormal`: the inner loop over `j < i`, then
`norm = skalarpoly(p[i], p[i]); mult(p[i], 1.0L / sqrt(norm));`. -/
def orthoOuter (m : Libm α) (n : ℕ) (x : Fin n → Dbl α) (p : Fin 4 → polynom α) (i : Fin 4) :
    Fin 4 → polynom α :=
  let p := ((List.finRange 4).filter (fun j => j < i)).foldl (orthoInner n x i) p
  let norm := skalarpoly n x (p i) (p i)
  Function.update p i (mult (p i) (1.0 / sqrt m norm))

/-- The function `orthonormal(p)` of `ntc-coeff.c` (the printing left out): the base `p` is
rewritten in place, row by row. -/
def orthonormal (m : Libm α) (n : ℕ) (x : Fin n → Dbl α) (p : Fin 4 → polynom α) :
    Fin 4 → polynom α :=
  (List.finRange 4).foldl (orthoOuter m n x) p

/-- Scalar product `skalar(p)` of a polynom with the sampled target values `y[0..n-1]`. -/
def skalar (n : ℕ) (x y : Fin n → Dbl α) (p : polynom α) : Dbl α :=
  (List.finRange n).foldl (fun retval i => retval + y i * value p (x i)) 0.0

/-- The function `approx()` of `ntc-coeff.c` (the printing left out): the result starts as the
zero polynom and accumulates `fact * basis[i]` with `fact = skalar(basis[i])`. -/
def approx (n : ℕ) (x y : Fin n → Dbl α) (b : Fin 4 → polynom α) : polynom α :=
  let erg : polynom α := fun _ => 0.0
  (List.finRange 4).foldl (fun erg i =>
    let fact := skalar n x y (b i)
    linear erg (b i) fact) erg

end coeff

section cubic

variable {α : Type} [Field α]

/-- The value `d = (a0 - 1 / (t - TABS)) / a3` that `dNtcTempToRes` computes on finite data. -/
def cubicD (t : α) (a : Fin 4 → α) : α := (a 0 - 1 / (t - (-273.15))) / a 3

/-- The value `c = a1 / a3` of `dNtcTempToRes`. -/
def cubicC (a : Fin 4 → α) : α := a 1 / a 3

/-- The value `b = a2 / a3` of `dNtcTempToRes`. -/
def cubicB (a : Fin 4 → α) : α := a 2 / a 3

/-- The value `q = 2/27 b^3 - 1/3 b c + d` of `dNtcTempToRes`. -/
def cubicQ (t : α) (a : Fin 4 → α) : α :=
  2 / 27 * cubicB a * cubicB a * cubicB a - 1 / 3 * cubicB a * cubicC a + cubicD t a

/-- The value `p = c - 1/3 b^2` of `dNtcTempToRes`. -/
def cubicP (a : Fin 4 → α) : α := cubicC a - 1 / 3 * cubicB a * cubicB a

/-- The argument `q^2/4 + p^3/27` of `sqrt` in `dNtcTempToRes`. -/
def cubicDisc (t : α) (a : Fin 4 → α) : α :=
  cubicQ t a * cubicQ t a / 4 + cubicP a * cubicP a * cubicP a / 27

end cubic

/-- The coefficients `a[]` of the Steinhart-Hart polynom in `main` of `t2r.c` and `r2t.c`. -/
def refCoeff {α : Type} [LinearOrderedField α] [Rounding α] : Fin 4 → Dbl α :=
  ![4.524024725919526e-4, 3.934722516618191e-4, -7.642331765196044e-6, 4.048572707661904e-7]

/-- The finite values held by `refCoeff`. -/
def refValue {α : Type} [Field α] : Fin 4 → α :=
  ![4.524024725919526e-4, 3.934722516618191e-4, -7.642331765196044e-6, 4.048572707661904e-7]

section finite

variable {α : Type} [Field α]

/-- The value `a0 + a1 t + a2 t^2 + a3 t^3` of a polynom with finite coefficients. -/
def cubicEval (p : Fin 4 → α) (t : α) : α := p 0 + p 1 * t + p 2 * t ^ 2 + p 3 * t ^ 3

/-- The sample inner product `[p, q] = Σ_k p(x_k) q(x_k)` on finite data. -/
def sampleInner (n : ℕ) (x : Fin n → α) (p q : Fin 4 → α) : α :=
  ∑ k, cubicEval p (x k) * cubicEval q (x k)

/-- The inner product `Σ_k y_k p(x_k)` of a polynom with the sampled targets on finite data. -/
def targetInner (n : ℕ) (x y : Fin n → α) (p : Fin 4 → α) : α :=
  ∑ k, y k * cubicEval p (x k)

end finite

section gramSchmidt

variable {α : Type} [Field α]

/-- One pass of the inner loop of `orthonormal` on finite data, seen on the row `r` being
rewritten: `r += Q[j] * (-[r, Q[j]])`. -/
def projRow (n : ℕ) (x : Fin n → α) (Q : Fin 4 → Fin 4 → α) (r : Fin 4 → α) (j : Fin 4) :
    Fin 4 → α :=
  fun k => r k + Q j k * (-(sampleInner n x r (Q j)))

/-- The row `i` after the inner loop of `orthonormal` on finite data. -/
def projAll (n : ℕ) (x : Fin n → α) (Q : Fin 4 → Fin 4 → α) (i : Fin 4) : Fin 4 → α :=
  ((List.finRange 4).filter (fun j => j < i)).foldl (projRow n x Q) (Q i)

/-- A base is triangular when polynom `i` has degree `i` with a positive leading
coefficient. -/
def Triangular (Q : Fin 4 → Fin 4 → ℝ) : Prop :=
  (∀ i k : Fin 4, i < k → Q i k = 0) ∧ ∀ i : Fin 4, 0 < Q i i

/-- The first `b` polynoms of the base are orthonormal for the sample inner product. -/
def OrthoUpTo (n : ℕ) (x : Fin n → ℝ) (b : ℕ) (Q : Fin 4 → Fin 4 → ℝ) : Prop :=
  ∀ j k : Fin 4, j.val < b → k.val < b → sampleInner n x (Q j) (Q k) = if j = k then 1 else 0

end gramSchmidt

/-- The finite values held by the canonical base `basis`. -/
def canonical {α : Type} [Field α] : Fin 4 → Fin 4 → α :=
  fun i j => if i = j then 1 else 0

/-- The linear combination `Σ_k g_k Q[k]` of the polynoms of a finite base. -/
def combo {α : Type} [Field α] (g : Fin 4 → α) (Q : Fin 4 → Fin 4 → α) : Fin 4 → α :=
  fun j => ∑ k, g k * Q k j

/-- The resistances of the four-point scenario. -/
def scenarioR {α : Type} [Field α] : Fin 4 → α := ![10000, 3500, 33000, 1200]

/-- Four distinct sample abscissas `0, 1, 2, 3`. -/
def sampleX {α : Type} [Field α] : Fin 4 → α := ![0, 1, 2, 3]

section passes

variable {α : Type} [LinearOrderedField α] [Rounding α]

/-- The inner loop of pass `i` of `orthonormal`: `j` runs over `0 .. i-1`. -/
def orthoProject (n : ℕ) (x : Fin n → Dbl α) (p : Fin 4 → polynom α) (i : Fin 4) :
    Fin 4 → polynom α :=
  ((List.finRange 4).filter (fun j => j < i)).foldl (orthoInner n x i) p

/-- The value `norm = skalarpoly(p[i], p[i])` that pass `i` of `orthonormal(p)` computes: the
passes `0 .. i-1` and the inner loop of pass `i` have run. -/
def orthoNorm (m : Libm α) (n : ℕ) (x : Fin n → Dbl α) (p : Fin 4 → polynom α) (i : Fin 4) :
    Dbl α :=
  let p := ((List.finRange 4).filter (fun j => j < i)).foldl (orthoOuter m n x) p
  let p := orthoProject n x p i
  skalarpoly n x (p i) (p i)

/-- One pass of the loop of `testresult` on the pair `(maxerr, temp)`. -/
def testStep (n : ℕ) (x y : Fin n → Dbl α) (erg : polynom α) (s : Dbl α × Dbl α)
    (i : Fin n) : Dbl α × Dbl α :=
  let val1 := 1.0 / value erg (x i) + TABS
  let val2 := 1.0 / y i + TABS
  let err := val1 - val2
  let err := if Dbl.lt err 0.0 then -err else err
  if Dbl.lt s.1 err then (err, val2) else s

/-- The function `testresult(erg)` of `ntc-coeff.c`: nothing when `verbose` is off, else the
pair `(maxerr, temp)` printed in its last line; both start at `0`. -/
def testresult (verbose : Bool) (n : ℕ) (x y : Fin n → Dbl α) (erg : polynom α) :
    Option (Dbl α × Dbl α) :=
  if verbose then some ((List.finRange n).foldl (testStep n x y erg) (0.0, 0.0)) else none

end passes

/-- The coefficients `g` with `c = Σ_k g_k Q[k]` for a triangular base `Q`, by back
substitution from the highest degree. -/
def solveTri {α : Type} [Field α] (Q : Fin 4 → Fin 4 → α) (c : Fin 4 → α) : Fin 4 → α :=
  let g3 := c 3 / Q 3 3
  let g2 := (c 2 - g3 * Q 3 2) / Q 2 2
  let g1 := (c 1 - g3 * Q 3 1 - g2 * Q 2 1) / Q 1 1
  let g0 := (c 0 - g3 * Q 3 0 - g2 * Q 2 0 - g1 * Q 1 0) / Q 0 0
  ![g0, g1, g2, g3]

/-- The base after the passes `0 .. i` of the outer loop of `orthonormal(p)`. -/
def orthoAfter {α : Type} [LinearOrderedField α] [Rounding α] (m : Libm α) (n : ℕ) (x : Fin n → Dbl α)
    (p : Fin 4 → polynom α) (i : Fin 4) : Fin 4 → polynom α :=
  ((List.finRange 4).filter (fun j => j ≤ i)).foldl (orthoOuter m n x) p

section locals

variable {α : Type} [LinearOrderedField α] [Rounding α]

/-- The local `b = dCoeff[2] / dCoeff[3]` of `dNtcTempToRes`. -/
def dNtcTempToRes_b (dCoeff : Fin 4 → Dbl α) : Dbl α :=
  dCoeff 2 / dCoeff 3

/-- The local `q` of `dNtcTempToRes`, as the code computes it. -/
def dNtcTempToRes_q (dT : Dbl α) (dCoeff : Fin 4 → Dbl α) : Dbl α :=
  let dT := dT - TABS
  let d := (dCoeff 0 - 1.0 / dT) / dCoeff 3
  let c := dCoeff 1 / dCoeff 3
  let b := dCoeff 2 / dCoeff 3
  2.0 / 27.0 * b * b * b - 1.0 / 3.0 * b * c + d

/-- The local `p` of `dNtcTempToRes`, as the code computes it. -/
def dNtcTempToRes_p (dCoeff : Fin 4 → Dbl α) : Dbl α :=
  let c := dCoeff 1 / dCoeff 3
  let b := dCoeff 2 / dCoeff 3
  c - 1.0 / 3.0 * b * b

/-- The argument `q * q / 4.0 + p * p * p / 27.0` that `dNtcTempToRes` hands to `sqrt`, as the
code computes it. -/
def dNtcTempToRes_disc (dT : Dbl α) (dCoeff : Fin 4 → Dbl α) : Dbl α :=
  let q := dNtcTempToRes_q dT dCoeff
  let p := dNtcTempToRes_p dCoeff
  q * q / 4.0 + p * p * p / 27.0

/-- The value `val2 = 1.0 / y[i] + TABS` of pass `i` of the loop of `testresult`. -/
def testVal2 (n : ℕ) (y : Fin n → Dbl α) (i : Fin n) : Dbl α :=
  1.0 / y i + TABS

/-- The value of `err` that pass `i` of the loop of `testresult` compares with `maxerr`:
`val1 - val2`, with its sign flipped when it is below `0.0`. -/
def testErr (n : ℕ) (x y : Fin n → Dbl α) (erg : polynom α) (i : Fin n) : Dbl α :=
  let val1 := 1.0 / value erg (x i) + TABS
  let val2 := 1.0 / y i + TABS
  let err := val1 - val2
  if Dbl.lt err 0.0 then -err else err

end locals

/-- A property of the program in binary64 that holds whatever the math library is: the record is
arbitrary except for `sqrt`, which IEEE-754 requires to be the correctly rounded `sqrt64`. -/
def EveryLibm (P : Libm Bin64 → Prop) : Prop :=
  ∀ m : Libm Bin64, m.sqrt = sqrt64 → P m

/-- A double that is `+Inf` or finite and not negative. -/
def NonNeg64 (x : Dbl Bin64) : Prop := x = pinf ∨ ∃ v : Bin64, 0 ≤ v ∧ x = fin v

/-- Four distinct sample abscissas `2^-600 * {1, 2, 3, 4}`, all of them normal doubles. -/
def tinyX : Fin 4 → Dbl Bin64 :=
  ![fin ((2 : Bin64) ^ (-600 : ℤ)), fin (2 * (2 : Bin64) ^ (-600 : ℤ)),
    fin (3 * (2 : Bin64) ^ (-600 : ℤ)), fin (4 * (2 : Bin64) ^ (-600 : ℤ))]

/-- Five distinct sample abscissas `0, 1, 2, 3, 4`. -/
def sampleX5 {α : Type} [Field α] : Fin 5 → α := ![0, 1, 2, 3, 4]

/-- Targets over `sampleX5` that lie on no cubic. -/
def sampleY5 {α : Type} [Field α] : Fin 5 → α := ![0, 0, 0, 0, 1]

/-- Four sample abscissas with three distinct values `0, 1, 2`. -/
def sampleX3 {α : Type} [Field α] : Fin 4 → α := ![0, 1, 2, 2]

/-! ## Arithmetic of finite values and of NaN -/

namespace Dbl

/-- In exact real arithmetic a finite result is stored as it is. -/
@[simp] theorem rnd_real (a : ℝ) : (Rounding.rnd a : Dbl ℝ) = fin a := rfl

@[simp] theorem fin_add_fin (a b : ℝ) : (fin a + fin b : Dbl ℝ) = fin (a + b) := rfl

@[simp] theorem fin_mul_fin (a b : ℝ) : (fin a * fin b : Dbl ℝ) = fin (a * b) := rfl

@[simp] theorem neg_fin {α : Type} [LinearOrderedField α] (a : α) :
    (-fin a : Dbl α) = fin (-a) := rfl

@[simp] theorem fin_sub_fin (a b : ℝ) : (fin a - fin b : Dbl ℝ) = fin (a - b) := by
  show add (fin a) (neg (fin b)) = fin (a - b)
  simp [add, neg, sub_eq_add_neg]

theorem fin_div_fin (a : ℝ) {b : ℝ} (hb : b ≠ 0) : (fin a / fin b : Dbl ℝ) = fin (a / b) := by
  show div (fin a) (fin b) = fin (a / b)
  simp [div, hb]

@[simp] theorem ofScientific_eq (k : ℕ) (s : Bool) (e : ℕ) :
    (OfScientific.ofScientific k s e : Dbl ℝ) = fin (OfScientific.ofScientific k s e) := rfl

variable {α : Type} [LinearOrderedField α] [Rounding α]

@[simp] theorem nan_add (x : Dbl α) : nan + x = nan := by
  show add nan x = nan
  cases x <;> rfl

@[simp] theorem add_nan (x : Dbl α) : x + nan = nan := by
  show add x nan = nan
  cases x <;> rfl

@[simp] theorem nan_mul (x : Dbl α) : nan * x = nan := by
  show mul nan x = nan
  cases x <;> rfl

@[simp] theorem mul_nan (x : Dbl α) : x * nan = nan := by
  show mul x nan = nan
  cases x <;> rfl

@[simp] theorem div_nan (x : Dbl α) : x / nan = nan := by
  show div x nan = nan
  cases x <;> rfl

@[simp] theorem nan_div (x : Dbl α) : nan / x = nan := by
  show div nan x = nan
  cases x <;> rfl

@[simp] theorem neg_nan {α : Type} [LinearOrderedField α] : (-nan : Dbl α) = nan := rfl

@[simp] theorem nan_sub (x : Dbl α) : nan - x = nan := by
  show add nan (neg x) = nan
  cases x <;> rfl

@[simp] theorem sub_nan (x : Dbl α) : x - nan = nan := by
  show add x (neg nan) = nan
  cases x <;> rfl

theorem zero_mul_ninf {α : Type} [LinearOrderedField α] [Rounding α] :
    (fin 0 * ninf : Dbl α) = nan := by
  show mul (fin 0) ninf = nan
  simp [mul, infOfSign]

end Dbl

/-! ## Horner evaluation -/

section horner

/-- Once the accumulator is NaN the Horner loop keeps it NaN. -/
theorem horner_nan {α : Type} [LinearOrderedField α] [Rounding α] {ι : Type} (x : Dbl α)
    (p : ι → Dbl α) (l : List ι) :
    l.foldl (fun retval i => retval * x + p i) nan = nan := by
  induction l with
  | nil => rfl
  | cons i l ih => simpa using ih

/-- The Horner loop over the indices `d, d-1, .., 0` on finite data computes the sum
of the monomials. -/
theorem horner_fin (x : ℝ) : ∀ (d : ℕ) (p : Fin (d + 1) → ℝ),
    (List.finRange (d + 1)).foldr (fun i retval => retval * fin x + fin (p i)) (fin 0)
      = fin (∑ i, p i * x ^ (i : ℕ)) := by
  intro d
  induction d with
  | zero =>
    intro p
    simp [List.finRange_succ_eq_map]
  | succ d ih =>
    intro p
    rw [List.finRange_succ_eq_map, List.foldr_cons, List.foldr_map]
    have h := ih (fun i => p i.succ)
    simp only [] at h
    rw [h, fin_mul_fin, fin_add_fin]
    congr 1
    rw [Fin.sum_univ_succ (fun i : Fin (d + 1 + 1) => p i * x ^ (i : ℕ)), Finset.sum_mul,
      add_comm]
    simp only [Fin.val_zero, pow_zero, mul_one, Fin.val_succ]
    congr 1
    apply Finset.sum_congr rfl
    intro i _
    ring

theorem poly_fin (x : ℝ) (d : ℕ) (p : Fin (d + 1) → ℝ) :
    poly (fin x) d (fun i => fin (p i)) = fin (∑ i, p i * x ^ (i : ℕ)) := by
  unfold poly
  rw [List.foldl_reverse]
  have h0 : (0.0 : Dbl ℝ) = fin 0 := by
    rw [ofScientific_eq]; congr 1; norm_num
  rw [h0]
  exact horner_fin x d p

end horner

/-! ## Resistance to temperature -/

section resToTemp

theorem value_eq_poly {α : Type} [LinearOrderedField α] [Rounding α] (p : polynom α)
    (x : Dbl α) :
    value p x = poly x 3 p := rfl

theorem TABS_eq : (TABS : Dbl ℝ) = fin (-273.15) := rfl

theorem one_eq : (1.0 : Dbl ℝ) = fin 1 := by
  rw [ofScientific_eq]; congr 1; norm_num

theorem zero_eq : (0.0 : Dbl ℝ) = fin 0 := by
  rw [ofScientific_eq]; congr 1; norm_num

theorem poly_nan {α : Type} [LinearOrderedField α] [Rounding α] (d : ℕ)
    (p : Fin (d + 1) → Dbl α) :
    poly nan d p = nan := by
  unfold poly
  rw [List.finRange_succ_last, List.reverse_append, List.reverse_singleton, List.singleton_append,
    List.foldl_cons]
  have h : (0.0 : Dbl α) * nan + p (Fin.last d) = nan := by simp
  rw [h]
  exact horner_nan _ _ _

theorem poly_ninf (d : ℕ) (p : Fin (d + 1) → Dbl ℝ) :
    poly ninf d p = nan := by
  unfold poly
  rw [List.finRange_succ_last, List.reverse_append, List.reverse_singleton, List.singleton_append,
    List.foldl_cons, zero_eq, zero_mul_ninf, nan_add]
  exact horner_nan _ _ _

/-- The value of `log` in exact real arithmetic with the exact math library. -/
theorem log_real (m : Libm ℝ) (hm : m.Exact) {r : ℝ} (hr : 0 < r) :
    log m (fin r) = fin (Real.log r) := by
  by_cases h1 : r = 1
  · simp [log, h1]
  · simp [log, not_lt.mpr hr.le, hr.ne', h1, hm.2.2.1]

theorem poly3_fin (a : Fin 4 → ℝ) (x : ℝ) :
    poly (fin x) 3 (fun i => fin (a i)) = fin (a 0 + a 1 * x + a 2 * x ^ 2 + a 3 * x ^ 3) := by
  rw [poly_fin, Fin.sum_univ_four]
  congr 1
  have h3 : ((3 : Fin 4) : ℕ) = 3 := rfl
  simp only [Fin.val_zero, Fin.val_one, Fin.val_two, h3]
  ring

/-- C10: boundary behaviour.  For every resistance `r ≤ 0` (also `-Inf`) and every coefficient
set (finite or not), `dNtcResToTemp(r, coeffs)` is NaN: `log` gives NaN for `r < 0` and `-Inf`
for `r = 0`, and the first Horner step `0.0 * x + p[3]` turns both into NaN.  The result is
never a finite temperature. -/
theorem dNtcResToTemp_out_of_domain (m : Libm ℝ) (r : ℝ) (hr : r ≤ 0) (c : Fin 4 → Dbl ℝ) :
    dNtcResToTemp m (fin r) c = nan ∧ dNtcResToTemp m ninf c = nan ∧
    ∀ t : ℝ, dNtcResToTemp m (fin r) c ≠ fin t := by
  have h : dNtcResToTemp m (fin r) c = nan := by
    unfold dNtcResToTemp
    rcases lt_or_eq_of_le hr with h | h
    · have : log m (fin r) = nan := by simp [log, h]
      simp only [this, poly_nan]
      simp
    · have : log m (fin r) = ninf := by simp [log, h]
      simp only [this, poly_ninf]
      simp
  have hinf : dNtcResToTemp m ninf c = nan := by
    unfold dNtcResToTemp
    have : log m (ninf : Dbl ℝ) = nan := rfl
    simp only [this, poly_nan]
    simp
  refine ⟨h, hinf, fun t => ?_⟩
  rw [h]
  exact fun e => Dbl.noConfusion e

theorem dNtcResToTemp_out_of_domain_witness :
    (-5 : ℝ) ≤ 0 ∧
    dNtcResToTemp ⟨Real.sqrt, Real.exp, Real.log, fun a b => a ^ b⟩ (fin (-5))
        (fun _ => fin 1) = nan ∧
    dNtcResToTemp ⟨Real.sqrt, Real.exp, Real.log, fun a b => a ^ b⟩ ninf
        (fun _ => fin 1) = nan ∧
    ∀ t : ℝ, dNtcResToTemp ⟨Real.sqrt, Real.exp, Real.log, fun a b => a ^ b⟩ (fin (-5))
        (fun _ => fin 1) ≠ fin t :=
  ⟨by norm_num, dNtcResToTemp_out_of_domain _ (-5) (by norm_num) _⟩

end resToTemp

/-! ## Temperature to resistance -/

section tempToRes

theorem lit2_eq : (2.0 : Dbl ℝ) = fin 2 := by
  rw [ofScientific_eq]; congr 1; norm_num

theorem lit3_eq : (3.0 : Dbl ℝ) = fin 3 := by
  rw [ofScientific_eq]; congr 1; norm_num

theorem lit4_eq : (4.0 : Dbl ℝ) = fin 4 := by
  rw [ofScientific_eq]; congr 1; norm_num

theorem lit27_eq : (27.0 : Dbl ℝ) = fin 27 := by
  rw [ofScientific_eq]; congr 1; norm_num

/-- On finite data with `a3 ≠ 0` and `t ≠ -273.15` every step of `dNtcTempToRes` up to the
square root is finite; the two calls of `pow` receive `±q/2 + sqrt(disc)`. -/
theorem dNtcTempToRes_steps (m : Libm ℝ) (t : ℝ) (a : Fin 4 → ℝ) (ha3 : a 3 ≠ 0)
    (ht : t ≠ -273.15) :
    dNtcTempToRes m (fin t) (fun i => fin (a i))
      = exp m (pow m (fin (-cubicQ t a / 2) + sqrt m (fin (cubicDisc t a))) (fin (1 / 3))
          + -pow m (fin (cubicQ t a / 2) + sqrt m (fin (cubicDisc t a))) (fin (1 / 3))
          - fin (cubicB a / 3)) := by
  have hT : t - (-273.15) ≠ 0 := fun h => ht (by linarith)
  unfold dNtcTempToRes
  simp only [TABS_eq, one_eq, lit2_eq, lit3_eq, lit4_eq, lit27_eq, fin_sub_fin,
    fin_div_fin _ hT, fin_div_fin _ ha3, fin_div_fin _ (two_ne_zero' ℝ),
    fin_div_fin _ (three_ne_zero' ℝ), fin_div_fin _ (four_ne_zero' ℝ),
    fin_div_fin _ (show (27 : ℝ) ≠ 0 by norm_num), fin_mul_fin, fin_add_fin, neg_fin]
  rfl

theorem third_not_int : ¬ isInt (1 / 3 : ℝ) := by
  unfold isInt
  have h : ⌊(1 / 3 : ℝ)⌋ = 0 := by
    rw [Int.floor_eq_zero_iff]
    constructor <;> norm_num
  rw [h]
  norm_num

/-- The call `pow(x, 1.0/3.0)` on a finite base `x ≥ 0` gives the real cube root. -/
theorem pow_third_of_nonneg (m : Libm ℝ) (hm : m.Exact) {x : ℝ} (hx : 0 ≤ x) :
    pow m (fin x) (fin (1 / 3)) = fin (x ^ (1 / 3 : ℝ)) := by
  obtain ⟨-, -, -, hpow⟩ := hm
  unfold pow
  have h3 : (fin (1 / 3) : Dbl ℝ) ≠ fin 0 := by
    intro h
    injection h with h
    norm_num at h
  rw [if_neg h3]
  by_cases h1 : (fin x : Dbl ℝ) = fin 1
  · rw [if_pos h1]
    injection h1 with h1
    rw [h1, Real.one_rpow]
  · rw [if_neg h1]
    rcases hx.lt_or_eq with h | h
    · simp [h, hpow]
    · subst h
      simp

/-- The call `pow(x, 1.0/3.0)` on a finite base `x < 0` is a domain error. -/
theorem pow_third_of_neg (m : Libm ℝ) {x : ℝ} (hx : x < 0) :
    pow m (fin x) (fin (1 / 3)) = nan := by
  unfold pow
  have h3 : (fin (1 / 3) : Dbl ℝ) ≠ fin 0 := by
    intro h
    injection h with h
    norm_num at h
  have h1 : (fin x : Dbl ℝ) ≠ fin 1 := by
    intro h
    injection h with h
    linarith
  rw [if_neg h3, if_neg h1]
  simp only [not_lt.mpr hx.le, hx.ne, if_false, if_neg third_not_int]

theorem rpow_third_cube {x : ℝ} (hx : 0 ≤ x) : (x ^ (1 / 3 : ℝ)) ^ 3 = x := by
  rw [← Real.rpow_natCast, ← Real.rpow_mul hx]
  norm_num

theorem cube_rpow_third {x : ℝ} (hx : 0 ≤ x) : (x ^ 3) ^ (1 / 3 : ℝ) = x := by
  rw [← Real.rpow_natCast, ← Real.rpow_mul hx]
  norm_num

theorem cubicDisc_nonneg (t : ℝ) (a : Fin 4 → ℝ) (hp : 0 ≤ cubicP a) : 0 ≤ cubicDisc t a := by
  unfold cubicDisc
  have h1 : 0 ≤ cubicQ t a * cubicQ t a := mul_self_nonneg _
  have h2 : 0 ≤ cubicP a * cubicP a * cubicP a := mul_nonneg (mul_self_nonneg _) hp
  linarith

/-- With `p ≥ 0` the square root dominates `|q/2|`: both bases handed to `pow` are `≥ 0`. -/
theorem bases_nonneg (t : ℝ) (a : Fin 4 → ℝ) (hp : 0 ≤ cubicP a) :
    0 ≤ cubicQ t a / 2 + Real.sqrt (cubicDisc t a) ∧
    0 ≤ -cubicQ t a / 2 + Real.sqrt (cubicDisc t a) := by
  have h : |cubicQ t a / 2| ≤ Real.sqrt (cubicDisc t a) := by
    apply Real.abs_le_sqrt
    unfold cubicDisc
    have h2 : 0 ≤ cubicP a * cubicP a * cubicP a := mul_nonneg (mul_self_nonneg _) hp
    linarith
  have h1 := neg_abs_le (cubicQ t a / 2)
  have h2 := le_abs_self (cubicQ t a / 2)
  constructor <;> linarith

/-- Cardano: a real `u - v` built from cube roots of the two bases solves the cubic, so the
Steinhart-Hart polynomial takes the value `1 / (t - TABS)` at `u - v - b/3`. -/
theorem cardano_root (t : ℝ) (a : Fin 4 → ℝ) (ha3 : a 3 ≠ 0) (ht : t ≠ -273.15) (u v s : ℝ)
    (hu : u ^ 3 = -cubicQ t a / 2 + s) (hv : v ^ 3 = cubicQ t a / 2 + s)
    (huv : u * v = cubicP a / 3) :
    a 0 + a 1 * (u + -v - cubicB a / 3) + a 2 * (u + -v - cubicB a / 3) ^ 2
      + a 3 * (u + -v - cubicB a / 3) ^ 3 = 1 / (t - (-273.15)) := by
  have hT : t - (-273.15) ≠ 0 := fun h => ht (by linarith)
  have hb : a 2 = cubicB a * a 3 := by unfold cubicB; field_simp
  have hc : a 1 = cubicC a * a 3 := by unfold cubicC; field_simp
  have hd : a 0 = cubicD t a * a 3 + 1 / (t - (-273.15)) := by unfold cubicD; field_simp
  unfold cubicQ cubicP at *
  rw [hd, hc, hb]
  linear_combination (a 3) * hu - (a 3) * hv - 3 * (a 3) * (u - v) * huv

/-- The cube roots of the two bases multiply to `p / 3` when `p ≥ 0`. -/
theorem cbrt_mul_cbrt (t : ℝ) (a : Fin 4 → ℝ) (hp : 0 ≤ cubicP a) :
    (-cubicQ t a / 2 + Real.sqrt (cubicDisc t a)) ^ (1 / 3 : ℝ)
      * (cubicQ t a / 2 + Real.sqrt (cubicDisc t a)) ^ (1 / 3 : ℝ) = cubicP a / 3 := by
  obtain ⟨hA, hB⟩ := bases_nonneg t a hp
  have hs := Real.sq_sqrt (cubicDisc_nonneg t a hp)
  rw [← Real.mul_rpow hB hA]
  have h : (-cubicQ t a / 2 + Real.sqrt (cubicDisc t a))
      * (cubicQ t a / 2 + Real.sqrt (cubicDisc t a)) = (cubicP a / 3) ^ 3 := by
    have e : cubicDisc t a = cubicQ t a * cubicQ t a / 4
        + cubicP a * cubicP a * cubicP a / 27 := rfl
    linear_combination hs + e
  rw [h, cube_rpow_third (by linarith)]

/-- The value of `dNtcTempToRes` on finite data with `a3 ≠ 0`, `t ≠ -273.15` and `p ≥ 0`. -/
theorem dNtcTempToRes_of_p_nonneg (m : Libm ℝ) (hm : m.Exact) (t : ℝ) (a : Fin 4 → ℝ)
    (ha3 : a 3 ≠ 0) (ht : t ≠ -273.15) (hp : 0 ≤ cubicP a) :
    dNtcTempToRes m (fin t) (fun i => fin (a i))
      = fin (Real.exp ((-cubicQ t a / 2 + Real.sqrt (cubicDisc t a)) ^ (1 / 3 : ℝ)
          + -(cubicQ t a / 2 + Real.sqrt (cubicDisc t a)) ^ (1 / 3 : ℝ) - cubicB a / 3)) := by
  obtain ⟨hA, hB⟩ := bases_nonneg t a hp
  have hs : sqrt m (fin (cubicDisc t a)) = fin (Real.sqrt (cubicDisc t a)) := by
    simp [sqrt, not_lt.mpr (cubicDisc_nonneg t a hp), hm.1]
  rw [dNtcTempToRes_steps m t a ha3 ht, hs, fin_add_fin, fin_add_fin,
    pow_third_of_nonneg m hm hA, pow_third_of_nonneg m hm hB, neg_fin, fin_add_fin, fin_sub_fin]
  simp [exp, hm.2.1]

/-- The value of `dNtcResToTemp` at a resistance of the form `exp w`. -/
theorem dNtcResToTemp_exp (m : Libm ℝ) (hm : m.Exact) (w : ℝ) (a : Fin 4 → ℝ)
    (h0 : a 0 + a 1 * w + a 2 * w ^ 2 + a 3 * w ^ 3 ≠ 0) :
    dNtcResToTemp m (fin (Real.exp w)) (fun i => fin (a i))
      = fin (1 / (a 0 + a 1 * w + a 2 * w ^ 2 + a 3 * w ^ 3) + (-273.15)) := by
  have hpos := Real.exp_pos w
  have h1 : log m (fin (Real.exp w)) = fin w := by
    rw [log_real m hm hpos, Real.log_exp]
  unfold dNtcResToTemp
  simp only [h1, poly3_fin, one_eq, fin_div_fin 1 h0, TABS_eq, fin_add_fin]

/-- With `p < 0` and a real square root one of the two bases handed to `pow` is negative, and
the NaN of that call reaches the result. -/
theorem dNtcTempToRes_of_p_neg (m : Libm ℝ) (hm : m.Exact) (t : ℝ) (a : Fin 4 → ℝ)
    (ha3 : a 3 ≠ 0) (ht : t ≠ -273.15) (hp : cubicP a < 0) (hd : 0 ≤ cubicDisc t a) :
    dNtcTempToRes m (fin t) (fun i => fin (a i)) = nan := by
  have hs : sqrt m (fin (cubicDisc t a)) = fin (Real.sqrt (cubicDisc t a)) := by
    simp [sqrt, not_lt.mpr hd, hm.1]
  have hp3 : cubicP a * cubicP a * cubicP a < 0 :=
    mul_neg_of_pos_of_neg (mul_self_pos.mpr hp.ne) hp
  have hlt : cubicDisc t a < (cubicQ t a / 2) ^ 2 := by
    unfold cubicDisc
    linarith
  have hq : 0 < |cubicQ t a / 2| := by
    rw [abs_pos]
    intro h
    rw [h] at hlt
    norm_num at hlt
    linarith
  have hsq : Real.sqrt (cubicDisc t a) < |cubicQ t a / 2| := by
    rw [Real.sqrt_lt' hq, sq_abs]
    exact hlt
  rw [dNtcTempToRes_steps m t a ha3 ht, hs, fin_add_fin, fin_add_fin]
  rcases le_or_lt 0 (cubicQ t a / 2) with h | h
  · rw [abs_of_nonneg h] at hsq
    rw [pow_third_of_neg m (show -cubicQ t a / 2 + Real.sqrt (cubicDisc t a) < 0 by linarith)]
    simp [exp]
  · rw [abs_of_neg h] at hsq
    rw [pow_third_of_neg m (show cubicQ t a / 2 + Real.sqrt (cubicDisc t a) < 0 by linarith)]
    simp [exp]

theorem dNtcResToTemp_nan (m : Libm ℝ) (c : Fin 4 → Dbl ℝ) : dNtcResToTemp m nan c = nan := by
  unfold dNtcResToTemp
  have h : log m nan = nan := rfl
  simp only [h, poly_nan]
  simp

theorem refCoeff_eq : (refCoeff : Fin 4 → Dbl ℝ) = fun i => fin (refValue i) := by
  funext i
  fin_cases i <;> simp [refCoeff, refValue]

theorem refValue_p_pos : 0 < cubicP (refValue : Fin 4 → ℝ) := by
  norm_num [cubicP, cubicC, cubicB, refValue]

/-- C1 (fails on the code): for the coefficient set `[4, -3, 0, 1]` (`a3 ≠ 0`) and
`t = -272.15`, the discriminant `q^2/4 + p^3/27 = 5/4` is non-negative, yet the round trip
`dNtcResToTemp(dNtcTempToRes(t, a), a)` is NaN and not `t`: `p = -3 < 0` makes the base
`-q/2 + sqrt(disc)` negative and `pow` returns NaN. -/
theorem round_trip_nan_at_negative_p :
    (![4, -3, 0, 1] : Fin 4 → ℝ) 3 ≠ 0 ∧ (-272.15 : ℝ) ≠ -273.15 ∧
    0 ≤ cubicDisc (-272.15 : ℝ) ![4, -3, 0, 1] ∧
    dNtcResToTemp ⟨Real.sqrt, Real.exp, Real.log, fun a b => a ^ b⟩
      (dNtcTempToRes ⟨Real.sqrt, Real.exp, Real.log, fun a b => a ^ b⟩ (fin (-272.15))
        (fun i => fin ((![4, -3, 0, 1] : Fin 4 → ℝ) i)))
      (fun i => fin ((![4, -3, 0, 1] : Fin 4 → ℝ) i)) = nan := by
  have h3 : (![4, -3, 0, 1] : Fin 4 → ℝ) 3 ≠ 0 := by simp
  have ht : (-272.15 : ℝ) ≠ -273.15 := by norm_num
  have hp : cubicP (![4, -3, 0, 1] : Fin 4 → ℝ) < 0 := by
    norm_num [cubicP, cubicC, cubicB]
  have hd : 0 ≤ cubicDisc (-272.15 : ℝ) ![4, -3, 0, 1] := by
    norm_num [cubicDisc, cubicQ, cubicP, cubicC, cubicB, cubicD]
  refine ⟨h3, ht, hd, ?_⟩
  rw [dNtcTempToRes_of_p_neg _ ⟨rfl, rfl, rfl, rfl⟩ _ _ h3 ht hp hd, dNtcResToTemp_nan]

/-- C7 (fails on the code): for the coefficient set `[4, -3, 0, 1]` and `t = -272.15`, where
`q = 3`, `p = -3` and `disc = 5/4 ≥ 0`, `dNtcTempToRes` is NaN, not the finite value
`exp(u + v - b/3)` that the signed cube roots give: the base `-q/2 + sqrt(disc)` of the second
`pow` is negative. -/
theorem dNtcTempToRes_nan_at_negative_base :
    cubicQ (-272.15 : ℝ) ![4, -3, 0, 1] = 3 ∧ cubicP (![4, -3, 0, 1] : Fin 4 → ℝ) = -3 ∧
    cubicDisc (-272.15 : ℝ) ![4, -3, 0, 1] = 5 / 4 ∧
    -cubicQ (-272.15 : ℝ) ![4, -3, 0, 1] / 2
      + Real.sqrt (cubicDisc (-272.15 : ℝ) ![4, -3, 0, 1]) < 0 ∧
    dNtcTempToRes ⟨Real.sqrt, Real.exp, Real.log, fun a b => a ^ b⟩ (fin (-272.15))
      (fun i => fin ((![4, -3, 0, 1] : Fin 4 → ℝ) i)) = nan := by
  have hq : cubicQ (-272.15 : ℝ) ![4, -3, 0, 1] = 3 := by
    norm_num [cubicQ, cubicC, cubicB, cubicD]
  have hp : cubicP (![4, -3, 0, 1] : Fin 4 → ℝ) = -3 := by
    norm_num [cubicP, cubicC, cubicB]
  have hd : cubicDisc (-272.15 : ℝ) ![4, -3, 0, 1] = 5 / 4 := by
    unfold cubicDisc
    rw [hq, hp]
    norm_num
  refine ⟨hq, hp, hd, ?_, ?_⟩
  · rw [hq, hd]
    have h : Real.sqrt (5 / 4) < 3 / 2 := by
      rw [Real.sqrt_lt' (by norm_num)]
      norm_num
    linarith
  · exact dNtcTempToRes_of_p_neg _ ⟨rfl, rfl, rfl, rfl⟩ _ _ (by simp) (by norm_num)
      (by rw [hp]; norm_num) (by rw [hd]; norm_num)

end tempToRes

/-! ## The fitting utility on finite data -/

section fitFinite

theorem finRange_four : List.finRange 4 = [0, 1, 2, 3] := rfl

theorem value_fin (p : Fin 4 → ℝ) (t : ℝ) :
    value (fun i => fin (p i)) (fin t) = fin (cubicEval p t) := by
  rw [value_eq_poly, poly3_fin]
  rfl

theorem foldl_add_fin {ι : Type} (g : ι → ℝ) (l : List ι) (a : ℝ) :
    l.foldl (fun r i => r + fin (g i)) (fin a) = fin (a + (l.map g).sum) := by
  induction l generalizing a with
  | nil => simp
  | cons i l ih =>
    rw [List.foldl_cons, fin_add_fin, ih, List.map_cons, List.sum_cons, add_assoc]

theorem skalarpoly_fin (n : ℕ) (x : Fin n → ℝ) (p q : Fin 4 → ℝ) :
    skalarpoly n (fun k => fin (x k)) (fun i => fin (p i)) (fun i => fin (q i))
      = fin (sampleInner n x p q) := by
  unfold skalarpoly sampleInner
  simp only [value_fin, fin_mul_fin, zero_eq]
  rw [foldl_add_fin (fun k => cubicEval p (x k) * cubicEval q (x k)), zero_add,
    Fin.sum_univ_def]

theorem skalar_fin (n : ℕ) (x y : Fin n → ℝ) (p : Fin 4 → ℝ) :
    skalar n (fun k => fin (x k)) (fun k => fin (y k)) (fun i => fin (p i))
      = fin (targetInner n x y p) := by
  unfold skalar targetInner
  simp only [value_fin, fin_mul_fin, zero_eq]
  rw [foldl_add_fin (fun k => y k * cubicEval p (x k)), zero_add, Fin.sum_univ_def]

theorem linear_fin (p q : Fin 4 → ℝ) (f : ℝ) :
    linear (fun i => fin (p i)) (fun i => fin (q i)) (fin f)
      = fun i => fin (p i + q i * f) := by
  unfold linear
  rw [finRange_four]
  funext i
  fin_cases i <;> simp [Function.update]

theorem mult_fin (p : Fin 4 → ℝ) (f : ℝ) :
    mult (fun i => fin (p i)) (fin f) = fun i => fin (p i * f) := by
  unfold mult
  rw [finRange_four]
  funext i
  fin_cases i <;> simp [Function.update]

theorem approx_fin (n : ℕ) (x y : Fin n → ℝ) (Q : Fin 4 → Fin 4 → ℝ) :
    approx n (fun k => fin (x k)) (fun k => fin (y k)) (fun i j => fin (Q i j))
      = fun j => fin (∑ k, targetInner n x y (Q k) * Q k j) := by
  unfold approx
  rw [finRange_four]
  simp only [List.foldl_cons, List.foldl_nil, skalar_fin, zero_eq, linear_fin]
  funext j
  rw [Fin.sum_univ_four]
  congr 1
  ring

end fitFinite

/-! ## The sample inner product -/

section inner

theorem cubicEval_linear (p q : Fin 4 → ℝ) (f t : ℝ) :
    cubicEval (fun k => p k + q k * f) t = cubicEval p t + cubicEval q t * f := by
  unfold cubicEval
  ring

theorem cubicEval_scale (p : Fin 4 → ℝ) (f t : ℝ) :
    cubicEval (fun k => p k * f) t = cubicEval p t * f := by
  unfold cubicEval
  ring

theorem sampleInner_comm (n : ℕ) (x : Fin n → ℝ) (p q : Fin 4 → ℝ) :
    sampleInner n x p q = sampleInner n x q p := by
  unfold sampleInner
  exact Finset.sum_congr rfl fun k _ => mul_comm _ _

theorem sampleInner_linear_left (n : ℕ) (x : Fin n → ℝ) (p q r : Fin 4 → ℝ) (f : ℝ) :
    sampleInner n x (fun k => p k + q k * f) r
      = sampleInner n x p r + sampleInner n x q r * f := by
  unfold sampleInner
  rw [Finset.sum_mul, ← Finset.sum_add_distrib]
  refine Finset.sum_congr rfl fun k _ => ?_
  rw [cubicEval_linear]
  ring

theorem sampleInner_scale_left (n : ℕ) (x : Fin n → ℝ) (p r : Fin 4 → ℝ) (f : ℝ) :
    sampleInner n x (fun k => p k * f) r = sampleInner n x p r * f := by
  unfold sampleInner
  rw [Finset.sum_mul]
  refine Finset.sum_congr rfl fun k _ => ?_
  rw [cubicEval_scale]
  ring

theorem sampleInner_scale_right (n : ℕ) (x : Fin n → ℝ) (p r : Fin 4 → ℝ) (f : ℝ) :
    sampleInner n x r (fun k => p k * f) = sampleInner n x r p * f := by
  rw [sampleInner_comm, sampleInner_scale_left, sampleInner_comm]

theorem sampleInner_self_nonneg (n : ℕ) (x : Fin n → ℝ) (p : Fin 4 → ℝ) :
    0 ≤ sampleInner n x p p :=
  Finset.sum_nonneg fun _ _ => mul_self_nonneg _

/-- A polynom of degree at most three that vanishes at four distinct points is zero. -/
theorem cubic_eq_zero_of_roots (p : Fin 4 → ℝ) (s : Finset ℝ) (hs : 4 ≤ s.card)
    (h : ∀ t ∈ s, cubicEval p t = 0) : p = 0 := by
  let P : Polynomial ℝ := Polynomial.C (p 0) + Polynomial.C (p 1) * Polynomial.X
    + Polynomial.C (p 2) * Polynomial.X ^ 2 + Polynomial.C (p 3) * Polynomial.X ^ 3
  have hdeg : P.natDegree < s.card := by
    have h3 : P.natDegree ≤ 3 := by
      simp only [P]
      compute_degree
    omega
  have heval : ∀ t ∈ s, P.eval t = 0 := by
    intro t ht
    have := h t ht
    simpa [P, cubicEval] using this
  have hP : P = 0 := Polynomial.eq_zero_of_natDegree_lt_card_of_eval_eq_zero' P s heval hdeg
  have hc : ∀ k : ℕ, P.coeff k = 0 := by
    intro k
    rw [hP, Polynomial.coeff_zero]
  funext i
  fin_cases i
  · simpa [P, Polynomial.coeff_X, Polynomial.coeff_C] using hc 0
  · simpa [P, Polynomial.coeff_X, Polynomial.coeff_C] using hc 1
  · simpa [P, Polynomial.coeff_X, Polynomial.coeff_C] using hc 2
  · simpa [P, Polynomial.coeff_X, Polynomial.coeff_C] using hc 3

/-- With at least four distinct abscissas the sample inner product is positive definite. -/
theorem sampleInner_self_pos (n : ℕ) (x : Fin n → ℝ) (hx : 4 ≤ (Finset.univ.image x).card)
    (p : Fin 4 → ℝ) (hp : p ≠ 0) : 0 < sampleInner n x p p := by
  rcases (sampleInner_self_nonneg n x p).lt_or_eq with h | h
  · exact h
  · exfalso
    apply hp
    apply cubic_eq_zero_of_roots p _ hx
    intro t ht
    obtain ⟨k, -, rfl⟩ := Finset.mem_image.mp ht
    have hz := (Finset.sum_eq_zero_iff_of_nonneg (fun k _ => mul_self_nonneg _)).mp h.symm
      k (Finset.mem_univ k)
    exact mul_self_eq_zero.mp hz

end inner

/-! ## One pass of the outer loop of `orthonormal` -/

section outer

theorem update_fin (Q : Fin 4 → Fin 4 → ℝ) (i : Fin 4) (r : Fin 4 → ℝ) :
    Function.update (fun a b => fin (Q a b)) i (fun b => fin (r b))
      = fun a b => fin (Function.update Q i r a b) := by
  funext a
  by_cases h : a = i
  · subst h
    simp
  · simp [h]

/-- The inner loop of `orthonormal` on finite data only rewrites row `i`, by `projRow`. -/
theorem inner_fold_fin (n : ℕ) (x : Fin n → ℝ) (Q : Fin 4 → Fin 4 → ℝ) (i : Fin 4) :
    ∀ (js : List (Fin 4)), i ∉ js → ∀ r : Fin 4 → ℝ,
      js.foldl (orthoInner n (fun k => fin (x k)) i) (fun a b => fin (Function.update Q i r a b))
        = fun a b => fin (Function.update Q i (js.foldl (projRow n x Q) r) a b) := by
  intro js
  induction js with
  | nil => intro _ r; rfl
  | cons j js ih =>
    intro hi r
    have hji : j ≠ i := fun h => hi (by simp [h])
    have hjs : i ∉ js := fun h => hi (List.mem_cons_of_mem _ h)
    rw [List.foldl_cons, List.foldl_cons]
    have hstep : orthoInner n (fun k => fin (x k)) i
        (fun a b => fin (Function.update Q i r a b)) j
        = fun a b => fin (Function.update Q i (projRow n x Q r j) a b) := by
      unfold orthoInner
      simp only [Function.update_same, Function.update_noteq hji, skalarpoly_fin, neg_fin,
        linear_fin]
      rw [← update_fin, ← update_fin, Function.update_idem]
      rfl
    rw [hstep]
    exact ih hjs _

theorem mem_below (i j : Fin 4) : j ∈ (List.finRange 4).filter (fun j => j < i) ↔ j < i := by
  simp [List.mem_filter]

/-- One pass of the outer loop of `orthonormal` on finite data, when the norm is positive. -/
theorem orthoOuter_fin (m : Libm ℝ) (hm : m.Exact) (n : ℕ) (x : Fin n → ℝ)
    (Q : Fin 4 → Fin 4 → ℝ) (i : Fin 4)
    (hpos : 0 < sampleInner n x (projAll n x Q i) (projAll n x Q i)) :
    orthoOuter m n (fun k => fin (x k)) (fun a b => fin (Q a b)) i
      = fun a b => fin (Function.update Q i (fun k => projAll n x Q i k
          * (1 / Real.sqrt (sampleInner n x (projAll n x Q i) (projAll n x Q i)))) a b) := by
  have hi : i ∉ (List.finRange 4).filter (fun j => j < i) := by
    rw [mem_below]
    exact lt_irrefl i
  have h := inner_fold_fin n x Q i _ hi (Q i)
  rw [Function.update_eq_self] at h
  have hs : Real.sqrt (sampleInner n x (projAll n x Q i) (projAll n x Q i)) ≠ 0 :=
    (Real.sqrt_pos.mpr hpos).ne'
  unfold orthoOuter
  simp only [h, Function.update_same, skalarpoly_fin]
  have hsq : sqrt m (fin (sampleInner n x (projAll n x Q i) (projAll n x Q i)))
      = fin (Real.sqrt (sampleInner n x (projAll n x Q i) (projAll n x Q i))) := by
    simp [sqrt, not_lt.mpr hpos.le, hm.1]
  have e : (List.filter (fun j => decide (j < i)) (List.finRange 4)).foldl (projRow n x Q) (Q i)
      = projAll n x Q i := rfl
  rw [e, hsq, one_eq, fin_div_fin 1 hs, mult_fin, ← update_fin, ← update_fin,
    Function.update_idem]

end outer

/-! ## Gram-Schmidt on finite data -/

section gramSchmidtProofs

theorem projRow_high (n : ℕ) (x : Fin n → ℝ) (Q : Fin 4 → Fin 4 → ℝ) (hT : Triangular Q)
    (r : Fin 4 → ℝ) (i j k : Fin 4) (hj : j < i) (hk : i ≤ k) : projRow n x Q r j k = r k := by
  unfold projRow
  rw [hT.1 j k (lt_of_lt_of_le hj hk)]
  ring

theorem projFold_high (n : ℕ) (x : Fin n → ℝ) (Q : Fin 4 → Fin 4 → ℝ) (hT : Triangular Q)
    (i k : Fin 4) (hk : i ≤ k) : ∀ (js : List (Fin 4)), (∀ j ∈ js, j < i) → ∀ r : Fin 4 → ℝ,
      js.foldl (projRow n x Q) r k = r k := by
  intro js
  induction js with
  | nil => intro _ r; rfl
  | cons j js ih =>
    intro hjs r
    rw [List.foldl_cons, ih (fun j' h => hjs j' (List.mem_cons_of_mem _ h)),
      projRow_high n x Q hT r i j k (hjs j (List.mem_cons_self _ _)) hk]

theorem projRow_inner (n : ℕ) (x : Fin n → ℝ) (Q : Fin 4 → Fin 4 → ℝ) (r : Fin 4 → ℝ)
    (j k : Fin 4) :
    sampleInner n x (projRow n x Q r j) (Q k)
      = sampleInner n x r (Q k) - sampleInner n x (Q j) (Q k) * sampleInner n x r (Q j) := by
  unfold projRow
  rw [sampleInner_linear_left]
  ring

theorem projFold_orth (n : ℕ) (x : Fin n → ℝ) (Q : Fin 4 → Fin 4 → ℝ) (b : ℕ)
    (hO : OrthoUpTo n x b Q) : ∀ (js : List (Fin 4)), (∀ j ∈ js, j.val < b) → js.Nodup →
      ∀ r : Fin 4 → ℝ,
        (∀ j ∈ js, sampleInner n x (js.foldl (projRow n x Q) r) (Q j) = 0) ∧
        (∀ k : Fin 4, k.val < b → k ∉ js →
          sampleInner n x (js.foldl (projRow n x Q) r) (Q k) = sampleInner n x r (Q k)) := by
  intro js
  induction js with
  | nil =>
    intro _ _ r
    exact ⟨fun j h => absurd h (List.not_mem_nil j), fun _ _ _ => rfl⟩
  | cons j js ih =>
    intro hjs hnd r
    have hj : j.val < b := hjs j (List.mem_cons_self _ _)
    have hjn : j ∉ js := (List.nodup_cons.mp hnd).1
    obtain ⟨h1, h2⟩ := ih (fun j' h => hjs j' (List.mem_cons_of_mem _ h))
      (List.nodup_cons.mp hnd).2 (projRow n x Q r j)
    have hsame : sampleInner n x (projRow n x Q r j) (Q j) = 0 := by
      rw [projRow_inner, hO j j hj hj, if_pos rfl]
      ring
    have hother : ∀ k : Fin 4, k.val < b → k ≠ j →
        sampleInner n x (projRow n x Q r j) (Q k) = sampleInner n x r (Q k) := by
      intro k hk hkj
      rw [projRow_inner, hO j k hj hk, if_neg (Ne.symm hkj)]
      ring
    rw [List.foldl_cons]
    constructor
    · intro k hk
      rcases List.mem_cons.mp hk with rfl | hk
      · rw [h2 k hj hjn, hsame]
      · exact h1 k hk
    · intro k hk hkn
      have hkj : k ≠ j := fun h => hkn (by simp [h])
      have hkjs : k ∉ js := fun h => hkn (List.mem_cons_of_mem _ h)
      rw [h2 k hk hkjs, hother k hk hkj]

theorem nodup_below (i : Fin 4) : ((List.finRange 4).filter (fun j => j < i)).Nodup :=
  (List.nodup_finRange 4).filter _

theorem projAll_high (n : ℕ) (x : Fin n → ℝ) (Q : Fin 4 → Fin 4 → ℝ) (hT : Triangular Q)
    (i k : Fin 4) (hk : i ≤ k) : projAll n x Q i k = Q i k :=
  projFold_high n x Q hT i k hk _ (fun j h => (mem_below i j).mp h) (Q i)

theorem projAll_orth (n : ℕ) (x : Fin n → ℝ) (Q : Fin 4 → Fin 4 → ℝ) (i : Fin 4)
    (hO : OrthoUpTo n x i.val Q) (j : Fin 4) (hj : j < i) :
    sampleInner n x (projAll n x Q i) (Q j) = 0 :=
  (projFold_orth n x Q i.val hO _ (fun j h => (mem_below i j).mp h) (nodup_below i) (Q i)).1 j
    ((mem_below i j).mpr hj)

theorem projAll_pos (n : ℕ) (x : Fin n → ℝ) (hx : 4 ≤ (Finset.univ.image x).card)
    (Q : Fin 4 → Fin 4 → ℝ) (hT : Triangular Q) (i : Fin 4) :
    0 < sampleInner n x (projAll n x Q i) (projAll n x Q i) := by
  apply sampleInner_self_pos n x hx
  intro h
  have h1 := projAll_high n x Q hT i i le_rfl
  rw [h] at h1
  have h2 := hT.2 i
  rw [← h1] at h2
  exact lt_irrefl _ h2

/-- The row written by one pass of the outer loop of `orthonormal` on finite data, when the
norm is positive. -/
theorem outer_step_of_pos (n : ℕ) (x : Fin n → ℝ) (Q : Fin 4 → Fin 4 → ℝ)
    (hT : Triangular Q) (i : Fin 4) (hO : OrthoUpTo n x i.val Q)
    (hN : 0 < sampleInner n x (projAll n x Q i) (projAll n x Q i)) :
    Triangular (Function.update Q i (fun k => projAll n x Q i k
      * (1 / Real.sqrt (sampleInner n x (projAll n x Q i) (projAll n x Q i))))) ∧
    OrthoUpTo n x (i.val + 1) (Function.update Q i (fun k => projAll n x Q i k
      * (1 / Real.sqrt (sampleInner n x (projAll n x Q i) (projAll n x Q i))))) := by
  have hs : 0 < Real.sqrt (sampleInner n x (projAll n x Q i) (projAll n x Q i)) :=
    Real.sqrt_pos.mpr hN
  have hc : 0 < 1 / Real.sqrt (sampleInner n x (projAll n x Q i) (projAll n x Q i)) :=
    one_div_pos.mpr hs
  constructor
  · constructor
    · intro a k hak
      by_cases ha : a = i
      · subst ha
        rw [Function.update_same, projAll_high n x Q hT a k hak.le, hT.1 a k hak, zero_mul]
      · rw [Function.update_noteq ha]
        exact hT.1 a k hak
    · intro a
      by_cases ha : a = i
      · subst ha
        rw [Function.update_same, projAll_high n x Q hT a a le_rfl]
        exact mul_pos (hT.2 a) hc
      · rw [Function.update_noteq ha]
        exact hT.2 a
  · intro j k hj hk
    have hself : sampleInner n x
        (fun k => projAll n x Q i k
          * (1 / Real.sqrt (sampleInner n x (projAll n x Q i) (projAll n x Q i))))
        (fun k => projAll n x Q i k
          * (1 / Real.sqrt (sampleInner n x (projAll n x Q i) (projAll n x Q i)))) = 1 := by
      rw [sampleInner_scale_left, sampleInner_scale_right]
      field_simp
    by_cases hji : j = i
    · by_cases hki : k = i
      · rw [hji, hki, Function.update_same, if_pos rfl]
        exact hself
      · have hk' : k < i := by
          rw [Fin.lt_def]
          have : k.val ≠ i.val := fun h => hki (Fin.ext h)
          omega
        rw [hji, Function.update_same, Function.update_noteq hki, if_neg (Ne.symm hki),
          sampleInner_scale_left, projAll_orth n x Q i hO k hk', zero_mul]
    · have hj' : j < i := by
        rw [Fin.lt_def]
        have : j.val ≠ i.val := fun h => hji (Fin.ext h)
        omega
      by_cases hki : k = i
      · rw [hki, Function.update_same, Function.update_noteq hji, if_neg hji,
          sampleInner_scale_right, sampleInner_comm, projAll_orth n x Q i hO j hj', zero_mul]
      · have hk' : k.val < i.val := by
          have : k.val ≠ i.val := fun h => hki (Fin.ext h)
          omega
        rw [Function.update_noteq hji, Function.update_noteq hki]
        exact hO j k hj' hk'

/-- The row written by one pass of the outer loop of `orthonormal` on finite data. -/
theorem outer_step (n : ℕ) (x : Fin n → ℝ) (hx : 4 ≤ (Finset.univ.image x).card)
    (Q : Fin 4 → Fin 4 → ℝ) (hT : Triangular Q) (i : Fin 4) (hO : OrthoUpTo n x i.val Q) :
    Triangular (Function.update Q i (fun k => projAll n x Q i k
      * (1 / Real.sqrt (sampleInner n x (projAll n x Q i) (projAll n x Q i))))) ∧
    OrthoUpTo n x (i.val + 1) (Function.update Q i (fun k => projAll n x Q i k
      * (1 / Real.sqrt (sampleInner n x (projAll n x Q i) (projAll n x Q i))))) :=
  outer_step_of_pos n x Q hT i hO (projAll_pos n x hx Q hT i)

/-- One pass of the outer loop of `orthonormal` keeps the base finite and triangular and makes
one more polynom orthonormal. -/
theorem orthoOuter_spec (m : Libm ℝ) (hm : m.Exact) (n : ℕ) (x : Fin n → ℝ)
    (hx : 4 ≤ (Finset.univ.image x).card) (Q : Fin 4 → Fin 4 → ℝ) (hT : Triangular Q)
    (i : Fin 4) (hO : OrthoUpTo n x i.val Q) :
    ∃ Q1 : Fin 4 → Fin 4 → ℝ,
      orthoOuter m n (fun k => fin (x k)) (fun a b => fin (Q a b)) i = (fun a b => fin (Q1 a b))
      ∧ Triangular Q1 ∧ OrthoUpTo n x (i.val + 1) Q1 :=
  ⟨_, orthoOuter_fin m hm n x Q i (projAll_pos n x hx Q hT i), outer_step n x hx Q hT i hO⟩

/-- On a finite triangular base and samples with at least four distinct abscissas,
`orthonormal` returns a finite triangular base that is orthonormal for the sample inner
product. -/
theorem orthonormal_spec (m : Libm ℝ) (hm : m.Exact) (n : ℕ) (x : Fin n → ℝ)
    (hx : 4 ≤ (Finset.univ.image x).card) (Q : Fin 4 → Fin 4 → ℝ) (hT : Triangular Q) :
    ∃ Q4 : Fin 4 → Fin 4 → ℝ,
      orthonormal m n (fun k => fin (x k)) (fun a b => fin (Q a b)) = (fun a b => fin (Q4 a b))
      ∧ Triangular Q4 ∧ OrthoUpTo n x 4 Q4 := by
  have hO0 : OrthoUpTo n x (0 : Fin 4).val Q := fun j k hj _ => absurd hj (Nat.not_lt_zero _)
  obtain ⟨Q1, e1, hT1, hO1⟩ := orthoOuter_spec m hm n x hx Q hT 0 hO0
  obtain ⟨Q2, e2, hT2, hO2⟩ := orthoOuter_spec m hm n x hx Q1 hT1 1 hO1
  obtain ⟨Q3, e3, hT3, hO3⟩ := orthoOuter_spec m hm n x hx Q2 hT2 2 hO2
  obtain ⟨Q4, e4, hT4, hO4⟩ := orthoOuter_spec m hm n x hx Q3 hT3 3 hO3
  refine ⟨Q4, ?_, hT4, hO4⟩
  unfold orthonormal
  rw [finRange_four]
  simp only [List.foldl_cons, List.foldl_nil]
  rw [e1, e2, e3, e4]

end gramSchmidtProofs

/-! ## The projection on finite data -/

section projection

theorem basis_eq : (basis : Fin 4 → polynom ℝ) = fun a b => fin (canonical a b) := by
  funext a b
  unfold basis canonical
  split_ifs
  · exact one_eq
  · exact zero_eq

theorem canonical_triangular : Triangular (canonical : Fin 4 → Fin 4 → ℝ) := by
  constructor
  · intro i k hik
    unfold canonical
    rw [if_neg hik.ne]
  · intro i
    unfold canonical
    rw [if_pos rfl]
    exact one_pos

theorem cubicEval_combo (g : Fin 4 → ℝ) (Q : Fin 4 → Fin 4 → ℝ) (t : ℝ) :
    cubicEval (combo g Q) t = ∑ k, g k * cubicEval (Q k) t := by
  unfold cubicEval combo
  simp only [Fin.sum_univ_four]
  ring

theorem targetInner_combo (n : ℕ) (x w : Fin n → ℝ) (g : Fin 4 → ℝ) (Q : Fin 4 → Fin 4 → ℝ) :
    targetInner n x w (combo g Q) = ∑ k, g k * targetInner n x w (Q k) := by
  unfold targetInner
  simp only [cubicEval_combo, Finset.mul_sum]
  rw [Finset.sum_comm]
  refine Finset.sum_congr rfl fun k _ => Finset.sum_congr rfl fun i _ => ?_
  ring

theorem targetInner_eval (n : ℕ) (x : Fin n → ℝ) (p q : Fin 4 → ℝ) :
    targetInner n x (fun i => cubicEval p (x i)) q = sampleInner n x p q := rfl

theorem sum_mul_indicator (g : Fin 4 → ℝ) (k : Fin 4) :
    ∑ l, g l * (if l = k then (1 : ℝ) else 0) = g k := by
  simp

/-- The targets sampled from a combination of an orthonormal base have the coefficients of
the combination as inner products. -/
theorem targetInner_of_combo (n : ℕ) (x : Fin n → ℝ) (Q : Fin 4 → Fin 4 → ℝ)
    (hO : OrthoUpTo n x 4 Q) (g : Fin 4 → ℝ) (k : Fin 4) :
    targetInner n x (fun i => cubicEval (combo g Q) (x i)) (Q k) = g k := by
  rw [targetInner_eval, sampleInner_comm, ← targetInner_eval, targetInner_combo]
  simp only [targetInner_eval]
  rw [← sum_mul_indicator g k]
  refine Finset.sum_congr rfl fun l _ => ?_
  rw [sampleInner_comm, hO l k l.2 k.2]

/-- A triangular base spans the polynoms of degree at most three. -/
theorem triangular_span (Q : Fin 4 → Fin 4 → ℝ) (hT : Triangular Q) (c : Fin 4 → ℝ) :
    ∃ g : Fin 4 → ℝ, c = combo g Q := by
  obtain ⟨hz, hd⟩ := hT
  have h01 := hz 0 1 (by decide)
  have h02 := hz 0 2 (by decide)
  have h03 := hz 0 3 (by decide)
  have h12 := hz 1 2 (by decide)
  have h13 := hz 1 3 (by decide)
  have h23 := hz 2 3 (by decide)
  have d0 := (hd 0).ne'
  have d1 := (hd 1).ne'
  have d2 := (hd 2).ne'
  have d3 := (hd 3).ne'
  let g3 := c 3 / Q 3 3
  let g2 := (c 2 - g3 * Q 3 2) / Q 2 2
  let g1 := (c 1 - g3 * Q 3 1 - g2 * Q 2 1) / Q 1 1
  let g0 := (c 0 - g3 * Q 3 0 - g2 * Q 2 0 - g1 * Q 1 0) / Q 0 0
  refine ⟨![g0, g1, g2, g3], ?_⟩
  funext j
  unfold combo
  rw [Fin.sum_univ_four]
  fin_cases j
  · simp [g0, g1, g2, g3]
    field_simp
    ring
  · simp [g1, g2, g3, h01]
    field_simp
    ring
  · simp [g2, g3, h02, h12]
    field_simp
    ring
  · simp [g3, h03, h13, h23]
    field_simp

end projection

/-! ## Orthonormality, least squares, interpolation, exact refit -/

section fit

/-- The fit on finite data with at least four distinct abscissas: `orthonormal` leaves a
finite triangular orthonormal base and `approx` returns the combination of its polynoms
weighted by their inner products with the targets. -/
theorem fit_fin (m : Libm ℝ) (hm : m.Exact) (n : ℕ) (x y : Fin n → ℝ)
    (hx : 4 ≤ (Finset.univ.image x).card) :
    ∃ Q : Fin 4 → Fin 4 → ℝ, Triangular Q ∧ OrthoUpTo n x 4 Q ∧
      orthonormal m n (fun k => fin (x k)) basis = (fun a b => fin (Q a b)) ∧
      approx n (fun k => fin (x k)) (fun k => fin (y k))
          (orthonormal m n (fun k => fin (x k)) basis)
        = fun j => fin (combo (fun k => targetInner n x y (Q k)) Q j) := by
  obtain ⟨Q, e, hT, hO⟩ := orthonormal_spec m hm n x hx canonical canonical_triangular
  rw [← basis_eq] at e
  refine ⟨Q, hT, hO, e, ?_⟩
  rw [e, approx_fin]
  rfl

theorem cubicEval_combo_sub (g f : Fin 4 → ℝ) (Q : Fin 4 → Fin 4 → ℝ) (t : ℝ) :
    cubicEval (combo g Q) t - cubicEval (combo f Q) t
      = cubicEval (combo (fun k => g k - f k) Q) t := by
  rw [cubicEval_combo, cubicEval_combo, cubicEval_combo, ← Finset.sum_sub_distrib]
  refine Finset.sum_congr rfl fun k _ => ?_
  ring

/-- The residual of the projection is orthogonal to every polynom of the base. -/
theorem residual_orth (n : ℕ) (x y : Fin n → ℝ) (Q : Fin 4 → Fin 4 → ℝ)
    (hO : OrthoUpTo n x 4 Q) (k : Fin 4) :
    targetInner n x
      (fun i => cubicEval (combo (fun k => targetInner n x y (Q k)) Q) (x i) - y i) (Q k)
      = 0 := by
  have h := targetInner_of_combo n x Q hO (fun k => targetInner n x y (Q k)) k
  unfold targetInner at h ⊢
  simp only [sub_mul]
  rw [Finset.sum_sub_distrib, h]
  exact sub_self _

/-- The projection on a triangular orthonormal base minimises the sum of squares. -/
theorem least_squares_core (n : ℕ) (x y : Fin n → ℝ) (Q : Fin 4 → Fin 4 → ℝ)
    (hT : Triangular Q) (hO : OrthoUpTo n x 4 Q) (c : Fin 4 → ℝ) :
    ∑ i, (cubicEval (combo (fun k => targetInner n x y (Q k)) Q) (x i) - y i) ^ 2
      ≤ ∑ i, (cubicEval c (x i) - y i) ^ 2 := by
  obtain ⟨g, rfl⟩ := triangular_span Q hT c
  have hRD : ∑ i, (cubicEval (combo (fun k => targetInner n x y (Q k)) Q) (x i) - y i)
      * cubicEval (combo (fun k => g k - targetInner n x y (Q k)) Q) (x i) = 0 := by
    change targetInner n x
      (fun i => cubicEval (combo (fun k => targetInner n x y (Q k)) Q) (x i) - y i)
      (combo (fun k => g k - targetInner n x y (Q k)) Q) = 0
    rw [targetInner_combo]
    refine Finset.sum_eq_zero fun k _ => ?_
    rw [residual_orth n x y Q hO k, mul_zero]
  have key : ∀ i, (cubicEval (combo g Q) (x i) - y i) ^ 2
      = (cubicEval (combo (fun k => targetInner n x y (Q k)) Q) (x i) - y i) ^ 2
        + 2 * ((cubicEval (combo (fun k => targetInner n x y (Q k)) Q) (x i) - y i)
          * cubicEval (combo (fun k => g k - targetInner n x y (Q k)) Q) (x i))
        + (cubicEval (combo (fun k => g k - targetInner n x y (Q k)) Q) (x i)) ^ 2 := by
    intro i
    rw [← cubicEval_combo_sub]
    ring
  rw [Finset.sum_congr rfl fun i _ => key i, Finset.sum_add_distrib, Finset.sum_add_distrib,
    ← Finset.mul_sum, hRD]
  have hD : 0 ≤ ∑ i, (cubicEval (combo (fun k => g k - targetInner n x y (Q k)) Q) (x i)) ^ 2 :=
    Finset.sum_nonneg fun _ _ => sq_nonneg _
  linarith

/-- C3 (amended): orthonormality, in exact real arithmetic.  For every finite sample set whose
abscissas contain at least four distinct values (so `n ≥ 4`), in exact arithmetic and with the
exact square root, after `orthonormal(basis)` has run on the canonical base the polynoms satisfy
`skalarpoly(q_i, q_j) = 1` when `i = j` and `0` otherwise.  In binary64 the inner products are
rounded and can underflow or overflow, and no tolerance holds for every sample set. -/
theorem orthonormal_is_orthonormal (m : Libm ℝ) (hm : m.Exact) (n : ℕ) (x : Fin n → ℝ)
    (hx : 4 ≤ (Finset.univ.image x).card) (i j : Fin 4) :
    skalarpoly n (fun k => fin (x k)) (orthonormal m n (fun k => fin (x k)) basis i)
        (orthonormal m n (fun k => fin (x k)) basis j)
      = fin (if i = j then 1 else 0) := by
  obtain ⟨Q, -, hO, e, -⟩ := fit_fin m hm n x x hx
  rw [e, skalarpoly_fin, hO i j i.2 j.2]

/-- C4 (amended): least-squares optimality, in exact real arithmetic.  For every finite sample
set with at least four distinct abscissas, in exact arithmetic and with the exact square root,
the coefficient set returned by `approx()` after `orthonormal(basis)` is finite and its sum of
squares `Σ_i (value(fit, x_i) - y_i)^2` is at most that of every polynom `c` of degree at most
three.  In binary64 the fit is the rounded projection and need not be the minimiser. -/
theorem approx_least_squares (m : Libm ℝ) (hm : m.Exact) (n : ℕ) (x y : Fin n → ℝ)
    (hx : 4 ≤ (Finset.univ.image x).card) :
    ∃ v : Fin n → ℝ,
      (∀ i, value (approx n (fun k => fin (x k)) (fun k => fin (y k))
          (orthonormal m n (fun k => fin (x k)) basis)) (fin (x i)) = fin (v i)) ∧
      ∀ c : Fin 4 → ℝ, ∑ i, (v i - y i) ^ 2
        ≤ ∑ i, (c 0 + c 1 * x i + c 2 * x i ^ 2 + c 3 * x i ^ 3 - y i) ^ 2 := by
  obtain ⟨Q, hT, hO, -, e⟩ := fit_fin m hm n x y hx
  refine ⟨fun i => cubicEval (combo (fun k => targetInner n x y (Q k)) Q) (x i), ?_, ?_⟩
  · intro i
    rw [e, value_fin]
  · intro c
    exact least_squares_core n x y Q hT hO c

/-- C6 (amended): exact refit, in exact real arithmetic.  When the targets of a finite sample
set with at least four distinct abscissas are `y_i = c0 + c1 x_i + c2 x_i^2 + c3 x_i^3`, in
exact arithmetic and with the exact square root `orthonormal` followed by `approx` returns
exactly `[c0, c1, c2, c3]`.  In binary64 the coefficients returned are rounded and can be far
from `c`, or NaN. -/
theorem approx_exact_refit (m : Libm ℝ) (hm : m.Exact) (n : ℕ) (x : Fin n → ℝ)
    (hx : 4 ≤ (Finset.univ.image x).card) (c : Fin 4 → ℝ) :
    approx n (fun k => fin (x k))
        (fun k => fin (c 0 + c 1 * x k + c 2 * x k ^ 2 + c 3 * x k ^ 3))
        (orthonormal m n (fun k => fin (x k)) basis)
      = fun j => fin (c j) := by
  obtain ⟨Q, hT, hO, -, e⟩ :=
    fit_fin m hm n x (fun k => c 0 + c 1 * x k + c 2 * x k ^ 2 + c 3 * x k ^ 3) hx
  obtain ⟨g, hg⟩ := triangular_span Q hT c
  rw [e]
  funext j
  congr 1
  have hf : (fun k => targetInner n x
      (fun k => c 0 + c 1 * x k + c 2 * x k ^ 2 + c 3 * x k ^ 3) (Q k)) = g := by
    funext k
    have h := targetInner_of_combo n x Q hO g k
    rw [← hg] at h
    exact h
  rw [hf, ← hg]

end fit

/-! ## Concrete sample sets -/

section samples

theorem sampleX_injective : Function.Injective (sampleX : Fin 4 → ℝ) := by
  intro a b h
  fin_cases a <;> fin_cases b <;> simp [sampleX] at h ⊢

theorem sampleX_distinct : 4 ≤ (Finset.univ.image (sampleX : Fin 4 → ℝ)).card := by
  rw [Finset.card_image_of_injective _ sampleX_injective]
  simp

theorem scenarioR_injective : Function.Injective (scenarioR : Fin 4 → ℝ) := by
  intro a b h
  fin_cases a <;> fin_cases b <;> simp [scenarioR] at h ⊢

theorem orthonormal_is_orthonormal_witness :
    Libm.Exact ⟨Real.sqrt, Real.exp, Real.log, fun a b => a ^ b⟩ ∧
    4 ≤ (Finset.univ.image (sampleX : Fin 4 → ℝ)).card ∧
    skalarpoly 4 (fun k => fin (sampleX k))
        (orthonormal ⟨Real.sqrt, Real.exp, Real.log, fun a b => a ^ b⟩ 4
          (fun k => fin (sampleX k)) basis 0)
        (orthonormal ⟨Real.sqrt, Real.exp, Real.log, fun a b => a ^ b⟩ 4
          (fun k => fin (sampleX k)) basis 1)
      = fin (if (0 : Fin 4) = 1 then 1 else 0) :=
  ⟨⟨rfl, rfl, rfl, rfl⟩, sampleX_distinct,
    orthonormal_is_orthonormal _ ⟨rfl, rfl, rfl, rfl⟩ 4 sampleX sampleX_distinct 0 1⟩

theorem approx_exact_refit_witness :
    Libm.Exact ⟨Real.sqrt, Real.exp, Real.log, fun a b => a ^ b⟩ ∧
    4 ≤ (Finset.univ.image (sampleX : Fin 4 → ℝ)).card ∧
    approx 4 (fun k => fin (sampleX k))
        (fun k => fin ((![1, 2, 3, 4] : Fin 4 → ℝ) 0 + (![1, 2, 3, 4] : Fin 4 → ℝ) 1 * sampleX k
          + (![1, 2, 3, 4] : Fin 4 → ℝ) 2 * sampleX k ^ 2
          + (![1, 2, 3, 4] : Fin 4 → ℝ) 3 * sampleX k ^ 3))
        (orthonormal ⟨Real.sqrt, Real.exp, Real.log, fun a b => a ^ b⟩ 4
          (fun k => fin (sampleX k)) basis)
      = fun j => fin ((![1, 2, 3, 4] : Fin 4 → ℝ) j) :=
  ⟨⟨rfl, rfl, rfl, rfl⟩, sampleX_distinct,
    approx_exact_refit _ ⟨rfl, rfl, rfl, rfl⟩ 4 sampleX sampleX_distinct ![1, 2, 3, 4]⟩

end samples

/-! ## Domain errors of the temperature to resistance conversion -/

section tempToResDomain

theorem pow_nan_third (m : Libm ℝ) : pow m nan (fin (1 / 3)) = nan := by
  unfold pow
  have h3 : (fin (1 / 3) : Dbl ℝ) ≠ fin 0 := by
    intro h
    injection h with h
    norm_num at h
  have h1 : (nan : Dbl ℝ) ≠ fin 1 := fun h => Dbl.noConfusion h
  rw [if_neg h3, if_neg h1]

theorem exp_nan (m : Libm ℝ) : exp m nan = nan := rfl

/-- With `p < 0` and `disc ≥ 0` exactly one of the two bases handed to `pow` is negative. -/
theorem bases_of_p_neg (t : ℝ) (a : Fin 4 → ℝ) (hp : cubicP a < 0) (hd : 0 ≤ cubicDisc t a) :
    (cubicQ t a / 2 + Real.sqrt (cubicDisc t a) < 0 ∧
      0 < -cubicQ t a / 2 + Real.sqrt (cubicDisc t a)) ∨
    (0 < cubicQ t a / 2 + Real.sqrt (cubicDisc t a) ∧
      -cubicQ t a / 2 + Real.sqrt (cubicDisc t a) < 0) := by
  have hp3 : cubicP a * cubicP a * cubicP a < 0 :=
    mul_neg_of_pos_of_neg (mul_self_pos.mpr hp.ne) hp
  have hlt : cubicDisc t a < (cubicQ t a / 2) ^ 2 := by
    unfold cubicDisc
    linarith
  have hq : 0 < |cubicQ t a / 2| := by
    rw [abs_pos]
    intro h
    rw [h] at hlt
    norm_num at hlt
    linarith
  have hsq : Real.sqrt (cubicDisc t a) < |cubicQ t a / 2| := by
    rw [Real.sqrt_lt' hq, sq_abs]
    exact hlt
  have hs0 := Real.sqrt_nonneg (cubicDisc t a)
  rcases le_or_lt 0 (cubicQ t a / 2) with h | h
  · rw [abs_of_nonneg h] at hsq
    right
    constructor <;> linarith
  · rw [abs_of_neg h] at hsq
    left
    constructor <;> linarith

end tempToResDomain

/-! ## The cubic is one-to-one when `p ≥ 0` -/

section cubicMono

theorem cubicEval_sub (a : Fin 4 → ℝ) (ha3 : a 3 ≠ 0) (u v : ℝ) :
    cubicEval a u - cubicEval a v
      = a 3 * (u - v) * (3 / 4 * (u + v + 2 * cubicB a / 3) ^ 2 + 1 / 4 * (u - v) ^ 2
          + cubicP a) := by
  unfold cubicEval cubicP cubicC cubicB
  field_simp
  ring

theorem cubic_injective (a : Fin 4 → ℝ) (ha3 : a 3 ≠ 0) (hp : 0 ≤ cubicP a) (u v : ℝ)
    (h : cubicEval a u = cubicEval a v) : u = v := by
  have key := cubicEval_sub a ha3 u v
  rw [h, sub_self] at key
  by_contra huv
  have hne : u - v ≠ 0 := sub_ne_zero.mpr huv
  have hg : 3 / 4 * (u + v + 2 * cubicB a / 3) ^ 2 + 1 / 4 * (u - v) ^ 2 + cubicP a = 0 := by
    rcases mul_eq_zero.mp key.symm with h1 | h1
    · rcases mul_eq_zero.mp h1 with h2 | h2
      · exact absurd h2 ha3
      · exact absurd h2 hne
    · exact h1
  have h1 := sq_nonneg (u + v + 2 * cubicB a / 3)
  have h2 : 0 < (u - v) ^ 2 := by positivity
  linarith

theorem cubic_strictMono (a : Fin 4 → ℝ) (ha3 : 0 < a 3) (hp : 0 ≤ cubicP a) (u v : ℝ)
    (h : u < v) : cubicEval a u < cubicEval a v := by
  have key := cubicEval_sub a ha3.ne' v u
  have h1 := sq_nonneg (v + u + 2 * cubicB a / 3)
  have h2 : 0 < (v - u) ^ 2 := by
    have : v - u ≠ 0 := sub_ne_zero.mpr h.ne'
    positivity
  have hg : 0 < 3 / 4 * (v + u + 2 * cubicB a / 3) ^ 2 + 1 / 4 * (v - u) ^ 2 + cubicP a := by
    linarith
  have hpos : 0 < a 3 * (v - u) * (3 / 4 * (v + u + 2 * cubicB a / 3) ^ 2
      + 1 / 4 * (v - u) ^ 2 + cubicP a) :=
    mul_pos (mul_pos ha3 (sub_pos.mpr h)) hg
  linarith

/-- The exponent of the result of `dNtcTempToRes` solves the cubic when `p ≥ 0`. -/
theorem dNtcTempToRes_root (m : Libm ℝ) (hm : m.Exact) (t : ℝ) (a : Fin 4 → ℝ)
    (ha3 : a 3 ≠ 0) (ht : t ≠ -273.15) (hp : 0 ≤ cubicP a) :
    ∃ w : ℝ, dNtcTempToRes m (fin t) (fun i => fin (a i)) = fin (Real.exp w) ∧
      cubicEval a w = 1 / (t - (-273.15)) := by
  obtain ⟨hA, hB⟩ := bases_nonneg t a hp
  exact ⟨_, dNtcTempToRes_of_p_nonneg m hm t a ha3 ht hp,
    cardano_root t a ha3 ht _ _ (Real.sqrt (cubicDisc t a))
      (rpow_third_cube hB) (rpow_third_cube hA) (cbrt_mul_cbrt t a hp)⟩

/-- The reverse round trip on finite data with `a3 ≠ 0` and `p ≥ 0`. -/
theorem reverse_of_p_nonneg (m : Libm ℝ) (hm : m.Exact) (a : Fin 4 → ℝ) (ha3 : a 3 ≠ 0)
    (hp : 0 ≤ cubicP a) (r : ℝ) (hr : 0 < r) (h0 : cubicEval a (Real.log r) ≠ 0) :
    dNtcResToTemp m (fin r) (fun i => fin (a i))
        = fin (1 / cubicEval a (Real.log r) + (-273.15)) ∧
    dNtcTempToRes m (fin (1 / cubicEval a (Real.log r) + (-273.15))) (fun i => fin (a i))
        = fin r := by
  have h1 : dNtcResToTemp m (fin r) (fun i => fin (a i))
      = fin (1 / cubicEval a (Real.log r) + (-273.15)) := by
    have h := dNtcResToTemp_exp m hm (Real.log r) a h0
    rw [Real.exp_log hr] at h
    exact h
  refine ⟨h1, ?_⟩
  have ht : 1 / cubicEval a (Real.log r) + (-273.15) ≠ -273.15 := by
    intro h
    have : 1 / cubicEval a (Real.log r) = 0 := by linarith
    exact one_div_ne_zero h0 this
  obtain ⟨w, hw, hroot⟩ := dNtcTempToRes_root m hm _ a ha3 ht hp
  have hT : 1 / cubicEval a (Real.log r) + (-273.15) - (-273.15)
      = 1 / cubicEval a (Real.log r) := by ring
  rw [hT, one_div_one_div] at hroot
  rw [hw, cubic_injective a ha3 hp w (Real.log r) hroot, Real.exp_log hr]

/-- C20 (amended): reverse round trip, in exact real arithmetic.  For every finite coefficient
set with `a3 ≠ 0` and `p ≥ 0` and every resistance `r > 0` at which the polynomial is non-zero,
in exact arithmetic and with the exact math library,
`dNtcTempToRes(dNtcResToTemp(r, a), a) = r`; hence `dNtcResToTemp` is one-to-one on these
resistances.  The reference coefficient set has `p > 0`.  In binary64 the round trip is rounded
and can overflow. -/
theorem reverse_round_trip (m : Libm ℝ) (hm : m.Exact) (a : Fin 4 → ℝ) (ha3 : a 3 ≠ 0)
    (hp : 0 ≤ cubicP a) (r s : ℝ) (hr : 0 < r) (hs : 0 < s)
    (h0 : a 0 + a 1 * Real.log r + a 2 * Real.log r ^ 2 + a 3 * Real.log r ^ 3 ≠ 0)
    (h1 : a 0 + a 1 * Real.log s + a 2 * Real.log s ^ 2 + a 3 * Real.log s ^ 3 ≠ 0) :
    dNtcTempToRes m (dNtcResToTemp m (fin r) (fun i => fin (a i))) (fun i => fin (a i))
      = fin r ∧
    (dNtcResToTemp m (fin r) (fun i => fin (a i))
      = dNtcResToTemp m (fin s) (fun i => fin (a i)) → r = s) := by
  obtain ⟨er, hr2⟩ := reverse_of_p_nonneg m hm a ha3 hp r hr h0
  obtain ⟨es, hs2⟩ := reverse_of_p_nonneg m hm a ha3 hp s hs h1
  constructor
  · rw [er]
    exact hr2
  · intro h
    have h2 : dNtcTempToRes m (dNtcResToTemp m (fin r) (fun i => fin (a i)))
        (fun i => fin (a i)) = fin s := by
      rw [h, es]
      exact hs2
    rw [er, hr2] at h2
    injection h2

theorem refPoly_log_two_ne :
    (refValue : Fin 4 → ℝ) 0 + refValue 1 * Real.log 2 + refValue 2 * Real.log 2 ^ 2
      + refValue 3 * Real.log 2 ^ 3 ≠ 0 := by
  have hL0 : 0 < Real.log 2 := Real.log_pos (by norm_num)
  have hL1 : Real.log 2 ≤ 1 := by
    have := Real.log_le_sub_one_of_pos (by norm_num : (0 : ℝ) < 2)
    linarith
  have h3 : 0 < Real.log 2 ^ 3 := by positivity
  have h2 : Real.log 2 ^ 2 ≤ Real.log 2 := by nlinarith
  simp only [refValue, Matrix.cons_val_zero, Matrix.cons_val_one, Matrix.head_cons,
    Matrix.cons_val_two, Matrix.cons_val_three, Matrix.tail_cons]
  norm_num
  nlinarith

theorem reverse_round_trip_witness :
    Libm.Exact ⟨Real.sqrt, Real.exp, Real.log, fun a b => a ^ b⟩ ∧
    (refValue : Fin 4 → ℝ) 3 ≠ 0 ∧ 0 ≤ cubicP (refValue : Fin 4 → ℝ) ∧
    (0 : ℝ) < 1 ∧ (0 : ℝ) < 2 ∧
    (refValue : Fin 4 → ℝ) 0 + refValue 1 * Real.log 1 + refValue 2 * Real.log 1 ^ 2
      + refValue 3 * Real.log 1 ^ 3 ≠ 0 ∧
    (refValue : Fin 4 → ℝ) 0 + refValue 1 * Real.log 2 + refValue 2 * Real.log 2 ^ 2
      + refValue 3 * Real.log 2 ^ 3 ≠ 0 ∧
    dNtcTempToRes ⟨Real.sqrt, Real.exp, Real.log, fun a b => a ^ b⟩
      (dNtcResToTemp ⟨Real.sqrt, Real.exp, Real.log, fun a b => a ^ b⟩ (fin 1)
        (fun i => fin ((refValue : Fin 4 → ℝ) i)))
      (fun i => fin ((refValue : Fin 4 → ℝ) i)) = fin 1 ∧
    (dNtcResToTemp ⟨Real.sqrt, Real.exp, Real.log, fun a b => a ^ b⟩ (fin 1)
        (fun i => fin ((refValue : Fin 4 → ℝ) i))
      = dNtcResToTemp ⟨Real.sqrt, Real.exp, Real.log, fun a b => a ^ b⟩ (fin 2)
        (fun i => fin ((refValue : Fin 4 → ℝ) i)) → (1 : ℝ) = 2) :=
  ⟨⟨rfl, rfl, rfl, rfl⟩, by norm_num [refValue], refValue_p_pos.le, one_pos, two_pos,
    by norm_num [refValue], refPoly_log_two_ne,
    reverse_round_trip _ ⟨rfl, rfl, rfl, rfl⟩ refValue (by norm_num [refValue])
      refValue_p_pos.le 1 2 one_pos two_pos (by norm_num [refValue]) refPoly_log_two_ne⟩

/-- C18 (amended): NTC monotonicity, in exact real arithmetic.  With the reference coefficient
set, in exact arithmetic and with the exact math library, `dNtcTempToRes` is finite and strictly
decreasing on finite temperatures above absolute zero: for `-273.15 < t1 < t2` the resistance at
`t1` is larger than the resistance at `t2`.  In binary64 distinct temperatures can give the same
resistance. -/
theorem ntc_monotone (m : Libm ℝ) (hm : m.Exact) (t1 t2 : ℝ) (h1 : -273.15 < t1)
    (h12 : t1 < t2) :
    ∃ r1 r2 : ℝ, dNtcTempToRes m (fin t1) refCoeff = fin r1 ∧
      dNtcTempToRes m (fin t2) refCoeff = fin r2 ∧ r2 < r1 := by
  have ha3 : 0 < (refValue : Fin 4 → ℝ) 3 := by norm_num [refValue]
  have hp := refValue_p_pos.le
  obtain ⟨w1, e1, hw1⟩ := dNtcTempToRes_root m hm t1 refValue ha3.ne' (by linarith) hp
  obtain ⟨w2, e2, hw2⟩ := dNtcTempToRes_root m hm t2 refValue ha3.ne' (by linarith) hp
  rw [refCoeff_eq]
  refine ⟨_, _, e1, e2, Real.exp_lt_exp.mpr ?_⟩
  by_contra hle
  have hle2 : w1 ≤ w2 := not_lt.mp hle
  have hmono : cubicEval refValue w1 ≤ cubicEval refValue w2 := by
    rcases hle2.lt_or_eq with h | h
    · exact (cubic_strictMono refValue ha3 hp w1 w2 h).le
    · rw [h]
  rw [hw1, hw2] at hmono
  have hT1 : 0 < t1 - (-273.15) := by linarith
  have hlt : 1 / (t2 - (-273.15)) < 1 / (t1 - (-273.15)) :=
    one_div_lt_one_div_of_lt hT1 (by linarith)
  linarith

theorem ntc_monotone_witness :
    Libm.Exact ⟨Real.sqrt, Real.exp, Real.log, fun a b => a ^ b⟩ ∧
    (-273.15 : ℝ) < 0 ∧ (0 : ℝ) < 25 ∧
    ∃ r1 r2 : ℝ,
      dNtcTempToRes ⟨Real.sqrt, Real.exp, Real.log, fun a b => a ^ b⟩ (fin 0) refCoeff
        = fin r1 ∧
      dNtcTempToRes ⟨Real.sqrt, Real.exp, Real.log, fun a b => a ^ b⟩ (fin 25) refCoeff
        = fin r2 ∧ r2 < r1 :=
  ⟨⟨rfl, rfl, rfl, rfl⟩, by norm_num, by norm_num,
    ntc_monotone _ ⟨rfl, rfl, rfl, rfl⟩ 0 25 (by norm_num) (by norm_num)⟩

end cubicMono

/-! ## Division by `a3 = 0` -/

section degenerateCoeff

theorem mul_def {α : Type} [LinearOrderedField α] [Rounding α] (x y : Dbl α) :
    x * y = mul x y := rfl

theorem add_def {α : Type} [LinearOrderedField α] [Rounding α] (x y : Dbl α) :
    x + y = add x y := rfl

theorem sub_def {α : Type} [LinearOrderedField α] [Rounding α] (x y : Dbl α) :
    x - y = add x (neg y) := rfl

theorem div_def {α : Type} [LinearOrderedField α] [Rounding α] (x y : Dbl α) :
    x / y = div x y := rfl

theorem neg_def {α : Type} [LinearOrderedField α] (x : Dbl α) : -x = neg x := rfl

theorem infOfSign_cases (a : ℝ) :
    infOfSign a = pinf ∨ infOfSign a = ninf ∨ infOfSign a = (nan : Dbl ℝ) := by
  unfold infOfSign
  split_ifs <;> simp

/-- The quotients by `a3 = 0` are infinite or NaN. -/
theorem quotients_of_a3_zero (t : ℝ) (a : Fin 4 → ℝ) (ha3 : a 3 = 0) :
    ((fin (a 0) - 1.0 / (fin t - TABS)) / fin (a 3) = pinf ∨
      (fin (a 0) - 1.0 / (fin t - TABS)) / fin (a 3) = ninf ∨
      (fin (a 0) - 1.0 / (fin t - TABS)) / fin (a 3) = (nan : Dbl ℝ)) ∧
    (fin (a 1) / fin (a 3) = pinf ∨ fin (a 1) / fin (a 3) = ninf ∨
      fin (a 1) / fin (a 3) = (nan : Dbl ℝ)) ∧
    (fin (a 2) / fin (a 3) = pinf ∨ fin (a 2) / fin (a 3) = ninf ∨
      fin (a 2) / fin (a 3) = (nan : Dbl ℝ)) := by
  have hq : ∀ u : ℝ, (fin u / fin (a 3) : Dbl ℝ) = infOfSign u := by
    intro u
    rw [div_def, ha3]
    simp [div]
  refine ⟨?_, ?_, ?_⟩
  · rw [TABS_eq, one_eq, fin_sub_fin]
    by_cases hT : t - (-273.15) = 0
    · right
      left
      rw [hT, div_def, sub_def, div_def, ha3]
      simp [div, infOfSign, add, neg]
    · rw [fin_div_fin 1 hT, fin_sub_fin, hq]
      exact infOfSign_cases _
  · rw [hq]
    exact infOfSign_cases _
  · rw [hq]
    exact infOfSign_cases _

/-- With infinite or NaN values of `b`, `c` and `d` the argument of `sqrt` is NaN. -/
theorem disc_nan_of_infinite (b c d : Dbl ℝ) (hb : b = pinf ∨ b = ninf ∨ b = nan)
    (hc : c = pinf ∨ c = ninf ∨ c = nan) (hd : d = pinf ∨ d = ninf ∨ d = nan) :
    (2.0 / 27.0 * b * b * b - 1.0 / 3.0 * b * c + d)
        * (2.0 / 27.0 * b * b * b - 1.0 / 3.0 * b * c + d) / 4.0
      + (c - 1.0 / 3.0 * b * b) * (c - 1.0 / 3.0 * b * b) * (c - 1.0 / 3.0 * b * b) / 27.0
      = nan := by
  have e1 : (2.0 / 27.0 : Dbl ℝ) = fin (2 / 27) := by
    rw [lit2_eq, lit27_eq, fin_div_fin 2 (by norm_num)]
  have e2 : (1.0 / 3.0 : Dbl ℝ) = fin (1 / 3) := by
    rw [one_eq, lit3_eq, fin_div_fin 1 (by norm_num)]
  rw [e1, e2, lit4_eq, lit27_eq]
  rcases hb with rfl | rfl | rfl <;> rcases hc with rfl | rfl | rfl <;>
    rcases hd with rfl | rfl | rfl <;>
    norm_num [mul_def, add_def, sub_def, div_def, mul, add, div, neg, infOfSign]

/-- The value of `dNtcTempToRes` on finite data with `a3 = 0`. -/
theorem dNtcTempToRes_of_a3_zero (m : Libm ℝ) (t : ℝ) (a : Fin 4 → ℝ) (ha3 : a 3 = 0) :
    dNtcTempToRes m (fin t) (fun i => fin (a i)) = nan := by
  obtain ⟨hd, hc, hb⟩ := quotients_of_a3_zero t a ha3
  unfold dNtcTempToRes
  simp only []
  rw [disc_nan_of_infinite _ _ _ hb hc hd]
  have hs : sqrt m (nan : Dbl ℝ) = nan := rfl
  have e2 : (1.0 / 3.0 : Dbl ℝ) = fin (1 / 3) := by
    rw [one_eq, lit3_eq, fin_div_fin 1 (by norm_num)]
  rw [hs, add_nan, add_nan, e2, pow_nan_third, neg_nan, add_nan, nan_sub, exp_nan]

/-- C12 (fails on the code): for the coefficient set `[1, 1, 1, 0]` with `a3 = 0` and
`t = 25`, `dNtcTempToRes` neither rejects the input nor guards the divisions by `a3`: the
three quotients `d`, `c` and `b` are computed and are `+Inf`, and the value returned is the NaN
that `Inf - Inf` produces further down. -/
theorem a3_zero_divisions_not_guarded :
    (![1, 1, 1, 0] : Fin 4 → ℝ) 3 = 0 ∧
    (fin ((![1, 1, 1, 0] : Fin 4 → ℝ) 0) - 1.0 / (fin 25 - TABS))
      / fin ((![1, 1, 1, 0] : Fin 4 → ℝ) 3) = (pinf : Dbl ℝ) ∧
    fin ((![1, 1, 1, 0] : Fin 4 → ℝ) 1) / fin ((![1, 1, 1, 0] : Fin 4 → ℝ) 3)
      = (pinf : Dbl ℝ) ∧
    fin ((![1, 1, 1, 0] : Fin 4 → ℝ) 2) / fin ((![1, 1, 1, 0] : Fin 4 → ℝ) 3)
      = (pinf : Dbl ℝ) ∧
    dNtcTempToRes ⟨Real.sqrt, Real.exp, Real.log, fun a b => a ^ b⟩ (fin 25)
      (fun i => fin ((![1, 1, 1, 0] : Fin 4 → ℝ) i)) = nan := by
  refine ⟨by simp, ?_, ?_, ?_, dNtcTempToRes_of_a3_zero _ 25 _ (by simp)⟩
  · rw [TABS_eq, one_eq, fin_sub_fin, fin_div_fin 1 (by norm_num), fin_sub_fin, div_def]
    norm_num [div, infOfSign]
  · rw [div_def]
    norm_num [div, infOfSign]
  · rw [div_def]
    norm_num [div, infOfSign]

/-- C12 (amended): for every finite coefficient set with `a3 = 0` and every finite `t`,
`dNtcTempToRes` carries out the three divisions by `a3` unguarded, each quotient is `+Inf`,
`-Inf` or NaN, and the value returned is NaN, never a finite resistance. -/
theorem dNtcTempToRes_a3_zero (m : Libm ℝ) (t : ℝ) (a : Fin 4 → ℝ) (ha3 : a 3 = 0) :
    (∀ r : ℝ, (fin (a 0) - 1.0 / (fin t - TABS)) / fin (a 3) ≠ (fin r : Dbl ℝ)) ∧
    (∀ r : ℝ, fin (a 1) / fin (a 3) ≠ (fin r : Dbl ℝ)) ∧
    (∀ r : ℝ, fin (a 2) / fin (a 3) ≠ (fin r : Dbl ℝ)) ∧
    dNtcTempToRes m (fin t) (fun i => fin (a i)) = nan ∧
    ∀ r : ℝ, dNtcTempToRes m (fin t) (fun i => fin (a i)) ≠ fin r := by
  obtain ⟨hd, hc, hb⟩ := quotients_of_a3_zero t a ha3
  have hne : ∀ z : Dbl ℝ, (z = pinf ∨ z = ninf ∨ z = nan) → ∀ r : ℝ, z ≠ fin r := by
    intro z hz r e
    rcases hz with h | h | h <;> rw [h] at e <;> exact Dbl.noConfusion e
  have h := dNtcTempToRes_of_a3_zero m t a ha3
  refine ⟨hne _ hd, hne _ hc, hne _ hb, h, fun r => ?_⟩
  rw [h]
  exact fun e => Dbl.noConfusion e

theorem dNtcTempToRes_a3_zero_witness :
    (![1, 1, 1, 0] : Fin 4 → ℝ) 3 = 0 ∧
    (∀ r : ℝ, (fin ((![1, 1, 1, 0] : Fin 4 → ℝ) 0) - 1.0 / (fin 25 - TABS))
      / fin ((![1, 1, 1, 0] : Fin 4 → ℝ) 3) ≠ (fin r : Dbl ℝ)) ∧
    (∀ r : ℝ, fin ((![1, 1, 1, 0] : Fin 4 → ℝ) 1) / fin ((![1, 1, 1, 0] : Fin 4 → ℝ) 3)
      ≠ (fin r : Dbl ℝ)) ∧
    (∀ r : ℝ, fin ((![1, 1, 1, 0] : Fin 4 → ℝ) 2) / fin ((![1, 1, 1, 0] : Fin 4 → ℝ) 3)
      ≠ (fin r : Dbl ℝ)) ∧
    dNtcTempToRes ⟨Real.sqrt, Real.exp, Real.log, fun a b => a ^ b⟩ (fin 25)
      (fun i => fin ((![1, 1, 1, 0] : Fin 4 → ℝ) i)) = nan ∧
    ∀ r : ℝ, dNtcTempToRes ⟨Real.sqrt, Real.exp, Real.log, fun a b => a ^ b⟩ (fin 25)
      (fun i => fin ((![1, 1, 1, 0] : Fin 4 → ℝ) i)) ≠ fin r :=
  ⟨by simp, dNtcTempToRes_a3_zero _ 25 ![1, 1, 1, 0] (by simp)⟩

end degenerateCoeff

/-! ## The passes of `orthonormal` on arbitrary doubles -/

section passesGeneral

theorem mult_apply {α : Type} [LinearOrderedField α] [Rounding α] (p : polynom α)
    (f : Dbl α) : mult p f = fun k => p k * f := by
  unfold mult
  rw [finRange_four]
  funext k
  fin_cases k <;> simp [Function.update]

theorem linear_apply {α : Type} [LinearOrderedField α] [Rounding α] (p q : polynom α)
    (f : Dbl α) :
    linear p q f = fun k => p k + q k * f := by
  unfold linear
  rw [finRange_four]
  funext k
  fin_cases k <;> simp [Function.update]

theorem orthoOuter_eq {α : Type} [LinearOrderedField α] [Rounding α] (m : Libm α) (n : ℕ)
    (x : Fin n → Dbl α) (p : Fin 4 → polynom α) (i : Fin 4) :
    orthoOuter m n x p i = Function.update (orthoProject n x p i) i
      (mult (orthoProject n x p i i)
        (1.0 / sqrt m (skalarpoly n x (orthoProject n x p i i) (orthoProject n x p i i)))) :=
  rfl

theorem orthoProject_other {α : Type} [LinearOrderedField α] [Rounding α] (n : ℕ)
    (x : Fin n → Dbl α) (p : Fin 4 → polynom α) (i a : Fin 4) (ha : a ≠ i) : orthoProject n x p i a = p a := by
  unfold orthoProject
  generalize (List.finRange 4).filter (fun j => j < i) = js
  induction js generalizing p with
  | nil => rfl
  | cons j js ih =>
    rw [List.foldl_cons, ih]
    unfold orthoInner
    exact Function.update_noteq ha _ _

/-- Pass `i` of `orthonormal` writes row `i` only. -/
theorem orthoOuter_other {α : Type} [LinearOrderedField α] [Rounding α] (m : Libm α) (n : ℕ)
    (x : Fin n → Dbl α) (p : Fin 4 → polynom α) (i a : Fin 4) (ha : a ≠ i) : orthoOuter m n x p i a = p a := by
  rw [orthoOuter_eq, Function.update_noteq ha, orthoProject_other n x p i a ha]

theorem orthoProject_fin (n : ℕ) (x : Fin n → ℝ) (Q : Fin 4 → Fin 4 → ℝ) (i : Fin 4) :
    orthoProject n (fun k => fin (x k)) (fun a b => fin (Q a b)) i
      = fun a b => fin (Function.update Q i (projAll n x Q i) a b) := by
  have hi : i ∉ (List.finRange 4).filter (fun j => j < i) := by
    rw [mem_below]
    exact lt_irrefl i
  have h := inner_fold_fin n x Q i _ hi (Q i)
  rw [Function.update_eq_self] at h
  exact h

/-- The factor `1.0 / sqrt(norm)` for a zero or negative norm: `+Inf` or NaN. -/
theorem inv_sqrt_of_nonpos (m : Libm ℝ) (hm : m.Exact) (v : ℝ) (hv : v ≤ 0) :
    (1.0 / sqrt m (fin v) : Dbl ℝ) = if v = 0 then pinf else nan := by
  rcases hv.lt_or_eq with h | h
  · rw [if_neg h.ne]
    have hs : sqrt m (fin v) = nan := by simp [sqrt, h]
    rw [hs, div_nan]
  · rw [if_pos h, h]
    have hs : sqrt m (fin (0 : ℝ)) = fin 0 := by
      simp [sqrt, hm.1]
    rw [hs, one_eq, div_def]
    norm_num [div, infOfSign]

/-- C11 (amended): for every sample set and every base, when the norm that pass `i` of
`orthonormal` computes is zero or negative the pass does not fail.  With a zero norm it
computes `1.0 / sqrt(0) = +Inf` and multiplies row `i` by it; with a negative norm `sqrt` is
NaN and row `i` is multiplied by NaN.  The other rows stay as the inner loop left them, and
the base is returned. -/
theorem orthoOuter_degenerate (m : Libm ℝ) (hm : m.Exact) (n : ℕ) (x : Fin n → Dbl ℝ)
    (p : Fin 4 → polynom ℝ) (i : Fin 4) (v : ℝ) (hv : v ≤ 0)
    (hnorm : skalarpoly n x (orthoProject n x p i i) (orthoProject n x p i i) = fin v) :
    orthoOuter m n x p i = Function.update (orthoProject n x p i) i
      (fun k => orthoProject n x p i i k * (if v = 0 then pinf else nan)) := by
  unfold orthoOuter
  have hfold : ((List.finRange 4).filter (fun j => j < i)).foldl (orthoInner n x i) p
      = orthoProject n x p i := rfl
  simp only [hfold]
  rw [hnorm, mult_apply, inv_sqrt_of_nonpos m hm v hv]

theorem canonical_eval_zero (k : Fin 4) :
    cubicEval (canonical k : Fin 4 → ℝ) 0 = if k = 0 then 1 else 0 := by
  fin_cases k <;> simp [cubicEval, canonical]

theorem below_one : (List.finRange 4).filter (fun j => j < 1) = [0] := by decide

theorem projAll_one_at_zero :
    projAll 1 (fun _ => (0 : ℝ)) canonical 1 = canonical 1 := by
  unfold projAll
  rw [below_one]
  funext k
  simp [projRow, sampleInner, canonical_eval_zero]

theorem orthoProject_one_at_zero :
    orthoProject 1 (fun _ => fin (0 : ℝ)) basis 1 = basis := by
  rw [basis_eq, orthoProject_fin, projAll_one_at_zero, Function.update_eq_self]

theorem norm_one_at_zero :
    skalarpoly 1 (fun _ => fin (0 : ℝ)) (basis 1) (basis 1) = fin 0 := by
  rw [basis_eq, skalarpoly_fin]
  simp [sampleInner, canonical_eval_zero]

theorem orthoOuter_zero_at_zero :
    orthoOuter ⟨Real.sqrt, Real.exp, Real.log, fun a b => a ^ b⟩ 1 (fun _ => fin (0 : ℝ))
      basis 0 = basis := by
  have hP : projAll 1 (fun _ => (0 : ℝ)) canonical 0 = canonical 0 := rfl
  have hN : sampleInner 1 (fun _ => (0 : ℝ)) (canonical 0) (canonical 0) = 1 := by
    simp [sampleInner, canonical_eval_zero]
  rw [basis_eq, orthoOuter_fin _ ⟨rfl, rfl, rfl, rfl⟩ 1 _ canonical 0 (by rw [hP, hN]; exact one_pos),
    hP, hN]
  simp

/-- C11 (fails on the code): for the single sample abscissa `x[0] = 0` the norm of pass `1`
of `orthonormal(basis)` is zero, and `orthonormal` does not fail: it divides by `sqrt(0)`,
and returns a base whose polynom `1` is `[NaN, +Inf, NaN, NaN]`. -/
theorem orthonormal_divides_by_zero_norm :
    orthoNorm ⟨Real.sqrt, Real.exp, Real.log, fun a b => a ^ b⟩ 1 (fun _ => fin (0 : ℝ))
      basis 1 = fin 0 ∧
    orthonormal ⟨Real.sqrt, Real.exp, Real.log, fun a b => a ^ b⟩ 1 (fun _ => fin (0 : ℝ))
      basis 1 = ![nan, pinf, nan, nan] := by
  constructor
  · unfold orthoNorm
    rw [below_one]
    simp only [List.foldl_cons, List.foldl_nil]
    rw [orthoOuter_zero_at_zero, orthoProject_one_at_zero, norm_one_at_zero]
  · unfold orthonormal
    rw [finRange_four]
    simp only [List.foldl_cons, List.foldl_nil]
    rw [orthoOuter_other _ _ _ _ 3 1 (by decide), orthoOuter_other _ _ _ _ 2 1 (by decide),
      orthoOuter_zero_at_zero, orthoOuter_eq, orthoProject_one_at_zero, norm_one_at_zero,
      mult_apply, inv_sqrt_of_nonpos _ ⟨rfl, rfl, rfl, rfl⟩ 0 le_rfl, if_pos rfl,
      Function.update_same, basis_eq]
    funext k
    fin_cases k <;> norm_num [canonical, mul_def, mul, infOfSign, Fin.ext_iff]

theorem orthoOuter_degenerate_witness :
    Libm.Exact ⟨Real.sqrt, Real.exp, Real.log, fun a b => a ^ b⟩ ∧ (0 : ℝ) ≤ 0 ∧
    skalarpoly 1 (fun _ => fin (0 : ℝ))
      (orthoProject 1 (fun _ => fin (0 : ℝ)) basis 1 1)
      (orthoProject 1 (fun _ => fin (0 : ℝ)) basis 1 1) = fin 0 ∧
    orthoOuter ⟨Real.sqrt, Real.exp, Real.log, fun a b => a ^ b⟩ 1 (fun _ => fin (0 : ℝ))
        basis 1
      = Function.update (orthoProject 1 (fun _ => fin (0 : ℝ)) basis 1) 1
          (fun k => orthoProject 1 (fun _ => fin (0 : ℝ)) basis 1 1 k
            * (if (0 : ℝ) = 0 then pinf else nan)) :=
  ⟨⟨rfl, rfl, rfl, rfl⟩, le_rfl,
    by rw [orthoProject_one_at_zero]; exact norm_one_at_zero,
    orthoOuter_degenerate _ ⟨rfl, rfl, rfl, rfl⟩ 1 _ basis 1 0 le_rfl
      (by rw [orthoProject_one_at_zero]; exact norm_one_at_zero)⟩

end passesGeneral

/-! ## The projection formula of `approx` -/

section projectionFormula

end projectionFormula

/-! ## The report of `testresult` -/

section report

theorem lt_fin (a b : ℝ) : Dbl.lt (fin a) (fin b) = decide (a < b) := rfl

/-- One pass of the loop of `testresult` on finite data. -/
theorem testStep_fin (n : ℕ) (x y : Fin n → ℝ) (erg : Fin 4 → ℝ) (i : Fin n)
    (hv : cubicEval erg (x i) ≠ 0) (hy : y i ≠ 0) (M T : ℝ) :
    testStep n (fun k => fin (x k)) (fun k => fin (y k)) (fun j => fin (erg j)) (fin M, fin T) i
      = if M < |1 / cubicEval erg (x i) + (-273.15) - (1 / y i + (-273.15))|
        then (fin |1 / cubicEval erg (x i) + (-273.15) - (1 / y i + (-273.15))|,
          fin (1 / y i + (-273.15)))
        else (fin M, fin T) := by
  unfold testStep
  simp only [value_fin, one_eq, zero_eq, TABS_eq, fin_div_fin 1 hv, fin_div_fin 1 hy,
    fin_add_fin, fin_sub_fin, lt_fin, neg_fin]
  by_cases hneg : 1 / cubicEval erg (x i) + (-273.15) - (1 / y i + (-273.15)) < 0
  · simp only [hneg, decide_True, if_true, lt_fin, abs_of_neg hneg, decide_eq_true_eq]
  · simp only [hneg, decide_False, lt_fin, abs_of_nonneg (not_lt.mp hneg), decide_eq_true_eq]
    simp [lt_fin]

/-- C16 (fails on the code): for the single sample with abscissa `9` and target
`y = 1 / 298.15` (actual temperature `25`) and the fit `[1 / 298.15, 0, 0, 0]`, every
difference is zero, no sample passes the test `err > maxerr`, and `testresult` reports the
maximal error `0` at the temperature `0`, which is the initial value of `temp` and not the
actual temperature `25` of the sample. -/
theorem testresult_reports_initial_temp :
    testresult true 1 (fun _ => fin (9 : ℝ)) (fun _ => fin (1 / 298.15))
      (fun j => fin ((![1 / 298.15, 0, 0, 0] : Fin 4 → ℝ) j)) = some (fin 0, fin 0) ∧
    (1.0 / fin (1 / 298.15) + TABS : Dbl ℝ) = fin 25 := by
  constructor
  · have hE : cubicEval (![1 / 298.15, 0, 0, 0] : Fin 4 → ℝ) 9 = 1 / 298.15 := by
      simp [cubicEval]
    have hl : List.finRange 1 = [0] := rfl
    unfold testresult
    rw [if_pos rfl, hl, List.foldl_cons, List.foldl_nil, zero_eq,
      testStep_fin 1 (fun _ => 9) (fun _ => 1 / 298.15) ![1 / 298.15, 0, 0, 0] 0
        (by rw [hE]; norm_num) (by norm_num) 0 0, hE]
    simp
  · rw [one_eq, TABS_eq, fin_div_fin 1 (by norm_num), fin_add_fin]
    congr 1
    norm_num

end report

/-! ## Uniqueness of the triangular orthonormal base -/

section uniqueness

theorem solveTri_combo (Q : Fin 4 → Fin 4 → ℝ) (hT : Triangular Q) (c : Fin 4 → ℝ) :
    combo (solveTri Q c) Q = c := by
  obtain ⟨hz, hd⟩ := hT
  have h01 := hz 0 1 (by decide)
  have h02 := hz 0 2 (by decide)
  have h03 := hz 0 3 (by decide)
  have h12 := hz 1 2 (by decide)
  have h13 := hz 1 3 (by decide)
  have h23 := hz 2 3 (by decide)
  have d0 := (hd 0).ne'
  have d1 := (hd 1).ne'
  have d2 := (hd 2).ne'
  have d3 := (hd 3).ne'
  funext j
  unfold combo
  rw [Fin.sum_univ_four]
  fin_cases j
  · simp [solveTri]
    field_simp
    ring
  · simp [solveTri, h01]
    field_simp
    ring
  · simp [solveTri, h02, h12]
    field_simp
    ring
  · simp [solveTri, h03, h13, h23]
    field_simp

/-- Back substitution keeps the degree: a polynom of degree at most `i` only uses the
polynoms `0 .. i` of a triangular base, with the quotient of the leading coefficients on
polynom `i`. -/
theorem solveTri_above (Q : Fin 4 → Fin 4 → ℝ) (hT : Triangular Q) (c : Fin 4 → ℝ) (i : Fin 4)
    (hc : ∀ k, i < k → c k = 0) :
    (∀ k, i < k → solveTri Q c k = 0) ∧ solveTri Q c i * Q i i = c i := by
  have d0 := (hT.2 0).ne'
  have d1 := (hT.2 1).ne'
  have d2 := (hT.2 2).ne'
  have d3 := (hT.2 3).ne'
  fin_cases i
  · have c1 := hc 1 (by decide)
    have c2 := hc 2 (by decide)
    have c3 := hc 3 (by decide)
    constructor
    · intro k hk
      fin_cases k <;> simp [solveTri, c1, c2, c3] at hk ⊢
    · simp [solveTri, c1, c2, c3]
      field_simp
  · have c2 := hc 2 (by decide)
    have c3 := hc 3 (by decide)
    constructor
    · intro k hk
      fin_cases k <;> simp [solveTri, c2, c3] at hk ⊢
    · simp [solveTri, c2, c3]
      field_simp
  · have c3 := hc 3 (by decide)
    constructor
    · intro k hk
      fin_cases k <;> simp [solveTri, c3] at hk ⊢
    · simp [solveTri, c3]
      field_simp
  · constructor
    · intro k hk
      fin_cases k <;> simp at hk
    · simp [solveTri]
      field_simp

theorem one_of_mul_self (a : ℝ) (ha : 0 < a) (h : a * a = 1) : a = 1 := by
  have h1 : (a - 1) * (a + 1) = 0 := by ring_nf; linarith
  rcases mul_eq_zero.mp h1 with h2 | h2
  · linarith
  · linarith

/-- A lower triangular matrix with a positive diagonal and orthonormal rows is the
identity. -/
theorem lower_orthogonal_eq_one (g : Fin 4 → Fin 4 → ℝ) (hlow : ∀ i k : Fin 4, i < k → g i k = 0)
    (hpos : ∀ i, 0 < g i i)
    (horth : ∀ i j : Fin 4, ∑ k, g i k * g j k = if i = j then 1 else 0) :
    ∀ i k : Fin 4, g i k = if i = k then 1 else 0 := by
  have h01 := hlow 0 1 (by decide)
  have h02 := hlow 0 2 (by decide)
  have h03 := hlow 0 3 (by decide)
  have h12 := hlow 1 2 (by decide)
  have h13 := hlow 1 3 (by decide)
  have h23 := hlow 2 3 (by decide)
  have e00 := horth 0 0
  have e10 := horth 1 0
  have e11 := horth 1 1
  have e20 := horth 2 0
  have e21 := horth 2 1
  have e22 := horth 2 2
  have e30 := horth 3 0
  have e31 := horth 3 1
  have e32 := horth 3 2
  have e33 := horth 3 3
  simp only [Fin.sum_univ_four, h01, h02, h03, h12, h13, h23, mul_zero, zero_mul, add_zero,
    if_true] at e00 e10 e11 e20 e21 e22 e30 e31 e32 e33
  have g00 : g 0 0 = 1 := one_of_mul_self _ (hpos 0) e00
  rw [g00] at e10 e20 e30
  have g10 : g 1 0 = 0 := by simpa using e10
  have g20 : g 2 0 = 0 := by simpa using e20
  have g30 : g 3 0 = 0 := by simpa using e30
  rw [g10] at e11 e21 e31
  have g11 : g 1 1 = 1 := one_of_mul_self _ (hpos 1) (by simpa using e11)
  rw [g11, g20] at e21
  rw [g11, g30] at e31
  have g21 : g 2 1 = 0 := by simpa using e21
  have g31 : g 3 1 = 0 := by simpa using e31
  rw [g20, g21] at e22
  have g22 : g 2 2 = 1 := one_of_mul_self _ (hpos 2) (by simpa using e22)
  rw [g30, g31, g20, g21, g22] at e32
  have g32 : g 3 2 = 0 := by simpa using e32
  rw [g30, g31, g32] at e33
  have g33 : g 3 3 = 1 := one_of_mul_self _ (hpos 3) (by simpa using e33)
  intro i k
  fin_cases i <;> fin_cases k <;> simp [*]

theorem sampleInner_combo_combo (n : ℕ) (x : Fin n → ℝ) (Q : Fin 4 → Fin 4 → ℝ)
    (hO : OrthoUpTo n x 4 Q) (g h : Fin 4 → ℝ) :
    sampleInner n x (combo g Q) (combo h Q) = ∑ k, g k * h k := by
  rw [← targetInner_eval, targetInner_combo]
  refine Finset.sum_congr rfl fun k _ => ?_
  rw [targetInner_of_combo n x Q hO g k, mul_comm]

/-- Two triangular bases that are orthonormal for the same samples are equal. -/
theorem triangular_orthonormal_unique (n : ℕ) (x : Fin n → ℝ) (Q R : Fin 4 → Fin 4 → ℝ)
    (hQ : Triangular Q) (hR : Triangular R) (hOQ : OrthoUpTo n x 4 Q)
    (hOR : OrthoUpTo n x 4 R) : Q = R := by
  have hcombo : ∀ i, combo (solveTri R (Q i)) R = Q i := fun i => solveTri_combo R hR (Q i)
  have habove := fun i => solveTri_above R hR (Q i) i (fun k hk => hQ.1 i k hk)
  have hid := lower_orthogonal_eq_one (fun i => solveTri R (Q i))
    (fun i k hik => (habove i).1 k hik)
    (fun i => by
      have h1 := (habove i).2
      have h2 := hQ.2 i
      have h3 := hR.2 i
      rw [← h1] at h2
      exact pos_of_mul_pos_left h2 h3.le)
    (fun i j => by
      rw [← sampleInner_combo_combo n x R hOR, hcombo i, hcombo j]
      exact hOQ i j i.2 j.2)
  funext i j
  rw [← hcombo i]
  unfold combo
  simp only [hid]
  simp

/-- C14 (amended): no hidden state between fits, in exact real arithmetic.  For two finite
sample sets with at least four distinct abscissas each, in exact arithmetic and with the exact
square root, `orthonormal` over the second set run on the global base as left by a run over the
first set gives the same four polynoms as run on the canonical base, hence the same fit from
`approx`; with twice the same set, `orthonormal` is idempotent.  In binary64 the global base
left by a run does influence the next run. -/
theorem orthonormal_no_hidden_state (m : Libm ℝ) (hm : m.Exact) (n1 n2 : ℕ)
    (x1 : Fin n1 → ℝ) (x2 : Fin n2 → ℝ) (h1 : 4 ≤ (Finset.univ.image x1).card)
    (h2 : 4 ≤ (Finset.univ.image x2).card) :
    orthonormal m n2 (fun k => fin (x2 k)) (orthonormal m n1 (fun k => fin (x1 k)) basis)
      = orthonormal m n2 (fun k => fin (x2 k)) basis ∧
    (∀ y : Fin n2 → Dbl ℝ,
      approx n2 (fun k => fin (x2 k)) y
          (orthonormal m n2 (fun k => fin (x2 k))
            (orthonormal m n1 (fun k => fin (x1 k)) basis))
        = approx n2 (fun k => fin (x2 k)) y (orthonormal m n2 (fun k => fin (x2 k)) basis)) ∧
    orthonormal m n1 (fun k => fin (x1 k)) (orthonormal m n1 (fun k => fin (x1 k)) basis)
      = orthonormal m n1 (fun k => fin (x1 k)) basis := by
  have key : ∀ (n : ℕ) (x : Fin n → ℝ), 4 ≤ (Finset.univ.image x).card →
      ∀ Q : Fin 4 → Fin 4 → ℝ, Triangular Q →
        orthonormal m n (fun k => fin (x k)) (fun a b => fin (Q a b))
          = orthonormal m n (fun k => fin (x k)) basis := by
    intro n x hx Q hT
    obtain ⟨Qa, ea, hTa, hOa⟩ := orthonormal_spec m hm n x hx Q hT
    obtain ⟨Qb, eb, hTb, hOb⟩ := orthonormal_spec m hm n x hx canonical canonical_triangular
    rw [← basis_eq] at eb
    rw [ea, eb, triangular_orthonormal_unique n x Qa Qb hTa hTb hOa hOb]
  obtain ⟨Q1, e1, hT1, -⟩ := orthonormal_spec m hm n1 x1 h1 canonical canonical_triangular
  rw [← basis_eq] at e1
  have k2 := key n2 x2 h2 Q1 hT1
  have k1 := key n1 x1 h1 Q1 hT1
  rw [← e1] at k1 k2
  exact ⟨k2, fun y => by rw [k2], k1⟩

theorem orthonormal_no_hidden_state_witness :
    Libm.Exact ⟨Real.sqrt, Real.exp, Real.log, fun a b => a ^ b⟩ ∧
    4 ≤ (Finset.univ.image (sampleX : Fin 4 → ℝ)).card ∧
    4 ≤ (Finset.univ.image (scenarioR : Fin 4 → ℝ)).card ∧
    orthonormal ⟨Real.sqrt, Real.exp, Real.log, fun a b => a ^ b⟩ 4 (fun k => fin (scenarioR k))
        (orthonormal ⟨Real.sqrt, Real.exp, Real.log, fun a b => a ^ b⟩ 4
          (fun k => fin (sampleX k)) basis)
      = orthonormal ⟨Real.sqrt, Real.exp, Real.log, fun a b => a ^ b⟩ 4
          (fun k => fin (scenarioR k)) basis ∧
    (∀ y : Fin 4 → Dbl ℝ,
      approx 4 (fun k => fin (scenarioR k)) y
          (orthonormal ⟨Real.sqrt, Real.exp, Real.log, fun a b => a ^ b⟩ 4
            (fun k => fin (scenarioR k))
            (orthonormal ⟨Real.sqrt, Real.exp, Real.log, fun a b => a ^ b⟩ 4
              (fun k => fin (sampleX k)) basis))
        = approx 4 (fun k => fin (scenarioR k)) y
          (orthonormal ⟨Real.sqrt, Real.exp, Real.log, fun a b => a ^ b⟩ 4
            (fun k => fin (scenarioR k)) basis)) ∧
    orthonormal ⟨Real.sqrt, Real.exp, Real.log, fun a b => a ^ b⟩ 4 (fun k => fin (sampleX k))
        (orthonormal ⟨Real.sqrt, Real.exp, Real.log, fun a b => a ^ b⟩ 4
          (fun k => fin (sampleX k)) basis)
      = orthonormal ⟨Real.sqrt, Real.exp, Real.log, fun a b => a ^ b⟩ 4
          (fun k => fin (sampleX k)) basis :=
  ⟨⟨rfl, rfl, rfl, rfl⟩, sampleX_distinct,
    by rw [Finset.card_image_of_injective _ scenarioR_injective]; simp,
    orthonormal_no_hidden_state _ ⟨rfl, rfl, rfl, rfl⟩ 4 4 sampleX scenarioR sampleX_distinct
      (by rw [Finset.card_image_of_injective _ scenarioR_injective]; simp)⟩

end uniqueness

/-! ## The norms of `orthonormal` and the number of distinct abscissas -/

section norms

/-- A polynom of degree at most `i` that vanishes at more than `i` distinct points is zero. -/
theorem poly_eq_zero_of_roots (p : Fin 4 → ℝ) (i : Fin 4) (hdeg : ∀ k, i < k → p k = 0)
    (s : Finset ℝ) (hs : i.val < s.card) (h : ∀ t ∈ s, cubicEval p t = 0) : p = 0 := by
  let P : Polynomial ℝ := Polynomial.C (p 0) + Polynomial.C (p 1) * Polynomial.X
    + Polynomial.C (p 2) * Polynomial.X ^ 2 + Polynomial.C (p 3) * Polynomial.X ^ 3
  have hcoeff : ∀ k : Fin 4, P.coeff k.val = p k := by
    intro k
    fin_cases k <;> simp [P, Polynomial.coeff_X, Polynomial.coeff_C]
  have hhigh : ∀ N : ℕ, 4 ≤ N → P.coeff N = 0 := by
    intro N hN
    have h0 : N ≠ 0 := by omega
    have h1 : N ≠ 1 := by omega
    have h2 : N ≠ 2 := by omega
    have h3 : N ≠ 3 := by omega
    simp [P, Polynomial.coeff_X, Polynomial.coeff_C, h0, h1, h2, h3, Ne.symm h1]
  have hdegP : P.natDegree ≤ i.val := by
    rw [Polynomial.natDegree_le_iff_coeff_eq_zero]
    intro N hN
    by_cases h4 : N < 4
    · have := hcoeff ⟨N, h4⟩
      simp only [] at this
      rw [this]
      exact hdeg ⟨N, h4⟩ hN
    · exact hhigh N (not_lt.mp h4)
  have heval : ∀ t ∈ s, P.eval t = 0 := by
    intro t ht
    have := h t ht
    simpa [P, cubicEval] using this
  have hP : P = 0 := Polynomial.eq_zero_of_natDegree_lt_card_of_eval_eq_zero' P s heval
    (lt_of_le_of_lt hdegP hs)
  funext k
  rw [← hcoeff k, hP, Polynomial.coeff_zero]
  rfl

theorem sampleInner_self_pos_deg (n : ℕ) (x : Fin n → ℝ) (i : Fin 4)
    (hx : i.val < (Finset.univ.image x).card) (p : Fin 4 → ℝ) (hdeg : ∀ k, i < k → p k = 0)
    (hp : p ≠ 0) : 0 < sampleInner n x p p := by
  rcases (sampleInner_self_nonneg n x p).lt_or_eq with h | h
  · exact h
  · exfalso
    apply hp
    apply poly_eq_zero_of_roots p i hdeg _ hx
    intro t ht
    obtain ⟨k, -, rfl⟩ := Finset.mem_image.mp ht
    have hz := (Finset.sum_eq_zero_iff_of_nonneg (fun k _ => mul_self_nonneg _)).mp h.symm
      k (Finset.mem_univ k)
    exact mul_self_eq_zero.mp hz

/-- With more than `i` distinct abscissas the norm of pass `i` is positive. -/
theorem projAll_pos_deg (n : ℕ) (x : Fin n → ℝ) (Q : Fin 4 → Fin 4 → ℝ) (hT : Triangular Q)
    (i : Fin 4) (hx : i.val < (Finset.univ.image x).card) :
    0 < sampleInner n x (projAll n x Q i) (projAll n x Q i) := by
  apply sampleInner_self_pos_deg n x i hx
  · intro k hk
    rw [projAll_high n x Q hT i k hk.le]
    exact hT.1 i k hk
  · intro h
    have h1 := projAll_high n x Q hT i i le_rfl
    rw [h] at h1
    have h2 := hT.2 i
    rw [← h1] at h2
    exact lt_irrefl _ h2

theorem orthoOuter_spec_deg (m : Libm ℝ) (hm : m.Exact) (n : ℕ) (x : Fin n → ℝ)
    (Q : Fin 4 → Fin 4 → ℝ) (hT : Triangular Q) (i : Fin 4)
    (hx : i.val < (Finset.univ.image x).card) (hO : OrthoUpTo n x i.val Q) :
    ∃ Q1 : Fin 4 → Fin 4 → ℝ,
      orthoOuter m n (fun k => fin (x k)) (fun a b => fin (Q a b)) i = (fun a b => fin (Q1 a b))
      ∧ Triangular Q1 ∧ OrthoUpTo n x (i.val + 1) Q1 :=
  ⟨_, orthoOuter_fin m hm n x Q i (projAll_pos_deg n x Q hT i hx),
    outer_step_of_pos n x Q hT i hO (projAll_pos_deg n x Q hT i hx)⟩

/-- The base when pass `i` of `orthonormal` starts, with at least `i` distinct abscissas: it is
finite and triangular and its first `i` polynoms are orthonormal. -/
theorem prefix_spec (m : Libm ℝ) (hm : m.Exact) (n : ℕ) (x : Fin n → ℝ)
    (Q : Fin 4 → Fin 4 → ℝ) (hT : Triangular Q) (i : Fin 4)
    (hx : i.val ≤ (Finset.univ.image x).card) :
    ∃ Q1 : Fin 4 → Fin 4 → ℝ,
      ((List.finRange 4).filter (fun j => j < i)).foldl (orthoOuter m n (fun k => fin (x k)))
        (fun a b => fin (Q a b)) = (fun a b => fin (Q1 a b))
      ∧ Triangular Q1 ∧ OrthoUpTo n x i.val Q1 := by
  have hO0 : OrthoUpTo n x (0 : Fin 4).val Q := fun j k hj _ => absurd hj (Nat.not_lt_zero _)
  fin_cases i
  · exact ⟨Q, rfl, hT, hO0⟩
  · have h0 : (0 : Fin 4).val < (Finset.univ.image x).card := lt_of_lt_of_le (by decide) hx
    obtain ⟨Q1, e1, hT1, hO1⟩ := orthoOuter_spec_deg m hm n x Q hT 0 h0 hO0
    refine ⟨Q1, ?_, hT1, hO1⟩
    change List.foldl _ _ [0] = _
    simp only [List.foldl_cons, List.foldl_nil]
    exact e1
  · have h0 : (0 : Fin 4).val < (Finset.univ.image x).card := lt_of_lt_of_le (by decide) hx
    have h1 : (1 : Fin 4).val < (Finset.univ.image x).card := lt_of_lt_of_le (by decide) hx
    obtain ⟨Q1, e1, hT1, hO1⟩ := orthoOuter_spec_deg m hm n x Q hT 0 h0 hO0
    obtain ⟨Q2, e2, hT2, hO2⟩ := orthoOuter_spec_deg m hm n x Q1 hT1 1 h1 hO1
    refine ⟨Q2, ?_, hT2, hO2⟩
    change List.foldl _ _ [0, 1] = _
    simp only [List.foldl_cons, List.foldl_nil]
    rw [e1, e2]
  · have h0 : (0 : Fin 4).val < (Finset.univ.image x).card := lt_of_lt_of_le (by decide) hx
    have h1 : (1 : Fin 4).val < (Finset.univ.image x).card := lt_of_lt_of_le (by decide) hx
    have h2 : (2 : Fin 4).val < (Finset.univ.image x).card := lt_of_lt_of_le (by decide) hx
    obtain ⟨Q1, e1, hT1, hO1⟩ := orthoOuter_spec_deg m hm n x Q hT 0 h0 hO0
    obtain ⟨Q2, e2, hT2, hO2⟩ := orthoOuter_spec_deg m hm n x Q1 hT1 1 h1 hO1
    obtain ⟨Q3, e3, hT3, hO3⟩ := orthoOuter_spec_deg m hm n x Q2 hT2 2 h2 hO2
    refine ⟨Q3, ?_, hT3, hO3⟩
    change List.foldl _ _ [0, 1, 2] = _
    simp only [List.foldl_cons, List.foldl_nil]
    rw [e1, e2, e3]

/-- The norm that pass `i` of `orthonormal` computes on finite data with at least `i`
distinct abscissas. -/
theorem orthoNorm_fin (m : Libm ℝ) (hm : m.Exact) (n : ℕ) (x : Fin n → ℝ)
    (Q : Fin 4 → Fin 4 → ℝ) (hT : Triangular Q) (i : Fin 4)
    (hx : i.val ≤ (Finset.univ.image x).card) :
    ∃ Q1 : Fin 4 → Fin 4 → ℝ, Triangular Q1 ∧ OrthoUpTo n x i.val Q1 ∧
      orthoNorm m n (fun k => fin (x k)) (fun a b => fin (Q a b)) i
        = fin (sampleInner n x (projAll n x Q1 i) (projAll n x Q1 i)) := by
  obtain ⟨Q1, e, hT1, hO1⟩ := prefix_spec m hm n x Q hT i hx
  refine ⟨Q1, hT1, hO1, ?_⟩
  unfold orthoNorm
  simp only []
  rw [e, orthoProject_fin]
  simp only [Function.update_same]
  rw [skalarpoly_fin]

/-- The monic polynom of degree `i` that vanishes at the `i` distinct abscissas. -/
theorem nodal_vector (n : ℕ) (x : Fin n → ℝ) (i : Fin 4)
    (hx : (Finset.univ.image x).card = i.val) :
    ∃ w : Fin 4 → ℝ, w i = 1 ∧ (∀ k, i < k → w k = 0) ∧ ∀ j, cubicEval w (x j) = 0 := by
  let P : Polynomial ℝ := Lagrange.nodal (Finset.univ.image x) id
  have hdeg : P.natDegree = i.val := by
    rw [Lagrange.natDegree_nodal, hx]
  have hmonic : P.Monic := Lagrange.nodal_monic
  have heval : ∀ t : ℝ, cubicEval (fun k : Fin 4 => P.coeff k.val) t = P.eval t := by
    intro t
    have h4 : P.natDegree < 4 := by
      rw [hdeg]
      exact i.2
    have h3 : ((3 : Fin 4) : ℕ) = 3 := rfl
    rw [Polynomial.eval_eq_sum_range' h4]
    simp only [Finset.sum_range_succ, Finset.sum_range_zero, cubicEval, Fin.val_zero,
      Fin.val_one, Fin.val_two, h3]
    ring
  refine ⟨fun k => P.coeff k.val, ?_, ?_, ?_⟩
  · show P.coeff i.val = 1
    rw [← hdeg]
    exact hmonic.coeff_natDegree
  · intro k hk
    apply Polynomial.coeff_eq_zero_of_natDegree_lt
    rw [hdeg]
    exact hk
  · intro j
    rw [heval]
    have hmem : x j ∈ Finset.univ.image x := Finset.mem_image_of_mem x (Finset.mem_univ j)
    have hnode : Polynomial.eval (id (x j)) (Lagrange.nodal (Finset.univ.image x) id) = 0 :=
      Lagrange.eval_nodal_at_node hmem
    exact hnode

theorem solveTri_from (Q : Fin 4 → Fin 4 → ℝ) (c : Fin 4 → ℝ) (i : Fin 4)
    (hc : ∀ k, i ≤ k → c k = 0) : ∀ k, i ≤ k → solveTri Q c k = 0 := by
  intro k hk
  have c3 : i ≤ 3 → c 3 = 0 := hc 3
  have c2 : i ≤ 2 → c 2 = 0 := hc 2
  have c1 : i ≤ 1 → c 1 = 0 := hc 1
  have c0 : i ≤ 0 → c 0 = 0 := hc 0
  fin_cases i <;> fin_cases k <;> simp at hk c0 c1 c2 c3 <;> simp [solveTri, *]

theorem sampleInner_combo_right (n : ℕ) (x : Fin n → ℝ) (r g : Fin 4 → ℝ)
    (Q : Fin 4 → Fin 4 → ℝ) :
    sampleInner n x r (combo g Q) = ∑ k, g k * sampleInner n x r (Q k) := by
  rw [← targetInner_eval, targetInner_combo]
  rfl

/-- With exactly `i` distinct abscissas the norm of pass `i` is zero. -/
theorem projAll_norm_zero (n : ℕ) (x : Fin n → ℝ) (Q : Fin 4 → Fin 4 → ℝ) (hT : Triangular Q)
    (i : Fin 4) (hO : OrthoUpTo n x i.val Q) (hx : (Finset.univ.image x).card = i.val) :
    sampleInner n x (projAll n x Q i) (projAll n x Q i) = 0 := by
  obtain ⟨w, hwi, hwhigh, hwz⟩ := nodal_vector n x i hx
  have hd : ∀ k, i ≤ k → projAll n x Q i k - w k * projAll n x Q i i = 0 := by
    intro k hk
    rcases hk.lt_or_eq with h | h
    · rw [hwhigh k h, projAll_high n x Q hT i k hk, hT.1 i k h]
      ring
    · rw [← h, hwi]
      ring
  have hzero := solveTri_from Q (fun k => projAll n x Q i k - w k * projAll n x Q i i) i hd
  have hcombo := solveTri_combo Q hT (fun k => projAll n x Q i k - w k * projAll n x Q i i)
  have hsplit : projAll n x Q i
      = fun k => combo (solveTri Q
          (fun k => projAll n x Q i k - w k * projAll n x Q i i)) Q k
        + w k * projAll n x Q i i := by
    funext k
    rw [hcombo]
    ring
  have hw0 : sampleInner n x w (projAll n x Q i) = 0 := by
    unfold sampleInner
    refine Finset.sum_eq_zero fun j _ => ?_
    rw [hwz j, zero_mul]
  have hc0 : sampleInner n x
      (combo (solveTri Q (fun k => projAll n x Q i k - w k * projAll n x Q i i)) Q)
      (projAll n x Q i) = 0 := by
    rw [sampleInner_comm, sampleInner_combo_right]
    refine Finset.sum_eq_zero fun k _ => ?_
    rcases lt_or_le k i with h | h
    · rw [projAll_orth n x Q i hO k h, mul_zero]
    · rw [hzero k h, zero_mul]
  conv_lhs => arg 3; rw [hsplit]
  rw [sampleInner_linear_left, hc0, hw0]
  ring

/-- C17 (amended): degeneracy characterisation, in exact real arithmetic.  During `orthonormal`
on the canonical base over finite samples with `c` distinct abscissas, in exact arithmetic and
with the exact square root, the norm `skalarpoly(p_i, p_i)` of every pass `i < c` is finite and
strictly positive, and when `c < 4` the norm of pass `i = c` is zero; so all four norms are
strictly positive, and the division `1 / sqrt(norm)` is safe, exactly when the abscissas
contain at least four distinct values.  In binary64 a norm can be zero, infinite or NaN with
four distinct abscissas. -/
theorem norms_positive_iff (m : Libm ℝ) (hm : m.Exact) (n : ℕ) (x : Fin n → ℝ) :
    (∀ i : Fin 4, i.val < (Finset.univ.image x).card →
      ∃ v : ℝ, 0 < v ∧ orthoNorm m n (fun k => fin (x k)) basis i = fin v) ∧
    (∀ i : Fin 4, i.val = (Finset.univ.image x).card →
      orthoNorm m n (fun k => fin (x k)) basis i = fin 0) ∧
    ((∀ i : Fin 4, ∃ v : ℝ, 0 < v ∧ orthoNorm m n (fun k => fin (x k)) basis i = fin v)
      ↔ 4 ≤ (Finset.univ.image x).card) := by
  have hpos : ∀ i : Fin 4, i.val < (Finset.univ.image x).card →
      ∃ v : ℝ, 0 < v ∧ orthoNorm m n (fun k => fin (x k)) basis i = fin v := by
    intro i hi
    obtain ⟨Q1, hT1, -, e⟩ := orthoNorm_fin m hm n x canonical canonical_triangular i hi.le
    rw [← basis_eq] at e
    exact ⟨_, projAll_pos_deg n x Q1 hT1 i hi, e⟩
  have hzero : ∀ i : Fin 4, i.val = (Finset.univ.image x).card →
      orthoNorm m n (fun k => fin (x k)) basis i = fin 0 := by
    intro i hi
    obtain ⟨Q1, hT1, hO1, e⟩ := orthoNorm_fin m hm n x canonical canonical_triangular i hi.le
    rw [← basis_eq] at e
    rw [e, projAll_norm_zero n x Q1 hT1 i hO1 hi.symm]
  refine ⟨hpos, hzero, fun h => ?_, fun h i => hpos i (lt_of_lt_of_le i.2 h)⟩
  by_contra hlt
  have hc : (Finset.univ.image x).card < 4 := not_le.mp hlt
  obtain ⟨v, hv, e⟩ := h ⟨(Finset.univ.image x).card, hc⟩
  rw [hzero ⟨(Finset.univ.image x).card, hc⟩ rfl] at e
  injection e with e
  linarith

end norms

/-! ## The triangular shape of the base during `orthonormal` -/

section triangularInvariant

/-- The passes over a list of rows leave every other row as it was. -/
theorem passes_other {α : Type} [LinearOrderedField α] [Rounding α] (m : Libm α) (n : ℕ)
    (x : Fin n → Dbl α) (a : Fin 4) :
    ∀ (js : List (Fin 4)), a ∉ js → ∀ p : Fin 4 → polynom α,
      js.foldl (orthoOuter m n x) p a = p a := by
  intro js
  induction js with
  | nil => intro _ p; rfl
  | cons j js ih =>
    intro ha p
    have haj : a ≠ j := fun h => ha (by simp [h])
    have hjs : a ∉ js := fun h => ha (List.mem_cons_of_mem _ h)
    rw [List.foldl_cons, ih hjs, orthoOuter_other m n x p j a haj]

theorem orthoAfter_other {α : Type} [LinearOrderedField α] [Rounding α] (m : Libm α) (n : ℕ)
    (x : Fin n → Dbl α) (p : Fin 4 → polynom α) (i a : Fin 4) (hia : i < a) :
    orthoAfter m n x p i a = p a := by
  unfold orthoAfter
  apply passes_other
  intro h
  have h1 : a ≤ i := by simpa [List.mem_filter] using h
  exact absurd hia (not_lt.mpr h1)

theorem orthoAfter_last {α : Type} [LinearOrderedField α] [Rounding α] (m : Libm α) (n : ℕ)
    (x : Fin n → Dbl α) (p : Fin 4 → polynom α) :
    orthoAfter m n x p 3 = orthonormal m n x p := rfl

/-- The base after the passes `0 .. i` on finite samples with at least four distinct
abscissas: finite, triangular, with `i + 1` orthonormal polynoms. -/
theorem orthoAfter_spec (m : Libm ℝ) (hm : m.Exact) (n : ℕ) (x : Fin n → ℝ)
    (hx : 4 ≤ (Finset.univ.image x).card) (Q : Fin 4 → Fin 4 → ℝ) (hT : Triangular Q)
    (i : Fin 4) :
    ∃ Q1 : Fin 4 → Fin 4 → ℝ,
      orthoAfter m n (fun k => fin (x k)) (fun a b => fin (Q a b)) i = (fun a b => fin (Q1 a b))
      ∧ Triangular Q1 ∧ OrthoUpTo n x (i.val + 1) Q1 := by
  have hO0 : OrthoUpTo n x (0 : Fin 4).val Q := fun j k hj _ => absurd hj (Nat.not_lt_zero _)
  obtain ⟨Q1, e1, hT1, hO1⟩ := orthoOuter_spec m hm n x hx Q hT 0 hO0
  obtain ⟨Q2, e2, hT2, hO2⟩ := orthoOuter_spec m hm n x hx Q1 hT1 1 hO1
  obtain ⟨Q3, e3, hT3, hO3⟩ := orthoOuter_spec m hm n x hx Q2 hT2 2 hO2
  obtain ⟨Q4, e4, hT4, hO4⟩ := orthoOuter_spec m hm n x hx Q3 hT3 3 hO3
  fin_cases i
  · refine ⟨Q1, ?_, hT1, hO1⟩
    change List.foldl _ _ [0] = _
    simp only [List.foldl_cons, List.foldl_nil]
    exact e1
  · refine ⟨Q2, ?_, hT2, hO2⟩
    change List.foldl _ _ [0, 1] = _
    simp only [List.foldl_cons, List.foldl_nil]
    rw [e1, e2]
  · refine ⟨Q3, ?_, hT3, hO3⟩
    change List.foldl _ _ [0, 1, 2] = _
    simp only [List.foldl_cons, List.foldl_nil]
    rw [e1, e2, e3]
  · refine ⟨Q4, ?_, hT4, hO4⟩
    change List.foldl _ _ [0, 1, 2, 3] = _
    simp only [List.foldl_cons, List.foldl_nil]
    rw [e1, e2, e3, e4]

end triangularInvariant

/-! ## Binary64: literals, NaN, and the locals of `dNtcTempToRes` -/

section binary64

set_option maxRecDepth 100000

theorem one64 : (1.0 : Dbl Bin64) = fin 1 := by decide!

theorem zero64 : (0.0 : Dbl Bin64) = fin 0 := by decide!

theorem lit4_64 : (4.0 : Dbl Bin64) = fin 4 := by decide!

theorem lit27_64 : (27.0 : Dbl Bin64) = fin 27 := by decide!

/-- The exponent `1.0 / 3.0` of the two `pow` calls in binary64. -/
theorem third64 :
    (1.0 / 3.0 : Dbl Bin64) = fin (6004799503160661 / 18014398509481984) := by decide!

theorem round64_zero : round64 0 = fin 0 := by
  simp [round64]

theorem mul_fin64 (a b : Bin64) : (fin a * fin b : Dbl Bin64) = round64 (a * b) := rfl

theorem add_fin64 (a b : Bin64) : (fin a + fin b : Dbl Bin64) = round64 (a + b) := rfl

theorem div_fin64 (a : Bin64) {b : Bin64} (hb : b ≠ 0) :
    (fin a / fin b : Dbl Bin64) = round64 (a / b) := by
  show div (fin a) (fin b) = _
  simp only [div]
  rw [if_neg hb]
  rfl

/-- The code of `dNtcTempToRes` in terms of its locals `q` and `b` and of the argument of
`sqrt`. -/
theorem dNtcTempToRes_locals {α : Type} [LinearOrderedField α] [FloorRing α] [Rounding α]
    (m : Libm α) (dT : Dbl α) (a : Fin 4 → Dbl α) :
    dNtcTempToRes m dT a
      = exp m (pow m (-dNtcTempToRes_q dT a / 2.0 + sqrt m (dNtcTempToRes_disc dT a)) (1.0 / 3.0)
          + -pow m (dNtcTempToRes_q dT a / 2.0 + sqrt m (dNtcTempToRes_disc dT a)) (1.0 / 3.0)
          - dNtcTempToRes_b a / 3.0) := rfl

theorem pow_nan_third64 (m : Libm Bin64) : pow m nan (1.0 / 3.0) = nan := by
  rw [third64]
  unfold pow
  rw [if_neg (by decide!), if_neg (by simp)]

theorem pow_neg_third64 (m : Libm Bin64) {a : Bin64} (ha : a < 0) :
    pow m (fin a) (1.0 / 3.0) = nan := by
  rw [third64]
  unfold pow
  rw [if_neg (by decide!),
    if_neg (by intro h; injection h with h; rw [h] at ha; exact absurd ha (by decide))]
  simp only []
  rw [if_neg (not_lt.mpr ha.le), if_neg ha.ne, if_neg (by decide!)]

theorem sqrt_zero64 (m : Libm Bin64) (hm : m.sqrt = sqrt64) : sqrt m (fin 0) = fin 0 := by
  simp only [sqrt, hm]
  decide!

theorem sqrt_one64 (m : Libm Bin64) (hm : m.sqrt = sqrt64) : sqrt m (fin 1) = fin 1 := by
  simp only [sqrt, hm]
  decide!

theorem sqrt_four64 (m : Libm Bin64) (hm : m.sqrt = sqrt64) : sqrt m (fin 4) = fin 2 := by
  simp only [sqrt, hm]
  decide!

theorem log_one64 (m : Libm Bin64) : log m (fin 1) = fin 0 := by
  simp [log]

/-- The sign of the exact `q^2/4 + p^3/27` is not the sign of the value the code computes: for
`t = 1365.25` and the coefficients `[5/8192, -2^-365, 0, 1]` the exact value is negative, while
in binary64 `q = 0` and `p * p * p` underflows, so that `sqrt` receives zero. -/
theorem negative_disc_lost_to_underflow :
    cubicDisc (1365.25 : ℚ) ![5 / 8192, -(2 : ℚ) ^ (-365 : ℤ), 0, 1] < 0 ∧
    dNtcTempToRes_disc (fin (1365.25 : Bin64))
      ![fin (5 / 8192), fin (-(2 : Bin64) ^ (-365 : ℤ)), fin 0, fin 1] = fin 0 := by
  constructor
  · decide!
  · decide!

end binary64

/-! ## Horner evaluation in double arithmetic -/

section hornerDouble

set_option maxRecDepth 100000

theorem poly_zero {α : Type} [LinearOrderedField α] [Rounding α] (x : Dbl α)
    (p : Fin 1 → Dbl α) : poly x 0 p = 0.0 * x + p 0 := rfl

/-- The Horner recurrence: one more coefficient costs one product and one sum. -/
theorem poly_succ {α : Type} [LinearOrderedField α] [Rounding α] (x : Dbl α) (d : ℕ)
    (p : Fin (d + 2) → Dbl α) :
    poly x (d + 1) p = poly x d (fun i => p i.succ) * x + p 0 := by
  unfold poly
  rw [List.finRange_succ_eq_map, List.reverse_cons, List.foldl_append, ← List.map_reverse,
    List.foldl_map]
  rfl

theorem poly_three {α : Type} [LinearOrderedField α] [Rounding α] (x : Dbl α)
    (a : Fin 4 → Dbl α) :
    poly x 3 a = (((0.0 * x + a 3) * x + a 2) * x + a 1) * x + a 0 := rfl

/-- C9 (fails on the code): in binary64 `poly(2^53, 1, [1, 1])` is `2^53`, because the sum
`1 * 2^53 + 1` is rounded, while `Σ p[i] * x^i = 2^53 + 1`. -/
theorem horner_sum_rounds :
    poly (fin (2 ^ 53 : Bin64)) 1 ![fin 1, fin 1] = fin (2 ^ 53) ∧
    (∑ i : Fin 2, (![1, 1] : Fin 2 → ℚ) i * (2 ^ 53 : ℚ) ^ (i : ℕ)) = 2 ^ 53 + 1 := by
  constructor
  · decide!
  · simp [Fin.sum_univ_two]
    ring

/-- C9 (amended): Horner evaluation.  In every arithmetic (binary64 or exact) `poly` is the
Horner recurrence `poly(x, 0, p) = 0.0 * x + p[0]`,
`poly(x, d + 1, p) = poly(x, d, p[1..]) * x + p[0]`, and `poly(x, 3, a)` and `value(a, x)` of the
fitting utility are both the unrolled form `(((0.0 * x + a3) * x + a2) * x + a1) * x + a0`, each
product and each sum being one operation on doubles.  In exact real arithmetic, for every degree
`d`, `poly(x, d, p) = Σ p[i] * x^i`, and the unrolled form is `a0 + a1 x + a2 x^2 + a3 x^3`. -/
theorem horner_evaluation :
    (∀ (α : Type) [LinearOrderedField α] [Rounding α] (x : Dbl α),
      (∀ p : Fin 1 → Dbl α, poly x 0 p = 0.0 * x + p 0) ∧
      (∀ (d : ℕ) (p : Fin (d + 2) → Dbl α),
        poly x (d + 1) p = poly x d (fun i => p i.succ) * x + p 0) ∧
      (∀ a : Fin 4 → Dbl α,
        poly x 3 a = (((0.0 * x + a 3) * x + a 2) * x + a 1) * x + a 0 ∧
        value a x = (((0.0 * x + a 3) * x + a 2) * x + a 1) * x + a 0)) ∧
    (∀ (d : ℕ) (p : Fin (d + 1) → ℝ) (x : ℝ),
        poly (fin x) d (fun i => fin (p i)) = fin (∑ i, p i * x ^ (i : ℕ))) ∧
    (∀ (a : Fin 4 → ℝ) (x : ℝ),
        poly (fin x) 3 (fun i => fin (a i)) = fin (a 0 + a 1 * x + a 2 * x ^ 2 + a 3 * x ^ 3) ∧
        value (fun i => fin (a i)) (fin x) = fin (a 0 + a 1 * x + a 2 * x ^ 2 + a 3 * x ^ 3) ∧
        a 0 + a 1 * x + a 2 * x ^ 2 + a 3 * x ^ 3 = ((a 3 * x + a 2) * x + a 1) * x + a 0) := by
  refine ⟨fun α _ _ x => ⟨fun p => poly_zero x p, fun d p => poly_succ x d p,
    fun a => ⟨poly_three x a, poly_three x a⟩⟩, fun d p x => poly_fin x d p, fun a x => ?_⟩
  exact ⟨poly3_fin a x, by rw [value_eq_poly]; exact poly3_fin a x, by ring⟩

end hornerDouble

/-! ## Resistance to temperature in double arithmetic -/

section resToTempDouble

set_option maxRecDepth 100000

/-- The code of `dNtcResToTemp` with the Horner loop unrolled. -/
theorem dNtcResToTemp_unrolled {α : Type} [LinearOrderedField α] [Rounding α] (m : Libm α)
    (r : Dbl α) (a : Fin 4 → Dbl α) :
    dNtcResToTemp m r a
      = 1.0 / ((((0.0 * log m r + a 3) * log m r + a 2) * log m r + a 1) * log m r + a 0)
        + TABS := rfl

/-- C8 (fails on the code): for `r = 1` and the coefficients `[2^-1074, 0, 0, 0]` the
polynomial at `ln 1 = 0` is `2^-1074 ≠ 0`, and in binary64 `1.0 / 2^-1074` overflows: whatever
the math library is, `dNtcResToTemp` returns `+Inf` and not the finite `1 / 2^-1074 - 273.15`. -/
theorem dNtcResToTemp_overflows :
    EveryLibm (fun m =>
      dNtcResToTemp m (fin 1) ![fin ((2 : Bin64) ^ (-1074 : ℤ)), fin 0, fin 0, fin 0] = pinf) ∧
    (2 : ℚ) ^ (-1074 : ℤ) + 0 * 0 + 0 * 0 ^ 2 + 0 * 0 ^ 3 ≠ 0 := by
  constructor
  · intro m _
    rw [dNtcResToTemp_unrolled, log_one64]
    decide!
  · norm_num

/-- C8 (amended): in every arithmetic, and for every resistance and coefficient set,
`dNtcResToTemp(r, a)` is `1.0 / P + TABS` with
`P = (((0.0 * u + a3) * u + a2) * u + a1) * u + a0` and `u = log(r)`, each operation being one
operation on doubles (the quotient can overflow).  In exact real arithmetic, for `r > 0` and a
polynomial that is non-zero at `ln r`, this is
`1 / (a0 + a1 ln r + a2 (ln r)^2 + a3 (ln r)^3) + (-273.15)`. -/
theorem dNtcResToTemp_formula :
    (∀ (α : Type) [LinearOrderedField α] [Rounding α] (m : Libm α) (r : Dbl α)
        (a : Fin 4 → Dbl α),
      dNtcResToTemp m r a
        = 1.0 / ((((0.0 * log m r + a 3) * log m r + a 2) * log m r + a 1) * log m r + a 0)
          + TABS) ∧
    (∀ m : Libm ℝ, m.Exact → ∀ r : ℝ, 0 < r → ∀ a : Fin 4 → ℝ,
      a 0 + a 1 * Real.log r + a 2 * Real.log r ^ 2 + a 3 * Real.log r ^ 3 ≠ 0 →
      dNtcResToTemp m (fin r) (fun i => fin (a i))
        = fin (1 / (a 0 + a 1 * Real.log r + a 2 * Real.log r ^ 2 + a 3 * Real.log r ^ 3)
            + (-273.15))) := by
  refine ⟨fun α _ _ m r a => dNtcResToTemp_unrolled m r a, fun m hm r hr a h0 => ?_⟩
  unfold dNtcResToTemp
  have h1 : log m (fin r) = fin (Real.log r) := log_real m hm hr
  simp only [h1, poly3_fin, one_eq, fin_div_fin 1 h0, TABS_eq, fin_add_fin]

theorem dNtcResToTemp_formula_witness :
    dNtcResToTemp ⟨Real.sqrt, Real.exp, Real.log, fun a b => a ^ b⟩ (fin 2)
        (fun i => fin ((![1, 1, 1, 1] : Fin 4 → ℝ) i))
      = fin (1 / ((![1, 1, 1, 1] : Fin 4 → ℝ) 0 + (![1, 1, 1, 1] : Fin 4 → ℝ) 1 * Real.log 2
          + (![1, 1, 1, 1] : Fin 4 → ℝ) 2 * Real.log 2 ^ 2
          + (![1, 1, 1, 1] : Fin 4 → ℝ) 3 * Real.log 2 ^ 3) + (-273.15)) :=
  dNtcResToTemp_formula.2 _ ⟨rfl, rfl, rfl, rfl⟩ 2 (by norm_num) _ (by
    have h : 0 < Real.log 2 := Real.log_pos (by norm_num)
    simp
    positivity)

end resToTempDouble

/-! ## The report of `testresult` in double arithmetic -/

section reportDouble

set_option maxRecDepth 100000

theorem lt_irrefl_dbl {α : Type} [LinearOrderedField α] (a : Dbl α) : Dbl.lt a a = false := by
  cases a <;> simp [Dbl.lt]

theorem lt_trans_dbl {α : Type} [LinearOrderedField α] {a b c : Dbl α}
    (h1 : Dbl.lt a b = true) (h2 : Dbl.lt b c = true) : Dbl.lt a c = true := by
  cases a <;> cases b <;> cases c <;> simp_all [Dbl.lt]
  exact lt_trans h1 h2

theorem lt_false_of_lt_dbl {α : Type} [LinearOrderedField α] {a b c : Dbl α}
    (h1 : Dbl.lt a b = true) (h2 : Dbl.lt a c = false) : Dbl.lt b c = false := by
  cases a <;> cases b <;> cases c <;> simp_all [Dbl.lt]
  exact le_trans h2 h1.le

variable {α : Type} [LinearOrderedField α] [Rounding α]

/-- One pass of the loop of `testresult` in terms of `err` and `val2`. -/
theorem testStep_eq (n : ℕ) (x y : Fin n → Dbl α) (erg : polynom α) (s : Dbl α × Dbl α)
    (i : Fin n) :
    testStep n x y erg s i
      = if Dbl.lt s.1 (testErr n x y erg i) then (testErr n x y erg i, testVal2 n y i)
        else s := rfl

/-- The loop of `testresult` from the state `s`: no `err` of the list compares above the final
`maxerr`, and the final state is `s` or the `err` and `val2` of one sample of the list. -/
theorem testFold (n : ℕ) (x y : Fin n → Dbl α) (erg : polynom α) :
    ∀ (l : List (Fin n)) (s : Dbl α × Dbl α),
      (∀ i ∈ l, Dbl.lt (l.foldl (testStep n x y erg) s).1 (testErr n x y erg i) = false) ∧
      ((l.foldl (testStep n x y erg) s = s ∧
          ∀ i ∈ l, Dbl.lt s.1 (testErr n x y erg i) = false) ∨
        (Dbl.lt s.1 (l.foldl (testStep n x y erg) s).1 = true ∧
          ∃ i ∈ l, l.foldl (testStep n x y erg) s = (testErr n x y erg i, testVal2 n y i))) := by
  intro l
  induction l with
  | nil =>
    intro s
    exact ⟨fun i h => absurd h (List.not_mem_nil i),
      Or.inl ⟨rfl, fun i h => absurd h (List.not_mem_nil i)⟩⟩
  | cons i l ih =>
    intro s
    rw [List.foldl_cons, testStep_eq]
    by_cases h : Dbl.lt s.1 (testErr n x y erg i) = true
    · rw [if_pos h]
      obtain ⟨hall, hcase⟩ := ih (testErr n x y erg i, testVal2 n y i)
      have hi : Dbl.lt (l.foldl (testStep n x y erg) (testErr n x y erg i, testVal2 n y i)).1
          (testErr n x y erg i) = false := by
        rcases hcase with ⟨e, -⟩ | ⟨hlt, -⟩
        · rw [e]; exact lt_irrefl_dbl _
        · exact lt_false_of_lt_dbl hlt (lt_irrefl_dbl _)
      refine ⟨?_, Or.inr ?_⟩
      · intro j hj
        rcases List.mem_cons.mp hj with rfl | hj
        · exact hi
        · exact hall j hj
      · rcases hcase with ⟨e, -⟩ | ⟨hlt, j, hj, e⟩
        · exact ⟨by rw [e]; exact h, i, List.mem_cons_self _ _, e⟩
        · exact ⟨lt_trans_dbl h hlt, j, List.mem_cons_of_mem _ hj, e⟩
    · rw [if_neg h]
      have h0 : Dbl.lt s.1 (testErr n x y erg i) = false := by simpa using h
      obtain ⟨hall, hcase⟩ := ih s
      have hi : Dbl.lt (l.foldl (testStep n x y erg) s).1 (testErr n x y erg i) = false := by
        rcases hcase with ⟨e, -⟩ | ⟨hlt, -⟩
        · rw [e]; exact h0
        · exact lt_false_of_lt_dbl hlt h0
      refine ⟨?_, ?_⟩
      · intro j hj
        rcases List.mem_cons.mp hj with rfl | hj
        · exact hi
        · exact hall j hj
      · rcases hcase with ⟨e, hno⟩ | ⟨hlt, j, hj, e⟩
        · refine Or.inl ⟨e, ?_⟩
          intro j hj
          rcases List.mem_cons.mp hj with rfl | hj
          · exact h0
          · exact hno j hj
        · exact Or.inr ⟨hlt, j, List.mem_cons_of_mem _ hj, e⟩

/-- C16 (amended): in every arithmetic, for every fit and every sample set (empty or not, finite
values or not), `testresult` reports nothing with `verbose` off, and in verbose mode it reports
a pair `(maxerr, temp)` such that no sample has its `err = |val1 - val2|`, as the code computes
it with `val1 = 1.0 / value(fit, x_i) + TABS` and `val2 = 1.0 / y_i + TABS`, compare above
`maxerr` (an `err` that is NaN never compares), and either `maxerr > 0.0` and `maxerr`, `temp`
are the `err` and the `val2` of one and the same sample, or no `err` compares above `0.0` and
the report is the initial `maxerr = 0.0`, `temp = 0.0`. -/
theorem testresult_report (α : Type) [LinearOrderedField α] [Rounding α] (n : ℕ)
    (x y : Fin n → Dbl α) (erg : polynom α) :
    testresult false n x y erg = none ∧
    ∃ M T : Dbl α, testresult true n x y erg = some (M, T) ∧
      (∀ i, Dbl.lt M (testErr n x y erg i) = false) ∧
      ((M = 0.0 ∧ T = 0.0 ∧ ∀ i, Dbl.lt 0.0 (testErr n x y erg i) = false) ∨
        (Dbl.lt 0.0 M = true ∧ ∃ i, M = testErr n x y erg i ∧ T = testVal2 n y i)) := by
  refine ⟨rfl, ?_⟩
  obtain ⟨hall, hcase⟩ := testFold n x y erg (List.finRange n) (0.0, 0.0)
  refine ⟨((List.finRange n).foldl (testStep n x y erg) (0.0, 0.0)).1,
    ((List.finRange n).foldl (testStep n x y erg) (0.0, 0.0)).2, rfl,
    fun i => hall i (List.mem_finRange i), ?_⟩
  rcases hcase with ⟨e, hno⟩ | ⟨hlt, i, -, e⟩
  · exact Or.inl ⟨by rw [e], by rw [e], fun i => hno i (List.mem_finRange i)⟩
  · exact Or.inr ⟨hlt, i, by rw [e], by rw [e]⟩

theorem testresult_report_witness :
    testresult true 3 ![fin (1 : Bin64), fin 2, fin 3] ![fin (1 / 256), fin (1 / 512), fin (1 / 128)]
        ![fin (1 / 256), fin 0, fin 0, fin 0]
      = some (fin 256, fin (2100946818354381 / 8796093022208)) ∧
    testErr 3 ![fin (1 : Bin64), fin 2, fin 3] ![fin (1 / 256), fin (1 / 512), fin (1 / 128)]
        ![fin (1 / 256), fin 0, fin 0, fin 0] 1 = fin 256 ∧
    testVal2 3 ![fin (1 / 256 : Bin64), fin (1 / 512), fin (1 / 128)] 1
      = fin (2100946818354381 / 8796093022208) ∧
    ∃ M T : Dbl Bin64,
      testresult true 3 ![fin (1 : Bin64), fin 2, fin 3]
          ![fin (1 / 256), fin (1 / 512), fin (1 / 128)] ![fin (1 / 256), fin 0, fin 0, fin 0]
        = some (M, T) ∧
      (∀ i, Dbl.lt M (testErr 3 ![fin (1 : Bin64), fin 2, fin 3]
          ![fin (1 / 256), fin (1 / 512), fin (1 / 128)] ![fin (1 / 256), fin 0, fin 0, fin 0] i)
        = false) ∧
      ((M = 0.0 ∧ T = 0.0 ∧ ∀ i, Dbl.lt 0.0 (testErr 3 ![fin (1 : Bin64), fin 2, fin 3]
          ![fin (1 / 256), fin (1 / 512), fin (1 / 128)] ![fin (1 / 256), fin 0, fin 0, fin 0] i)
          = false) ∨
        (Dbl.lt 0.0 M = true ∧ ∃ i, M = testErr 3 ![fin (1 : Bin64), fin 2, fin 3]
          ![fin (1 / 256), fin (1 / 512), fin (1 / 128)] ![fin (1 / 256), fin 0, fin 0, fin 0] i ∧
          T = testVal2 3 ![fin (1 / 256 : Bin64), fin (1 / 512), fin (1 / 128)] i)) :=
  ⟨by decide!, by decide!, by decide!, (testresult_report Bin64 3 _ _ _).2⟩

end reportDouble

/-! ## The sign of the argument of `sqrt` in `dNtcTempToRes` -/

section safeBranch

set_option maxRecDepth 100000

/-- Rounding keeps a value that is not negative not negative. -/
theorem round64_nonneg {q : Bin64} (h : 0 ≤ q) : NonNeg64 (round64 q) := by
  unfold round64
  by_cases h0 : q = 0
  · right; exact ⟨0, le_refl _, by simp [h0]⟩
  · have hpos : 0 < q := lt_of_le_of_ne h (Ne.symm h0)
    simp only [h0, if_false, hpos, if_true]
    split_ifs
    · left; rfl
    · right
      exact ⟨_, mul_nonneg (Nat.cast_nonneg _) (zpow_nonneg (by norm_num) _), rfl⟩

theorem round64_pinf_pos {q : Bin64} (h : round64 q = pinf) : 0 < q := by
  unfold round64 at h
  by_cases h0 : q = 0
  · simp [h0] at h
  · simp only [h0, if_false] at h
    by_contra hq
    simp only [hq, if_false] at h
    split_ifs at h

theorem nonneg64_add {x y : Dbl Bin64} (hx : NonNeg64 x) (hy : NonNeg64 y) :
    NonNeg64 (x + y) := by
  rcases hx with rfl | ⟨a, ha, rfl⟩ <;> rcases hy with rfl | ⟨b, hb, rfl⟩
  · left; rfl
  · left; rfl
  · left; rfl
  · rw [add_fin64]; exact round64_nonneg (add_nonneg ha hb)

theorem nonneg64_div {x : Dbl Bin64} (hx : NonNeg64 x) {b : Bin64} (hb : 0 < b) :
    NonNeg64 (x / fin b) := by
  rcases hx with rfl | ⟨a, ha, rfl⟩
  · left
    show div pinf (fin b) = pinf
    simp only [div]
    rw [if_pos hb.le]
  · rw [div_fin64 a hb.ne']; exact round64_nonneg (div_nonneg ha hb.le)

theorem nonneg64_sq {x : Dbl Bin64} (hx : x ≠ nan) : NonNeg64 (x * x) := by
  cases x with
  | fin a => rw [mul_fin64]; exact round64_nonneg (mul_self_nonneg a)
  | pinf => left; rfl
  | ninf => left; rfl
  | nan => exact absurd rfl hx

theorem nonneg64_cube {p : Bin64} (hp : 0 ≤ p) :
    NonNeg64 (fin p * fin p * fin p : Dbl Bin64) := by
  rw [mul_fin64]
  rcases round64_nonneg (mul_self_nonneg p) with h | ⟨w, hw, h⟩
  · have hpos : 0 < p * p := round64_pinf_pos h
    have hp0 : 0 < p := by
      rcases hp.eq_or_lt with h0 | h0
      · rw [← h0] at hpos; simp at hpos
      · exact h0
    rw [h]
    left
    show mul pinf (fin p) = pinf
    simp [mul, infOfSign, hp0]
  · rw [h, mul_fin64]; exact round64_nonneg (mul_nonneg hw hp)

/-- With a finite computed `p ≥ 0` and a computed `q` that is not NaN, the argument of `sqrt`
in `dNtcTempToRes` is `+Inf` or finite and not negative. -/
theorem disc_nonneg64 (dT : Dbl Bin64) (a : Fin 4 → Dbl Bin64) (P : Bin64)
    (hp : dNtcTempToRes_p a = fin P) (hP : 0 ≤ P) (hq : dNtcTempToRes_q dT a ≠ nan) :
    NonNeg64 (dNtcTempToRes_disc dT a) := by
  unfold dNtcTempToRes_disc
  simp only [hp, lit4_64, lit27_64]
  exact nonneg64_add (nonneg64_div (nonneg64_sq hq) (by norm_num))
    (nonneg64_div (nonneg64_cube hP) (by norm_num))

theorem nonneg64_not_lt {x : Dbl Bin64} (h : NonNeg64 x) :
    Dbl.lt x 0.0 = false ∧ x ≠ nan := by
  rw [zero64]
  rcases h with rfl | ⟨v, hv, rfl⟩
  · exact ⟨rfl, by simp⟩
  · exact ⟨by simpa [Dbl.lt] using hv, by simp⟩

/-- C19 (fails on the code): for the coefficients `[0, 0, 0, 1]` (`a3 ≠ 0`, `p = 0 ≥ 0`) and
`t = 2^1000`, binary64 computes `p = 0` and `q = -2^-1000`, the square `q * q` underflows to
zero, `sqrt` receives `0`, and the base `q / 2.0 + sqrt(disc)` of the first `pow` is
`-2^-1001 < 0`: whatever the math library is, `pow` returns NaN and so does `dNtcTempToRes`. -/
theorem safe_branch_underflows :
    EveryLibm (fun m =>
      dNtcTempToRes_p (![fin 0, fin 0, fin 0, fin 1] : Fin 4 → Dbl Bin64) = fin 0 ∧
      dNtcTempToRes_q (fin ((2 : Bin64) ^ 1000)) ![fin 0, fin 0, fin 0, fin 1]
        = fin (-(2 : Bin64) ^ (-1000 : ℤ)) ∧
      dNtcTempToRes_disc (fin ((2 : Bin64) ^ 1000)) ![fin 0, fin 0, fin 0, fin 1] = fin 0 ∧
      dNtcTempToRes_q (fin ((2 : Bin64) ^ 1000)) ![fin 0, fin 0, fin 0, fin 1] / 2.0
          + sqrt m (dNtcTempToRes_disc (fin ((2 : Bin64) ^ 1000)) ![fin 0, fin 0, fin 0, fin 1])
        = fin (-(2 : Bin64) ^ (-1001 : ℤ)) ∧
      dNtcTempToRes m (fin ((2 : Bin64) ^ 1000)) ![fin 0, fin 0, fin 0, fin 1] = nan) := by
  intro m hm
  have hp : dNtcTempToRes_p (![fin 0, fin 0, fin 0, fin 1] : Fin 4 → Dbl Bin64) = fin 0 := by
    decide!
  have hq : dNtcTempToRes_q (fin ((2 : Bin64) ^ 1000)) ![fin 0, fin 0, fin 0, fin 1]
      = fin (-(2 : Bin64) ^ (-1000 : ℤ)) := by decide!
  have hd : dNtcTempToRes_disc (fin ((2 : Bin64) ^ 1000)) ![fin 0, fin 0, fin 0, fin 1]
      = fin 0 := by decide!
  have hb : fin (-(2 : Bin64) ^ (-1000 : ℤ)) / 2.0 + (fin 0 : Dbl Bin64)
      = fin (-(2 : Bin64) ^ (-1001 : ℤ)) := by decide!
  refine ⟨hp, hq, hd, ?_, ?_⟩
  · rw [hd, hq, sqrt_zero64 m hm, hb]
  · rw [dNtcTempToRes_locals, hd, hq, sqrt_zero64 m hm, hb,
      pow_neg_third64 m (by norm_num : -(2 : ℚ) ^ (-1001 : ℤ) < 0)]
    simp only [neg_nan, add_nan, nan_sub]
    rfl

/-- C19 (amended): safe branch of the cubic formula.  In binary64, for every temperature and
coefficient set for which the computed `p` is finite and `≥ 0` and the computed `q` is not NaN,
the value `q * q / 4.0 + p * p * p / 27.0` handed to `sqrt` is `+Inf` or finite and `≥ 0`: `sqrt`
never receives a negative argument or NaN.  In exact real arithmetic, for finite data with
`a3 ≠ 0` and `t ≠ -273.15`: when `p ≥ 0`, `disc ≥ 0` and the two bases `q/2 + sqrt(disc)` and
`-q/2 + sqrt(disc)` handed to `pow` are `≥ 0`; when `p < 0` and `disc ≥ 0`, `q ≠ 0` and exactly
one of the two bases is negative.  The reference coefficient set has `p > 0`. -/
theorem safe_branch :
    (∀ (dT : Dbl Bin64) (a : Fin 4 → Dbl Bin64) (P : Bin64),
      dNtcTempToRes_p a = fin P → 0 ≤ P → dNtcTempToRes_q dT a ≠ nan →
      NonNeg64 (dNtcTempToRes_disc dT a) ∧ Dbl.lt (dNtcTempToRes_disc dT a) 0.0 = false ∧
      dNtcTempToRes_disc dT a ≠ nan) ∧
    (∀ m : Libm ℝ, m.Exact → ∀ (t : ℝ) (a : Fin 4 → ℝ), a 3 ≠ 0 → t ≠ -273.15 →
      (0 ≤ cubicP a →
        0 ≤ cubicDisc t a ∧ 0 ≤ cubicQ t a / 2 + Real.sqrt (cubicDisc t a) ∧
        0 ≤ -cubicQ t a / 2 + Real.sqrt (cubicDisc t a) ∧
        dNtcTempToRes m (fin t) (fun i => fin (a i))
          = exp m (fin ((-cubicQ t a / 2 + Real.sqrt (cubicDisc t a)) ^ (1 / 3 : ℝ))
              + -fin ((cubicQ t a / 2 + Real.sqrt (cubicDisc t a)) ^ (1 / 3 : ℝ))
              - fin (cubicB a / 3))) ∧
      (cubicP a < 0 → 0 ≤ cubicDisc t a →
        cubicQ t a ≠ 0 ∧
        ((cubicQ t a / 2 + Real.sqrt (cubicDisc t a) < 0 ∧
            0 < -cubicQ t a / 2 + Real.sqrt (cubicDisc t a)) ∨
          (0 < cubicQ t a / 2 + Real.sqrt (cubicDisc t a) ∧
            -cubicQ t a / 2 + Real.sqrt (cubicDisc t a) < 0)))) ∧
    0 < cubicP (refValue : Fin 4 → ℝ) := by
  refine ⟨fun dT a P hp hP hq => ?_, fun m hm t a ha3 ht => ⟨fun hp => ?_, fun hp hd => ?_⟩,
    refValue_p_pos⟩
  · have h := disc_nonneg64 dT a P hp hP hq
    exact ⟨h, nonneg64_not_lt h⟩
  · obtain ⟨hA, hB⟩ := bases_nonneg t a hp
    refine ⟨cubicDisc_nonneg t a hp, hA, hB, ?_⟩
    have hs : sqrt m (fin (cubicDisc t a)) = fin (Real.sqrt (cubicDisc t a)) := by
      simp [sqrt, not_lt.mpr (cubicDisc_nonneg t a hp), hm.1]
    rw [dNtcTempToRes_steps m t a ha3 ht, hs, fin_add_fin, fin_add_fin,
      pow_third_of_nonneg m hm hA, pow_third_of_nonneg m hm hB]
  · refine ⟨fun hq => ?_, bases_of_p_neg t a hp hd⟩
    have hp3 : cubicP a * cubicP a * cubicP a < 0 :=
      mul_neg_of_pos_of_neg (mul_self_pos.mpr hp.ne) hp
    unfold cubicDisc at hd
    rw [hq] at hd
    linarith

theorem safe_branch_witness :
    (NonNeg64 (dNtcTempToRes_disc (fin (25 : Bin64)) refCoeff) ∧
      Dbl.lt (dNtcTempToRes_disc (fin (25 : Bin64)) refCoeff) 0.0 = false ∧
      dNtcTempToRes_disc (fin (25 : Bin64)) refCoeff ≠ nan) ∧
    (0 ≤ cubicDisc (25 : ℝ) refValue ∧
      0 ≤ cubicQ (25 : ℝ) refValue / 2 + Real.sqrt (cubicDisc (25 : ℝ) refValue) ∧
      0 ≤ -cubicQ (25 : ℝ) refValue / 2 + Real.sqrt (cubicDisc (25 : ℝ) refValue) ∧
      dNtcTempToRes ⟨Real.sqrt, Real.exp, Real.log, fun a b => a ^ b⟩ (fin 25)
          (fun i => fin ((refValue : Fin 4 → ℝ) i))
        = exp ⟨Real.sqrt, Real.exp, Real.log, fun a b => a ^ b⟩
            (fin ((-cubicQ (25 : ℝ) refValue / 2
                + Real.sqrt (cubicDisc (25 : ℝ) refValue)) ^ (1 / 3 : ℝ))
            + -fin ((cubicQ (25 : ℝ) refValue / 2
                + Real.sqrt (cubicDisc (25 : ℝ) refValue)) ^ (1 / 3 : ℝ))
            - fin (cubicB (refValue : Fin 4 → ℝ) / 3))) ∧
    (cubicP (![4, -3, 0, 1] : Fin 4 → ℝ) < 0 ∧ 0 ≤ cubicDisc (-272.15 : ℝ) ![4, -3, 0, 1] ∧
      cubicQ (-272.15 : ℝ) ![4, -3, 0, 1] ≠ 0 ∧
      ((cubicQ (-272.15 : ℝ) ![4, -3, 0, 1] / 2
            + Real.sqrt (cubicDisc (-272.15 : ℝ) ![4, -3, 0, 1]) < 0 ∧
          0 < -cubicQ (-272.15 : ℝ) ![4, -3, 0, 1] / 2
            + Real.sqrt (cubicDisc (-272.15 : ℝ) ![4, -3, 0, 1])) ∨
        (0 < cubicQ (-272.15 : ℝ) ![4, -3, 0, 1] / 2
            + Real.sqrt (cubicDisc (-272.15 : ℝ) ![4, -3, 0, 1]) ∧
          -cubicQ (-272.15 : ℝ) ![4, -3, 0, 1] / 2
            + Real.sqrt (cubicDisc (-272.15 : ℝ) ![4, -3, 0, 1]) < 0))) :=
  ⟨safe_branch.1 (fin 25) refCoeff (3751988851273283 / 4398046511104) (by decide!)
      (by norm_num) (by decide!),
    (safe_branch.2.1 ⟨Real.sqrt, Real.exp, Real.log, fun a b => a ^ b⟩ ⟨rfl, rfl, rfl, rfl⟩ 25
      refValue (by norm_num [refValue]) (by norm_num)).1 refValue_p_pos.le,
    by norm_num [cubicP, cubicC, cubicB],
    by norm_num [cubicDisc, cubicQ, cubicP, cubicC, cubicB, cubicD],
    (safe_branch.2.1 ⟨Real.sqrt, Real.exp, Real.log, fun a b => a ^ b⟩ ⟨rfl, rfl, rfl, rfl⟩
      (-272.15) ![4, -3, 0, 1] (by simp) (by norm_num)).2 (by norm_num [cubicP, cubicC, cubicB])
      (by norm_num [cubicDisc, cubicQ, cubicP, cubicC, cubicB, cubicD])⟩

end safeBranch

/-! ## Gram-Schmidt in binary64 on a sample set whose squares underflow -/

section underflow

set_option maxRecDepth 100000

theorem below_zero : (List.finRange 4).filter (fun j => j < (0 : Fin 4)) = [] := by decide

theorem orthoProject_zero {α : Type} [LinearOrderedField α] [Rounding α] (n : ℕ)
    (x : Fin n → Dbl α) (p : Fin 4 → polynom α) : orthoProject n x p 0 = p := by
  unfold orthoProject
  rw [below_zero]
  rfl

theorem orthoProject_one {α : Type} [LinearOrderedField α] [Rounding α] (n : ℕ)
    (x : Fin n → Dbl α) (p : Fin 4 → polynom α) :
    orthoProject n x p 1 1 = linear (p 1) (p 0) (-skalarpoly n x (p 1) (p 0)) := by
  unfold orthoProject
  rw [below_one]
  simp only [List.foldl_cons, List.foldl_nil, orthoInner, Function.update_same]

/-- Row `0` after pass `0`, in terms of the row before. -/
theorem orthoOuter_zero_row {α : Type} [LinearOrderedField α] [Rounding α] (m : Libm α) (n : ℕ)
    (x : Fin n → Dbl α) (p : Fin 4 → polynom α) :
    orthoOuter m n x p 0 0 = fun k => p 0 k * (1.0 / sqrt m (skalarpoly n x (p 0) (p 0))) := by
  rw [orthoOuter_eq, Function.update_same, orthoProject_zero, mult_apply]

/-- Row `1` after pass `1`, in terms of the rows before. -/
theorem orthoOuter_one_row {α : Type} [LinearOrderedField α] [Rounding α] (m : Libm α) (n : ℕ)
    (x : Fin n → Dbl α) (p : Fin 4 → polynom α) :
    orthoOuter m n x p 1 1
      = fun k => linear (p 1) (p 0) (-skalarpoly n x (p 1) (p 0)) k
          * (1.0 / sqrt m (skalarpoly n x (linear (p 1) (p 0) (-skalarpoly n x (p 1) (p 0)))
              (linear (p 1) (p 0) (-skalarpoly n x (p 1) (p 0))))) := by
  rw [orthoOuter_eq, Function.update_same, orthoProject_one, mult_apply]

theorem orthonormal_unfold {α : Type} [LinearOrderedField α] [Rounding α] (m : Libm α) (n : ℕ)
    (x : Fin n → Dbl α) (p : Fin 4 → polynom α) :
    orthonormal m n x p
      = orthoOuter m n x (orthoOuter m n x (orthoOuter m n x (orthoOuter m n x p 0) 1) 2) 3 :=
  rfl

/-- The rows `0` and `1` of the final base are those left by the passes `0` and `1`. -/
theorem orthonormal_rows {α : Type} [LinearOrderedField α] [Rounding α] (m : Libm α) (n : ℕ)
    (x : Fin n → Dbl α) (p : Fin 4 → polynom α) :
    orthonormal m n x p 0 = orthoOuter m n x p 0 0 ∧
    orthonormal m n x p 1 = orthoOuter m n x (orthoOuter m n x p 0) 1 1 := by
  rw [orthonormal_unfold]
  exact ⟨(orthoOuter_other m n x _ 3 0 (by decide)).trans
      ((orthoOuter_other m n x _ 2 0 (by decide)).trans (orthoOuter_other m n x _ 1 0 (by decide))),
    (orthoOuter_other m n x _ 3 1 (by decide)).trans (orthoOuter_other m n x _ 2 1 (by decide))⟩

theorem orthoNorm_one {α : Type} [LinearOrderedField α] [Rounding α] (m : Libm α) (n : ℕ)
    (x : Fin n → Dbl α) (p : Fin 4 → polynom α) :
    orthoNorm m n x p 1
      = skalarpoly n x (orthoProject n x (orthoOuter m n x p 0) 1 1)
          (orthoProject n x (orthoOuter m n x p 0) 1 1) := rfl

theorem orthoAfter_one {α : Type} [LinearOrderedField α] [Rounding α] (m : Libm α) (n : ℕ)
    (x : Fin n → Dbl α) (p : Fin 4 → polynom α) :
    orthoAfter m n x p 1 = orthoOuter m n x (orthoOuter m n x p 0) 1 := rfl

/-- The accumulation of `approx`, in every arithmetic. -/
theorem approx_unrolled {α : Type} [LinearOrderedField α] [Rounding α] (n : ℕ)
    (x y : Fin n → Dbl α) (b : Fin 4 → polynom α) :
    approx n x y b = fun j => 0.0 + b 0 j * skalar n x y (b 0) + b 1 j * skalar n x y (b 1)
      + b 2 j * skalar n x y (b 2) + b 3 j * skalar n x y (b 3) := by
  have h : approx n x y b
      = linear (linear (linear (linear (fun _ => 0.0) (b 0) (skalar n x y (b 0))) (b 1)
          (skalar n x y (b 1))) (b 2) (skalar n x y (b 2))) (b 3) (skalar n x y (b 3)) := rfl
  rw [h]
  simp only [linear_apply]

/-- A base whose row `1` gives a NaN inner product with the targets yields the all-NaN fit. -/
theorem approx_nan {α : Type} [LinearOrderedField α] [Rounding α] (n : ℕ)
    (x y : Fin n → Dbl α) (b : Fin 4 → polynom α) (h : skalar n x y (b 1) = nan) :
    approx n x y b = fun _ => nan := by
  rw [approx_unrolled, h]
  funext j
  simp only [mul_nan, add_nan, nan_add]

theorem value_nan {α : Type} [LinearOrderedField α] [Rounding α] (x : Dbl α) :
    value (fun _ => nan) x = nan := by
  rw [value_eq_poly, poly_three]
  simp only [mul_nan, add_nan, nan_add, nan_mul]

theorem tinyX_injective : Function.Injective tinyX := by decide!

/-- Row `0` of the base after pass `0` over `tinyX` from the canonical base: `[1/2, 0, 0, 0]`. -/
theorem tiny_row_zero (m : Libm Bin64) (hm : m.sqrt = sqrt64) :
    orthoOuter m 4 tinyX basis 0 0 = ![fin (1 / 2), fin 0, fin 0, fin 0] := by
  rw [orthoOuter_zero_row]
  have hn : skalarpoly 4 tinyX (basis 0) (basis 0) = fin 4 := by decide!
  rw [hn, sqrt_four64 m hm]
  decide!

/-- The row `[0, 1, 0, 0]` after the inner loop of pass `1` over `tinyX`. -/
theorem tiny_projected :
    linear (basis 1) ![fin (1 / 2), fin 0, fin 0, fin 0]
        (-skalarpoly 4 tinyX (basis 1) ![fin (1 / 2), fin 0, fin 0, fin 0])
      = ![fin (-(5 / 2) * (2 : Bin64) ^ (-600 : ℤ)), fin 1, fin 0, fin 0] := by
  decide!

/-- The norm of pass `1` over `tinyX`: every square `(x_k - 5/2 * 2^-600)^2` underflows to
zero. -/
theorem tiny_norm_one :
    skalarpoly 4 tinyX ![fin (-(5 / 2) * (2 : Bin64) ^ (-600 : ℤ)), fin 1, fin 0, fin 0]
      ![fin (-(5 / 2) * (2 : Bin64) ^ (-600 : ℤ)), fin 1, fin 0, fin 0] = fin 0 := by
  decide!

/-- Row `1` of the base after the passes `0` and `1` over `tinyX`: the row is multiplied by
`1.0 / sqrt(0) = +Inf`. -/
theorem tiny_row_one (m : Libm Bin64) (hm : m.sqrt = sqrt64) :
    orthoOuter m 4 tinyX (orthoOuter m 4 tinyX basis 0) 1 1 = ![ninf, pinf, nan, nan] := by
  rw [orthoOuter_one_row, tiny_row_zero m hm,
    orthoOuter_other m 4 tinyX basis 0 1 (by decide), tiny_projected, tiny_norm_one,
    sqrt_zero64 m hm]
  decide!

theorem tiny_final_zero (m : Libm Bin64) (hm : m.sqrt = sqrt64) :
    orthonormal m 4 tinyX basis 0 = ![fin (1 / 2), fin 0, fin 0, fin 0] :=
  (orthonormal_rows m 4 tinyX basis).1.trans (tiny_row_zero m hm)

theorem tiny_final_one (m : Libm Bin64) (hm : m.sqrt = sqrt64) :
    orthonormal m 4 tinyX basis 1 = ![ninf, pinf, nan, nan] :=
  (orthonormal_rows m 4 tinyX basis).2.trans (tiny_row_one m hm)

theorem tiny_skalarpoly_one :
    skalarpoly 4 tinyX (![ninf, pinf, nan, nan] : polynom Bin64) ![ninf, pinf, nan, nan]
      = nan := by decide!

theorem tiny_skalar_one (y : Fin 4 → Dbl Bin64) :
    skalar 4 tinyX y (![ninf, pinf, nan, nan] : polynom Bin64) = nan := by
  have hv : ∀ i, value (![ninf, pinf, nan, nan] : polynom Bin64) (tinyX i) = nan := by decide!
  have h : skalar 4 tinyX y (![ninf, pinf, nan, nan] : polynom Bin64)
      = 0.0 + y 0 * value ![ninf, pinf, nan, nan] (tinyX 0)
        + y 1 * value ![ninf, pinf, nan, nan] (tinyX 1)
        + y 2 * value ![ninf, pinf, nan, nan] (tinyX 2)
        + y 3 * value ![ninf, pinf, nan, nan] (tinyX 3) := rfl
  rw [h]
  simp only [hv, mul_nan, add_nan, nan_add]

theorem tiny_second_zero (m : Libm Bin64) (hm : m.sqrt = sqrt64) :
    orthoOuter m 4 tinyX (orthonormal m 4 tinyX basis) 0 0
      = ![fin (1 / 2), fin 0, fin 0, fin 0] := by
  rw [orthoOuter_zero_row, tiny_final_zero m hm]
  have h1 : skalarpoly 4 tinyX (![fin (1 / 2), fin 0, fin 0, fin 0] : polynom Bin64)
      ![fin (1 / 2), fin 0, fin 0, fin 0] = fin 1 := by decide!
  rw [h1, sqrt_one64 m hm]
  decide!

theorem tiny_second_one (m : Libm Bin64) (hm : m.sqrt = sqrt64) :
    orthoOuter m 4 tinyX (orthoOuter m 4 tinyX (orthonormal m 4 tinyX basis) 0) 1 1
      = ![nan, nan, nan, nan] := by
  rw [orthoOuter_one_row, orthoOuter_other m 4 tinyX _ 0 1 (by decide), tiny_second_zero m hm,
    tiny_final_one m hm]
  have h3 : linear (![ninf, pinf, nan, nan] : polynom Bin64) ![fin (1 / 2), fin 0, fin 0, fin 0]
      (-skalarpoly 4 tinyX ![ninf, pinf, nan, nan] ![fin (1 / 2), fin 0, fin 0, fin 0])
      = ![nan, nan, nan, nan] := by decide!
  rw [h3]
  have h4 : skalarpoly 4 tinyX (![nan, nan, nan, nan] : polynom Bin64) ![nan, nan, nan, nan]
      = nan := by decide!
  rw [h4]
  have h5 : sqrt m (nan : Dbl Bin64) = nan := rfl
  rw [h5]
  decide!

/-- C3 (fails on the code): over the four distinct abscissas `2^-600 * {1, 2, 3, 4}` binary64
computes the norm `0` in pass `1` of `orthonormal(basis)` (every square underflows), the row is
multiplied by `+Inf`, and whatever the math library is, `skalarpoly(q_1, q_1)` of the resulting
base is NaN and not `1`. -/
theorem orthonormal_underflows :
    Function.Injective tinyX ∧
    EveryLibm (fun m =>
      skalarpoly 4 tinyX (orthonormal m 4 tinyX basis 1) (orthonormal m 4 tinyX basis 1)
        = nan) :=
  ⟨tinyX_injective, fun m hm => by
    beta_reduce
    rw [tiny_final_one m hm]
    exact tiny_skalarpoly_one⟩

/-- C17 (fails on the code): over the four distinct abscissas `2^-600 * {1, 2, 3, 4}` the norm
that pass `1` of `orthonormal(basis)` computes in binary64 is zero, not strictly positive. -/
theorem norm_zero_with_four_abscissas :
    Function.Injective tinyX ∧
    EveryLibm (fun m => orthoNorm m 4 tinyX basis 1 = fin 0) := by
  refine ⟨tinyX_injective, fun m hm => ?_⟩
  beta_reduce
  rw [orthoNorm_one, orthoProject_one, tiny_row_zero m hm,
    orthoOuter_other m 4 tinyX basis 0 1 (by decide), tiny_projected, tiny_norm_one]

/-- C21 (fails on the code): over the four distinct abscissas `2^-600 * {1, 2, 3, 4}` the row
`basis[1]` after the outer iteration `1` is `[-Inf, +Inf, NaN, NaN]` in binary64: its
coefficients at the indices `2` and `3` are not `0` and its coefficient at index `1` is not a
positive number. -/
theorem triangular_shape_lost :
    Function.Injective tinyX ∧
    EveryLibm (fun m => orthoAfter m 4 tinyX basis 1 1 = ![ninf, pinf, nan, nan]) := by
  refine ⟨tinyX_injective, fun m hm => ?_⟩
  beta_reduce
  rw [orthoAfter_one]
  exact tiny_row_one m hm

/-- C4 (fails on the code): over the four distinct abscissas `2^-600 * {1, 2, 3, 4}` and the
targets `1, 2, 3, 5` the fit that `approx()` returns after `orthonormal(basis)` in binary64
evaluates to NaN at every abscissa, so its sum of squares is below that of no polynomial. -/
theorem approx_underflows :
    Function.Injective tinyX ∧
    EveryLibm (fun m => ∀ i,
      value (approx 4 tinyX ![fin 1, fin 2, fin 3, fin 5] (orthonormal m 4 tinyX basis)) (tinyX i)
        = nan) := by
  refine ⟨tinyX_injective, fun m hm i => ?_⟩
  have h : skalar 4 tinyX ![fin 1, fin 2, fin 3, fin 5] (orthonormal m 4 tinyX basis 1) = nan := by
    rw [tiny_final_one m hm]
    exact tiny_skalar_one _
  rw [approx_nan 4 tinyX _ _ h]
  exact value_nan _

/-- C6 (fails on the code): over the four distinct abscissas `2^-600 * {1, 2, 3, 4}` with the
targets `y_i = 1` generated by the cubic `[1, 0, 0, 0]`, `orthonormal` followed by `approx`
returns `[NaN, NaN, NaN, NaN]` in binary64, not `[1, 0, 0, 0]`. -/
theorem refit_underflows :
    Function.Injective tinyX ∧
    EveryLibm (fun m =>
      approx 4 tinyX (fun _ => fin 1) (orthonormal m 4 tinyX basis) = fun _ => nan) := by
  refine ⟨tinyX_injective, fun m hm => ?_⟩
  beta_reduce
  have h : skalar 4 tinyX (fun _ => fin 1) (orthonormal m 4 tinyX basis 1) = nan := by
    rw [tiny_final_one m hm]
    exact tiny_skalar_one _
  exact approx_nan 4 tinyX _ _ h

/-- C14 (fails on the code): over the four distinct abscissas `2^-600 * {1, 2, 3, 4}` a run of
`orthonormal` on the canonical base leaves `basis[1] = [-Inf, +Inf, NaN, NaN]` in binary64, and
a second run over the same sample set on the base as the first run left it gives
`basis[1] = [NaN, NaN, NaN, NaN]`: the result depends on the state of the global base, and
`orthonormal` is not idempotent. -/
theorem orthonormal_not_idempotent :
    Function.Injective tinyX ∧
    EveryLibm (fun m =>
      orthonormal m 4 tinyX basis 1 = ![ninf, pinf, nan, nan] ∧
      orthonormal m 4 tinyX (orthonormal m 4 tinyX basis) 1 = ![nan, nan, nan, nan]) :=
  ⟨tinyX_injective, fun m hm => ⟨tiny_final_one m hm,
    (orthonormal_rows m 4 tinyX _).2.trans (tiny_second_one m hm)⟩⟩

end underflow

/-! ## The conversions in binary64: absorption, overflow, representable values -/

section conversions64

set_option maxRecDepth 100000

/-- The temperature enters `dNtcTempToRes` through `a0 - 1.0 / (dT - TABS)` only. -/
theorem dNtcTempToRes_congr {α : Type} [LinearOrderedField α] [FloorRing α] [Rounding α]
    (m : Libm α) (t1 t2 : Dbl α) (a : Fin 4 → Dbl α)
    (h : a 0 - 1.0 / (t1 - TABS) = a 0 - 1.0 / (t2 - TABS)) :
    dNtcTempToRes m t1 a = dNtcTempToRes m t2 a := by
  simp only [dNtcTempToRes, h]

/-- At `t = 2^1000` and at `t = 2^1001` the reciprocal `1.0 / (t - TABS)` is absorbed by the
coefficient `a0` of the reference set. -/
theorem absorbed_by_a0 :
    (refCoeff 0 - 1.0 / (fin ((2 : Bin64) ^ 1000) - TABS) : Dbl Bin64)
      = refCoeff 0 - 1.0 / (fin ((2 : Bin64) ^ 1001) - TABS) := by decide!

theorem same_resistance (m : Libm Bin64) :
    dNtcTempToRes m (fin ((2 : Bin64) ^ 1000)) refCoeff
      = dNtcTempToRes m (fin ((2 : Bin64) ^ 1001)) refCoeff :=
  dNtcTempToRes_congr m _ _ refCoeff absorbed_by_a0

/-- C18 (fails on the code): with the reference coefficient set and the temperatures
`-273.15 < 2^1000 < 2^1001`, binary64 computes the same resistance for both, whatever the math
library is: `dNtcTempToRes` is not strictly decreasing. -/
theorem resistance_not_decreasing :
    (-273.15 : ℚ) < 2 ^ 1000 ∧ (2 : ℚ) ^ 1000 < 2 ^ 1001 ∧
    EveryLibm (fun m =>
      dNtcTempToRes m (fin ((2 : Bin64) ^ 1000)) refCoeff
        = dNtcTempToRes m (fin ((2 : Bin64) ^ 1001)) refCoeff ∧
      Dbl.lt (dNtcTempToRes m (fin ((2 : Bin64) ^ 1001)) refCoeff)
        (dNtcTempToRes m (fin ((2 : Bin64) ^ 1000)) refCoeff) = false) := by
  refine ⟨by norm_num, by norm_num, fun m _ => ⟨same_resistance m, ?_⟩⟩
  rw [same_resistance m]
  exact lt_irrefl_dbl _

/-- C20 (fails on the code): for the coefficients `[3, 0, 0, 2^-1074]` (`a3 ≠ 0`, `p = 0`) and
`r = 1`, the polynomial at `ln 1 = 0` is `3 ≠ 0` and binary64 computes
`dNtcResToTemp(1, a) = 1.0 / 3 + TABS`; back in `dNtcTempToRes` the difference
`a0 - 1.0 / (t - TABS)` is a rounding error, its quotient by `a3` overflows to `-Inf`, and
whatever the math library is the result is NaN and not `r = 1`. -/
theorem reverse_round_trip_overflows :
    EveryLibm (fun m =>
      dNtcResToTemp m (fin 1) ![fin 3, fin 0, fin 0, fin ((2 : Bin64) ^ (-1074 : ℤ))]
        = fin (-(4799441556017425 / 17592186044416 : Bin64)) ∧
      dNtcTempToRes_p (![fin 3, fin 0, fin 0, fin ((2 : Bin64) ^ (-1074 : ℤ))]
        : Fin 4 → Dbl Bin64) = fin 0 ∧
      dNtcTempToRes m
          (dNtcResToTemp m (fin 1) ![fin 3, fin 0, fin 0, fin ((2 : Bin64) ^ (-1074 : ℤ))])
          ![fin 3, fin 0, fin 0, fin ((2 : Bin64) ^ (-1074 : ℤ))] = nan) := by
  intro m _
  have ht : dNtcResToTemp m (fin 1) ![fin 3, fin 0, fin 0, fin ((2 : Bin64) ^ (-1074 : ℤ))]
      = fin (-(4799441556017425 / 17592186044416 : Bin64)) := by
    rw [dNtcResToTemp_unrolled, log_one64]
    decide!
  refine ⟨ht, by decide!, ?_⟩
  rw [ht, dNtcTempToRes_locals]
  have hq : dNtcTempToRes_q (fin (-(4799441556017425 / 17592186044416 : Bin64)))
      ![fin 3, fin 0, fin 0, fin ((2 : Bin64) ^ (-1074 : ℤ))] = ninf := by decide!
  have hd : dNtcTempToRes_disc (fin (-(4799441556017425 / 17592186044416 : Bin64)))
      ![fin 3, fin 0, fin 0, fin ((2 : Bin64) ^ (-1074 : ℤ))] = pinf := by decide!
  have hs : sqrt m (pinf : Dbl Bin64) = pinf := rfl
  have hA : (ninf / 2.0 + pinf : Dbl Bin64) = nan := by decide!
  rw [hq, hd, hs, hA, pow_nan_third64]
  simp only [neg_nan, add_nan, nan_sub]
  rfl

end conversions64

/-! ## Sample sets with five abscissas and with three distinct abscissas -/

section richerSamples

theorem sampleX5_distinct : 4 ≤ (Finset.univ.image (sampleX5 : Fin 5 → ℝ)).card := by
  have hinj : Function.Injective (sampleX5 : Fin 5 → ℝ) := by
    intro a b h
    fin_cases a <;> fin_cases b <;> simp [sampleX5] at h ⊢
  rw [Finset.card_image_of_injective _ hinj]
  simp

theorem sampleX3_card : (Finset.univ.image (sampleX3 : Fin 4 → ℝ)).card = 3 := by
  have e : Finset.univ.image (sampleX3 : Fin 4 → ℝ) = {0, 1, 2} := by
    ext v
    simp only [Finset.mem_image, Finset.mem_univ, true_and, Finset.mem_insert,
      Finset.mem_singleton]
    constructor
    · rintro ⟨i, rfl⟩
      fin_cases i <;> simp [sampleX3]
    · rintro (rfl | rfl | rfl)
      · exact ⟨0, by simp [sampleX3]⟩
      · exact ⟨1, by simp [sampleX3]⟩
      · exact ⟨2, by simp [sampleX3]⟩
  rw [e]
  norm_num

theorem approx_least_squares_witness :
    Libm.Exact ⟨Real.sqrt, Real.exp, Real.log, fun a b => a ^ b⟩ ∧
    4 ≤ (Finset.univ.image (sampleX5 : Fin 5 → ℝ)).card ∧
    ∃ v : Fin 5 → ℝ,
      (∀ i, value (approx 5 (fun k => fin (sampleX5 k)) (fun k => fin (sampleY5 k))
          (orthonormal ⟨Real.sqrt, Real.exp, Real.log, fun a b => a ^ b⟩ 5
            (fun k => fin (sampleX5 k)) basis)) (fin (sampleX5 i)) = fin (v i)) ∧
      ∀ c : Fin 4 → ℝ, ∑ i, (v i - sampleY5 i) ^ 2
        ≤ ∑ i, (c 0 + c 1 * sampleX5 i + c 2 * sampleX5 i ^ 2 + c 3 * sampleX5 i ^ 3
            - sampleY5 i) ^ 2 :=
  ⟨⟨rfl, rfl, rfl, rfl⟩, sampleX5_distinct,
    approx_least_squares _ ⟨rfl, rfl, rfl, rfl⟩ 5 sampleX5 sampleY5 sampleX5_distinct⟩

theorem norms_positive_iff_witness :
    Libm.Exact ⟨Real.sqrt, Real.exp, Real.log, fun a b => a ^ b⟩ ∧
    (Finset.univ.image (sampleX3 : Fin 4 → ℝ)).card = 3 ∧
    orthoNorm ⟨Real.sqrt, Real.exp, Real.log, fun a b => a ^ b⟩ 4
      (fun k => fin (sampleX3 k)) basis 3 = fin 0 ∧
    (∃ v : ℝ, 0 < v ∧ orthoNorm ⟨Real.sqrt, Real.exp, Real.log, fun a b => a ^ b⟩ 4
      (fun k => fin (sampleX3 k)) basis 2 = fin v) ∧
    4 ≤ (Finset.univ.image (sampleX : Fin 4 → ℝ)).card ∧
    ∀ i : Fin 4, ∃ v : ℝ, 0 < v ∧ orthoNorm ⟨Real.sqrt, Real.exp, Real.log, fun a b => a ^ b⟩
      4 (fun k => fin (sampleX k)) basis i = fin v :=
  ⟨⟨rfl, rfl, rfl, rfl⟩, sampleX3_card,
    (norms_positive_iff _ ⟨rfl, rfl, rfl, rfl⟩ 4 sampleX3).2.1 3 (by rw [sampleX3_card]; rfl),
    (norms_positive_iff _ ⟨rfl, rfl, rfl, rfl⟩ 4 sampleX3).1 2
      (by rw [sampleX3_card]; decide),
    sampleX_distinct,
    (norms_positive_iff _ ⟨rfl, rfl, rfl, rfl⟩ 4 sampleX).2.2.mpr sampleX_distinct⟩

end richerSamples

/-! ## The triangular invariant -/

section triangularClaim

/-- C21 (amended): triangular-basis invariant.  In every arithmetic (binary64 or exact), for
every sample set and every base, the rows `basis[i+1..3]` not yet processed after the outer
iteration `i` of `orthonormal` are unchanged, so from the canonical base they are still the
canonical monomials, and the base after iteration `3` is the result of `orthonormal`.  In exact
real arithmetic, for every finite sample set with at least four distinct abscissas and every
outer iteration `i` from the canonical base, the base after iteration `i` is finite, every
polynom `a` in it has its coefficients at indices `> a` equal to `0` and its coefficient at
index `a` strictly positive; the final base is lower triangular with a positive diagonal and
every polynom of degree at most three is a combination of its four polynoms. -/
theorem triangular_invariant :
    (∀ (α : Type) [LinearOrderedField α] [Rounding α] (m : Libm α) (n : ℕ) (x : Fin n → Dbl α)
        (p : Fin 4 → polynom α),
      (∀ i a : Fin 4, i < a → orthoAfter m n x p i a = p a) ∧
      orthoAfter m n x p 3 = orthonormal m n x p) ∧
    (∀ m : Libm ℝ, m.Exact → ∀ (n : ℕ) (x : Fin n → ℝ), 4 ≤ (Finset.univ.image x).card →
      (∀ i : Fin 4, ∃ Q : Fin 4 → Fin 4 → ℝ,
        orthoAfter m n (fun k => fin (x k)) basis i = (fun a b => fin (Q a b)) ∧
        (∀ a k : Fin 4, a < k → Q a k = 0) ∧ (∀ a : Fin 4, 0 < Q a a) ∧
        (∀ a : Fin 4, i < a → orthoAfter m n (fun k => fin (x k)) basis i a = basis a)) ∧
      ∃ Q : Fin 4 → Fin 4 → ℝ,
        orthonormal m n (fun k => fin (x k)) basis = (fun a b => fin (Q a b)) ∧
        (∀ a k : Fin 4, a < k → Q a k = 0) ∧ (∀ a : Fin 4, 0 < Q a a) ∧
        ∀ c : Fin 4 → ℝ, ∃ g : Fin 4 → ℝ, ∀ j, c j = ∑ k, g k * Q k j) := by
  refine ⟨fun α _ _ m n x p => ⟨fun i a h => orthoAfter_other m n x p i a h,
    orthoAfter_last m n x p⟩, fun m hm n x hx => ⟨fun i => ?_, ?_⟩⟩
  · obtain ⟨Q, e, hT, -⟩ := orthoAfter_spec m hm n x hx canonical canonical_triangular i
    rw [← basis_eq] at e
    exact ⟨Q, e, hT.1, hT.2, fun a hia => orthoAfter_other m n _ basis i a hia⟩
  · obtain ⟨Q, e, hT, -⟩ := orthoAfter_spec m hm n x hx canonical canonical_triangular 3
    rw [← basis_eq, orthoAfter_last] at e
    refine ⟨Q, e, hT.1, hT.2, fun c => ?_⟩
    obtain ⟨g, hg⟩ := triangular_span Q hT c
    refine ⟨g, fun j => ?_⟩
    rw [hg]
    rfl

theorem triangular_invariant_witness :
    Libm.Exact ⟨Real.sqrt, Real.exp, Real.log, fun a b => a ^ b⟩ ∧
    4 ≤ (Finset.univ.image (sampleX : Fin 4 → ℝ)).card ∧
    (∀ (m : Libm Bin64) (i a : Fin 4), i < a → orthoAfter m 4 tinyX basis i a = basis a) ∧
    (∀ i : Fin 4, ∃ Q : Fin 4 → Fin 4 → ℝ,
      orthoAfter ⟨Real.sqrt, Real.exp, Real.log, fun a b => a ^ b⟩ 4
        (fun k => fin (sampleX k)) basis i = (fun a b => fin (Q a b)) ∧
      (∀ a k : Fin 4, a < k → Q a k = 0) ∧ (∀ a : Fin 4, 0 < Q a a) ∧
      (∀ a : Fin 4, i < a → orthoAfter ⟨Real.sqrt, Real.exp, Real.log, fun a b => a ^ b⟩ 4
        (fun k => fin (sampleX k)) basis i a = basis a)) ∧
    ∃ Q : Fin 4 → Fin 4 → ℝ,
      orthonormal ⟨Real.sqrt, Real.exp, Real.log, fun a b => a ^ b⟩ 4
        (fun k => fin (sampleX k)) basis = (fun a b => fin (Q a b)) ∧
      (∀ a k : Fin 4, a < k → Q a k = 0) ∧ (∀ a : Fin 4, 0 < Q a a) ∧
      ∀ c : Fin 4 → ℝ, ∃ g : Fin 4 → ℝ, ∀ j, c j = ∑ k, g k * Q k j :=
  ⟨⟨rfl, rfl, rfl, rfl⟩, sampleX_distinct,
    fun m => (triangular_invariant.1 Bin64 m 4 tinyX basis).1,
    triangular_invariant.2 ⟨Real.sqrt, Real.exp, Real.log, fun a b => a ^ b⟩ ⟨rfl, rfl, rfl, rfl⟩
      4 sampleX sampleX_distinct⟩

end triangularClaim
